import Mathlib

/-! # rankblock.token: a shallow embedding of the ledger contract

The contract `rankblocktoken` (src/rankblock.token/rankblock.token.cpp) is an EOSIO token
contract with four actions, `create`, `issue`, `transfer` and `regairdrop`, and two private
helpers, `sub_balance` and `add_balance`.  It keeps two `multi_index` tables:

* `stats`, scoped by symbol name, one `currency_stats` row per token;
* `accounts`, scoped by owner, one `account` row per token the owner holds.

The embedding keeps the order of the checks of every action.  An `eosio_assert` that fails
aborts the transaction, which the host rolls back, so an action is a function
`State → Except Error State` and a failed action leaves the state it started from.

Library parts (eosiolib `symbol_type`, `asset`, `multi_index`) are written out from their
documented behaviour: 64 bit amounts, the `2^62 - 1` magnitude limit of `asset`, the checked
`+=` and `-=` of `asset`, primary keys unique within a scope.

What the host does around an action is kept outside the state: who authorised the action
and which account names exist are answers of the host (`Env`); notifications
(`require_recipient`) and RAM billing do not change the two tables and are left out.
-/

namespace Rankblock

/-! ## Errors -/

/-- Abort reasons. The constructors `e_N` are the messages `"e.N"` of the source, `err_4` is
`"err.4"`; the others are raised by the host or by eosiolib.

| constructor | source | meaning |
|---|---|---|
| `e_1` | create, issue | invalid symbol name |
| `e_2` | create | invalid supply |
| `e_3` | create | max-supply must be positive |
| `err_4` | create | token with symbol already exists |
| `e_4` | issue, transfer | memo has more than 256 bytes |
| `e_5` | issue | token with symbol does not exist |
| `e_6` | issue, transfer | invalid quantity |
| `e_7` | issue | must issue positive quantity |
| `e_8` | issue | symbol precision mismatch |
| `e_9` | issue | quantity exceeds available supply |
| `e_10` | transfer | cannot transfer to self |
| `e_11` | transfer | to account does not exist |
| `e_12` | transfer | must transfer positive quantity |
| `e_13` | transfer | symbol precision mismatch |
| `e_14` | sub_balance | no balance object found |
| `e_15` | sub_balance | overdrawn balance |
| `e_16` | regairdrop | receiver is already registered |
| `missing_auth` | require_auth | missing authority |
| `key_not_found` | `multi_index::get` | unable to find key |
| `duplicate_key` | `multi_index::emplace` | a row with this primary key is already stored |
| `asset_symbol` | `asset::operator+=`, `-=` | operands carry different symbols |
| `asset_range` | `asset::operator+=`, `-=` | result magnitude above `2^62 - 1` |
-/
inductive Error where
  | e_1 | e_2 | e_3 | err_4 | e_4 | e_5 | e_6 | e_7 | e_8 | e_9 | e_10
  | e_11 | e_12 | e_13 | e_14 | e_15 | e_16
  | missing_auth | key_not_found | duplicate_key | asset_symbol | asset_range
  deriving DecidableEq, Repr

deriving instance DecidableEq for Except

/-! ## eosiolib: symbols and assets -/

/-- Two's complement reading of a 64 bit result: the value an `int64_t` holds after an
addition or subtraction whose mathematical result is `x`. -/
def wrap64 (x : Int) : Int := (x + 2 ^ 63) % 2 ^ 64 - 2 ^ 63

/-- The test `'A' <= c && c <= 'Z'` on a byte. -/
def is_upper (c : Nat) : Bool := decide (65 ≤ c) && decide (c ≤ 90)

/-- The inner `do ... while (i < 7)` loop of `is_valid_symbol`: `n` rounds, each shifting the
value by one byte and rejecting a non-zero low byte. -/
def tail_zero : Nat → Nat → Bool
  | 0, _ => true
  | n + 1, sym =>
    let sym1 := sym / 256
    if sym1 % 256 ≠ 0 then false else tail_zero n sym1

/-- The `for (i = 0; i < 7; ++i)` loop of `is_valid_symbol` with `n = 7 - i` rounds left:
the low byte must be an upper case letter; once the shifted value is zero (`if (!sym)`) the
inner loop uses up the remaining rounds. -/
def valid_loop : Nat → Nat → Bool
  | 0, _ => true
  | n + 1, sym =>
    if !is_upper (sym % 256) then false
    else
      let sym1 := sym / 256
      if sym1 = 0 then tail_zero (n + 1) sym1 else valid_loop n sym1

/-- The eosiolib check `is_valid_symbol`: after the precision byte come one to seven upper
case letters, then only zero bytes. -/
def is_valid_symbol (sym : Nat) : Bool := valid_loop 7 (sym / 256)

/-- The eosiolib `symbol_type`: a 64 bit value, precision in the low byte, the code above. -/
structure symbol_type where
  value : Nat
  deriving DecidableEq, Repr

/-- The accessor `symbol_type::name()`, `value >> 8`. -/
def symbol_type.name (s : symbol_type) : Nat := s.value / 256

/-- The accessor `symbol_type::precision()`, `value & 0xff`. -/
def symbol_type.precision (s : symbol_type) : Nat := s.value % 256

/-- The method `symbol_type::is_valid()`. -/
def symbol_type.is_valid (s : symbol_type) : Bool := is_valid_symbol s.value

/-- The eosiolib `string_to_symbol(precision, str)` on the bytes of `str`: byte `i` of the
code goes to bits `8 * (1 + i)`, bytes outside `A..Z` are skipped. -/
def string_to_symbol_loop : Nat → List Nat → Nat → Nat
  | _, [], result => result
  | i, c :: cs, result =>
    if c < 65 ∨ c > 90 then string_to_symbol_loop (i + 1) cs result
    else string_to_symbol_loop (i + 1) cs (result ||| (c <<< (8 * (1 + i))))

/-- The eosiolib `string_to_symbol`. -/
def string_to_symbol (precision : Nat) (str : List Nat) : Nat :=
  string_to_symbol_loop 0 str 0 ||| precision

/-- Line 8 of the source: `rankblock_SYMBOL = symbol_type(string_to_symbol(4, "RB"))`;
`'R' = 82`, `'B' = 66`. -/
def rankblock_SYMBOL : symbol_type := ⟨string_to_symbol 4 [82, 66]⟩

/-- The constant `asset::max_amount = (1LL << 62) - 1`. -/
def max_amount : Int := 2 ^ 62 - 1

/-- The eosiolib `asset`: a signed 64 bit amount and its symbol. -/
structure asset where
  amount : Int
  symbol : symbol_type
  deriving DecidableEq, Repr

/-- The method `asset::is_amount_within_range()`. -/
def asset.is_amount_within_range (a : asset) : Bool :=
  decide (-max_amount ≤ a.amount) && decide (a.amount ≤ max_amount)

/-- The method `asset::is_valid()`. -/
def asset.is_valid (a : asset) : Bool := a.is_amount_within_range && a.symbol.is_valid

/-- The checked `asset::operator+=`: same symbol required, 64 bit addition, then the range
assertions. -/
def asset.add (a b : asset) : Except Error asset :=
  if b.symbol ≠ a.symbol then .error .asset_symbol
  else
    let amount := wrap64 (a.amount + b.amount)
    if ¬ (-max_amount ≤ amount) then .error .asset_range
    else if ¬ (amount ≤ max_amount) then .error .asset_range
    else .ok { a with amount := amount }

/-- The checked `asset::operator-=`. -/
def asset.sub (a b : asset) : Except Error asset :=
  if b.symbol ≠ a.symbol then .error .asset_symbol
  else
    let amount := wrap64 (a.amount - b.amount)
    if ¬ (-max_amount ≤ amount) then .error .asset_range
    else if ¬ (amount ≤ max_amount) then .error .asset_range
    else .ok { a with amount := amount }

/-! ## Tables -/

/-- Modelled from the spec: the row type `account` of the header rankblock.token.hpp, which
is not among the sources. One balance per row (spec section 3, AccountBalance), the table is
keyed by symbol name (spec section 6). -/
structure account where
  balance : asset
  deriving DecidableEq, Repr

/-- Modelled from the spec: the row type `currency_stats` of the header rankblock.token.hpp,
which is not among the sources. Issuer, current supply and maximum supply (spec section 3,
SupplyStats; the fields `supply`, `max_supply`, `issuer` are the ones the source writes), the
table is keyed by symbol name (spec section 6). -/
structure currency_stats where
  supply : asset
  max_supply : asset
  issuer : Nat
  deriving DecidableEq, Repr

/-- Modelled from the spec: the key function `account::primary_key()` of the missing header,
the symbol name of the balance. -/
def account.primary_key (a : account) : Nat := a.balance.symbol.name

/-- Modelled from the spec: the key function `currency_stats::primary_key()` of the missing
header, the symbol name of the supply. -/
def currency_stats.primary_key (st : currency_stats) : Nat := st.supply.symbol.name

/-- A `multi_index` table over all its scopes: the stored rows, each with its scope, in
insertion order. -/
abbrev Table (α : Type) := List (Nat × α)

/-- The row test of a lookup: scope and primary key both agree. -/
def Table.hit {α : Type} (pk : α → Nat) (scope key : Nat) (r : Nat × α) : Bool :=
  r.1 == scope && pk r.2 == key

/-- The lookup `multi_index::find` in the table instance of `scope`. -/
def Table.find {α : Type} (pk : α → Nat) (t : Table α) (scope key : Nat) : Option α :=
  (List.find? (Table.hit pk scope key) t).map Prod.snd

/-- The insertion `multi_index::emplace`: the host refuses a second row with the same
primary key in the same scope. -/
def Table.emplace {α : Type} (pk : α → Nat) (t : Table α) (scope : Nat) (row : α) :
    Except Error (Table α) :=
  if (Table.find pk t scope (pk row)).isSome then .error .duplicate_key
  else .ok (t ++ [(scope, row)])

/-- Replace the first row that satisfies `p`. -/
def replaceFirst {β : Type} (p : β → Bool) (new : β) : List β → List β
  | [] => []
  | x :: xs => if p x then new :: xs else x :: replaceFirst p new xs

/-- The update `multi_index::modify` of the row an iterator obtained by `find scope key`
points at. The updaters of this contract keep the symbol, hence the primary key. -/
def Table.modify {α : Type} (pk : α → Nat) (t : Table α) (scope key : Nat) (row : α) :
    Table α :=
  replaceFirst (Table.hit pk scope key) (scope, row) t

/-- The removal `multi_index::erase` of the row an iterator obtained by `find scope key`
points at. -/
def Table.erase {α : Type} (pk : α → Nat) (t : Table α) (scope key : Nat) : Table α :=
  List.eraseP (Table.hit pk scope key) t

/-! ## Contract state and call context -/

/-- The persistent state of the contract: its two tables. -/
structure State where
  stats : Table currency_stats
  accounts : Table account
  deriving DecidableEq, Repr

/-- The empty ledger. -/
def State.empty : State := ⟨[], []⟩

/-- Build parameters of the contract: the account it is deployed on (`_self`) and the
symbol a default-constructed `asset` carries (`CORE_SYMBOL` of eosiolib). -/
structure Config where
  self : Nat
  core_symbol : symbol_type

/-- What the host answers during one action: which accounts authorised the action
(`require_auth`) and which account names exist (`is_account`). -/
structure Env where
  has_auth : Nat → Bool
  is_account : Nat → Bool

/-- The lookup in the `stats` table. -/
def State.find_stats (s : State) (scope key : Nat) : Option currency_stats :=
  Table.find currency_stats.primary_key s.stats scope key

/-- The lookup in the `accounts` table. -/
def State.find_account (s : State) (owner key : Nat) : Option account :=
  Table.find account.primary_key s.accounts owner key

/-! ## The actions -/

/-- Source lines 10-29, `rankblocktoken::create`. -/
def create (cfg : Config) (env : Env) (issuer : Nat) (maximum_supply : asset) (s : State) :
    Except Error State :=
  if ¬ env.has_auth cfg.self then .error .missing_auth
  else
    let sym := maximum_supply.symbol
    if ¬ sym.is_valid then .error .e_1
    else if ¬ maximum_supply.is_valid then .error .e_2
    else if ¬ (maximum_supply.amount > 0) then .error .e_3
    else
      match s.find_stats sym.name sym.name with
      | some _ => .error .err_4
      | none =>
        match Table.emplace currency_stats.primary_key s.stats sym.name
            { supply := { amount := 0, symbol := maximum_supply.symbol },
              max_supply := maximum_supply,
              issuer := issuer } with
        | .error e => .error e
        | .ok stats => .ok { s with stats := stats }

/-- Source lines 86-103, `rankblocktoken::sub_balance`. -/
def sub_balance (owner : Nat) (value : asset) (s : State) : Except Error State :=
  match s.find_account owner value.symbol.name with
  | none => .error .e_14
  | some acnt =>
    if ¬ (acnt.balance.amount ≥ value.amount) then .error .e_15
    else if acnt.balance.amount = value.amount then
      .ok { s with accounts :=
              (Table.erase account.primary_key s.accounts owner value.symbol.name) }
    else
      match acnt.balance.sub value with
      | .error e => .error e
      | .ok b =>
        .ok { s with accounts :=
                (Table.modify account.primary_key s.accounts owner value.symbol.name
                  { balance := b }) }

/-- Source lines 105-121, `rankblocktoken::add_balance`. The RAM payer decides who is
billed for the row and has no effect on the stored values. -/
def add_balance (owner : Nat) (value : asset) (_ram_payer : Nat) (s : State) :
    Except Error State :=
  match s.find_account owner value.symbol.name with
  | none =>
    match Table.emplace account.primary_key s.accounts owner { balance := value } with
    | .error e => .error e
    | .ok accounts => .ok { s with accounts := accounts }
  | some acnt =>
    match acnt.balance.add value with
    | .error e => .error e
    | .ok b =>
      .ok { s with accounts :=
              (Table.modify account.primary_key s.accounts owner value.symbol.name
                { balance := b }) }

/-- Source lines 62-84, `rankblocktoken::transfer`. The two `require_recipient` calls only
notify and are left out. -/
def transfer (env : Env) (from_ to_ : Nat) (quantity : asset) (memo : List Nat) (s : State) :
    Except Error State :=
  if from_ = to_ then .error .e_10
  else if ¬ env.has_auth from_ then .error .missing_auth
  else if ¬ env.is_account to_ then .error .e_11
  else
    let sym := quantity.symbol.name
    match s.find_stats sym sym with
    | none => .error .key_not_found
    | some st =>
      if ¬ quantity.is_valid then .error .e_6
      else if ¬ (quantity.amount > 0) then .error .e_12
      else if quantity.symbol ≠ st.supply.symbol then .error .e_13
      else if ¬ (memo.length ≤ 256) then .error .e_4
      else
        match sub_balance from_ quantity s with
        | .error e => .error e
        | .ok s1 => add_balance to_ quantity from_ s1

/-- Source lines 31-60, `rankblocktoken::issue`. The inline action of line 58 runs in the
same transaction with the authorisation `{st.issuer, active}`; if it aborts, the whole
transaction aborts. -/
def issue (env : Env) (to_ : Nat) (quantity : asset) (memo : List Nat) (s : State) :
    Except Error State :=
  let sym := quantity.symbol
  if ¬ sym.is_valid then .error .e_1
  else if ¬ (memo.length ≤ 256) then .error .e_4
  else
    let sym_name := sym.name
    match s.find_stats sym_name sym_name with
    | none => .error .e_5
    | some st =>
      if ¬ env.has_auth st.issuer then .error .missing_auth
      else if ¬ quantity.is_valid then .error .e_6
      else if ¬ (quantity.amount > 0) then .error .e_7
      else if quantity.symbol ≠ st.supply.symbol then .error .e_8
      else if ¬ (quantity.amount ≤ wrap64 (st.max_supply.amount - st.supply.amount)) then
        .error .e_9
      else
        match st.supply.add quantity with
        | .error e => .error e
        | .ok supply =>
          let s1 : State :=
            { s with stats :=
                (Table.modify currency_stats.primary_key s.stats sym_name sym_name
                  { st with supply := supply }) }
          match add_balance st.issuer quantity st.issuer s1 with
          | .error e => .error e
          | .ok s2 =>
            if to_ ≠ st.issuer then
              transfer { env with has_auth := fun a => a == st.issuer }
                st.issuer to_ quantity memo s2
            else .ok s2

/-- Source lines 123-133, `rankblocktoken::regairdrop`. The lookup uses the name of
`rankblock_SYMBOL`. The row is emplaced with an empty updater, so it holds a
default-constructed balance, amount `0` with `cfg.core_symbol`, and is stored under the name
of that symbol; the host refuses it when the receiver already has a row of that name. -/
def regairdrop (cfg : Config) (receiver : Nat) (s : State) : Except Error State :=
  match s.find_account receiver rankblock_SYMBOL.name with
  | some _ => .error .e_16
  | none =>
    match Table.emplace account.primary_key s.accounts receiver
        { balance := { amount := 0, symbol := cfg.core_symbol } } with
    | .error e => .error e
    | .ok accounts => .ok { s with accounts := accounts }

/-- The actions the dispatcher `EOSIO_ABI` accepts, with their arguments. -/
inductive Call where
  | create (issuer : Nat) (maximum_supply : asset)
  | issue (to_ : Nat) (quantity : asset) (memo : List Nat)
  | transfer (from_ to_ : Nat) (quantity : asset) (memo : List Nat)
  | regairdrop (receiver : Nat)

/-- Dispatch of one action. -/
def run (cfg : Config) (env : Env) : Call → State → Except Error State
  | .create issuer maximum_supply => create cfg env issuer maximum_supply
  | .issue to_ quantity memo => issue env to_ quantity memo
  | .transfer from_ to_ quantity memo => transfer env from_ to_ quantity memo
  | .regairdrop receiver => regairdrop cfg receiver

/-- The state after a call: the new state when the action succeeds, the old one when it
aborts. -/
def step (cfg : Config) (env : Env) (a : Call) (s : State) : State :=
  match run cfg env a s with
  | .ok s1 => s1
  | .error _ => s

/-- States reachable from the empty ledger by any sequence of calls, each under any
answers of the host. -/
inductive Reachable (cfg : Config) : State → Prop where
  | init : Reachable cfg State.empty
  | call {s : State} (env : Env) (a : Call) : Reachable cfg s → Reachable cfg (step cfg env a s)

/-! ## Observations -/

/-- The balance an owner holds under a symbol name: the stored amount, `0` without a row. -/
def balance_of (s : State) (owner key : Nat) : Int :=
  match s.find_account owner key with
  | some a => a.balance.amount
  | none => 0

/-- Sum of the amounts of all `accounts` rows whose primary key is `key`. -/
def total_balance (s : State) (key : Nat) : Int :=
  ((s.accounts.filter (fun r => r.2.primary_key == key)).map (fun r => r.2.balance.amount)).sum

/-- Sum of the amounts of all `accounts` rows that carry exactly the symbol `sym`. -/
def total_balance_exact (s : State) (sym : symbol_type) : Int :=
  ((s.accounts.filter (fun r => r.2.balance.symbol == sym)).map
    (fun r => r.2.balance.amount)).sum


/-! ## Well-formedness of stored states -/

/-- The (scope, primary key) pairs of the stored rows. -/
def Table.keys {α : Type} (pk : α → Nat) (t : Table α) : List (Nat × Nat) :=
  t.map (fun r => (r.1, pk r.2))

/-- Primary keys are unique within each scope, as the host database guarantees. -/
def Table.unique {α : Type} (pk : α → Nat) (t : Table α) : Prop :=
  (Table.keys pk t).Nodup

instance {α : Type} (pk : α → Nat) (t : Table α) : Decidable (Table.unique pk t) := by
  unfold Table.unique; infer_instance

/-- The stored amount of an asset lies within the magnitude limit of `asset`. -/
def asset.in_range (a : asset) : Prop := -max_amount ≤ a.amount ∧ a.amount ≤ max_amount

instance (a : asset) : Decidable a.in_range := by unfold asset.in_range; infer_instance

/-- Storage invariants every stored state has whatever the contract does: primary keys are
unique within a scope and every stored amount passed the magnitude check of `asset`. -/
def State.WF (s : State) : Prop :=
  Table.unique account.primary_key s.accounts ∧
  Table.unique currency_stats.primary_key s.stats ∧
  (∀ r ∈ s.accounts, r.2.balance.in_range) ∧
  (∀ r ∈ s.stats, r.2.supply.in_range ∧ r.2.max_supply.in_range)

instance (s : State) : Decidable s.WF := by unfold State.WF; infer_instance

/-- The supply bounds of one `stats` row: `0 <= supply <= max_supply`, `0 < max_supply`,
and the ceiling is an amount `asset` accepts. -/
def currency_stats.ok (st : currency_stats) : Prop :=
  0 ≤ st.supply.amount ∧ st.supply.amount ≤ st.max_supply.amount ∧
  0 < st.max_supply.amount ∧ st.max_supply.amount ≤ max_amount

instance (st : currency_stats) : Decidable st.ok := by unfold currency_stats.ok; infer_instance

/-- The current supply registered under a symbol name, `0` when no token is registered. -/
def supply_of (s : State) (key : Nat) : Int :=
  match s.find_stats key key with
  | some st => st.supply.amount
  | none => 0

/-- Every stored balance is non-negative and within the magnitude limit of `asset`. -/
def State.balances_ok (s : State) : Prop :=
  ∀ r ∈ s.accounts, 0 ≤ r.2.balance.amount ∧ r.2.balance.amount ≤ max_amount

/-- Every row with a non-zero balance belongs to a registered token and carries exactly the
symbol of its supply. -/
def State.coherent (s : State) : Prop :=
  ∀ r ∈ s.accounts, r.2.balance.amount ≠ 0 →
    ∃ st, s.find_stats r.2.primary_key r.2.primary_key = some st ∧
      st.supply.symbol = r.2.balance.symbol

/-- The share of one `accounts` row in the total held under the symbol name `key`. -/
def weight (key : Nat) (r : Nat × account) : Int :=
  if r.2.primary_key == key then r.2.balance.amount else 0

/-- The invariant of the ledger, kept by every action. -/
structure Inv (s : State) : Prop where
  unique_accounts : Table.unique account.primary_key s.accounts
  unique_stats : Table.unique currency_stats.primary_key s.stats
  stats_ok : ∀ r ∈ s.stats, r.2.ok
  balances_ok : s.balances_ok
  totals : ∀ key, total_balance s key = supply_of s key
  coherent : s.coherent
  stats_scoped : ∀ r ∈ s.stats, r.1 = r.2.primary_key

/-! ## A sample run

The scenario of section 8 of the spec: token `RB` with four decimals and a ceiling of
`1,000,000.0000`, issuer `A`; accounts `A = 10`, `B = 11`, `C = 12`; the contract account
is `1` and a default-constructed asset carries `4,SYS`. -/

/-- The symbol `4,SYS`, the default `CORE_SYMBOL` of eosiolib. -/
def SYS_SYMBOL : symbol_type := ⟨string_to_symbol 4 [83, 89, 83]⟩

/-- The sample deployment. -/
def demo_cfg : Config := ⟨1, SYS_SYMBOL⟩

/-- A host that authorises every account and knows every account name. -/
def demo_env : Env := ⟨fun _ => true, fun _ => true⟩

/-- An amount of the token `4,RB`, in units of `0.0001 RB`. -/
def RB (amount : Int) : asset := ⟨amount, rankblock_SYMBOL⟩

/-- After `create(A, 1000000.0000 RB)`. -/
def demo_created : State :=
  step demo_cfg demo_env (.create 10 (RB 10000000000)) State.empty

/-- After `issue(A, 500.0000 RB)`. -/
def demo_issued : State :=
  step demo_cfg demo_env (.issue 10 (RB 5000000) []) demo_created

/-- After `transfer(A, B, 200.0000 RB)`. -/
def demo_moved : State :=
  step demo_cfg demo_env (.transfer 10 11 (RB 2000000) []) demo_issued

/-- After `transfer(B, A, 200.0000 RB)`. -/
def demo_back : State :=
  step demo_cfg demo_env (.transfer 11 10 (RB 2000000) []) demo_moved

/-- An amount of the token `4,SYS`, in units of `0.0001 SYS`. -/
def SYS (amount : Int) : asset := ⟨amount, SYS_SYMBOL⟩

/-- A second run, on the sample deployment: `create(A, 1000.0000 SYS)`, then
`regairdrop(A)`, which stores a zero row `0.0000 SYS` for the issuer `A`. -/
def demo_sys_provisioned : State :=
  step demo_cfg demo_env (.regairdrop 10)
    (step demo_cfg demo_env (.create 10 (SYS 10000000)) State.empty)

/-- The second run continued with `issue(B, 5.0000 SYS)`. -/
def demo_sys_issued : State :=
  step demo_cfg demo_env (.issue 11 (SYS 50000) []) demo_sys_provisioned

/-- A deployment whose default-constructed asset carries the fixed symbol `4,RB`. -/
def demo_cfg_rb : Config := ⟨1, rankblock_SYMBOL⟩

/-- A third run, on that deployment: `create(A, 1000000.0000 RB)`, then `regairdrop(A)`,
which stores a zero row `0.0000 RB` for the issuer `A`. -/
def demo_rb_provisioned : State :=
  step demo_cfg_rb demo_env (.regairdrop 10)
    (step demo_cfg_rb demo_env (.create 10 (RB 10000000000)) State.empty)

/-- The third run continued with `issue(B, 500.0000 RB)`. -/
def demo_rb_issued : State :=
  step demo_cfg_rb demo_env (.issue 11 (RB 5000000) []) demo_rb_provisioned

/-- The first run continued with `regairdrop(C)`: on the sample deployment the row stored for
`C` is `0.0000 SYS`. -/
def demo_provisioned : State :=
  step demo_cfg demo_env (.regairdrop 12) demo_issued

/-- Then `transfer(A, C, 200.0000 RB)`. -/
def demo_provisioned_paid : State :=
  step demo_cfg demo_env (.transfer 10 12 (RB 2000000) []) demo_provisioned

/-- The token `2,SYS`: the symbol name of `4,SYS` with two decimals. -/
def SYS2_SYMBOL : symbol_type := ⟨string_to_symbol 2 [83, 89, 83]⟩

/-- An amount of the token `2,SYS`, in units of `0.01 SYS`. -/
def SYS2 (amount : Int) : asset := ⟨amount, SYS2_SYMBOL⟩

/-- A fourth run, on the sample deployment: `regairdrop(B)` stores the zero row
`0.0000 SYS` for `B`, then `create(A, 1000.00 SYS)` registers the token `2,SYS`. -/
def demo_sys2_created : State :=
  step demo_cfg demo_env (.create 10 (SYS2 100000))
    (step demo_cfg demo_env (.regairdrop 11) State.empty)

/-- The token `2,RB`: the symbol name of the fixed symbol with two decimals. -/
def RB2_SYMBOL : symbol_type := ⟨string_to_symbol 2 [82, 66]⟩

/-- An amount of the token `2,RB`, in units of `0.01 RB`. -/
def RB2 (amount : Int) : asset := ⟨amount, RB2_SYMBOL⟩

/-- A fifth run, on the deployment whose default asset symbol is `4,RB`: `regairdrop(B)`
stores the zero row `0.0000 RB` for `B`, then `create(A, 1000.00 RB)` registers the token
`2,RB`. -/
def demo_rb2_created : State :=
  step demo_cfg_rb demo_env (.create 10 (RB2 100000))
    (step demo_cfg_rb demo_env (.regairdrop 11) State.empty)

/-! ## Writes in place and the transaction of the host

An action writes to the database while it runs: when an `eosio_assert` aborts it, the rows
written before are in the database. The functions above return the outcome of the whole
transaction; the runs below keep the database as the code left it, so that what the host
undoes is visible. -/

/-- The database as a run of contract code left it, and the abort that stopped the run, if
any. -/
structure Run where
  db : State
  abort : Option Error
  deriving DecidableEq, Repr

/-- One call of a balance helper as a run. `sub_balance` and `add_balance` make at most one
write, as their last statement (lines 95, 99, 111, 117), so a helper that aborts has written
nothing and a helper that returns has written its row. -/
def Run.stmt (f : State → Except Error State) (s : State) : Run :=
  match f s with
  | .ok s1 => ⟨s1, none⟩
  | .error e => ⟨s, some e⟩

/-- Sequencing of runs: after an abort nothing more is executed, otherwise the next
statements work on the database as written so far. -/
def Run.andThen (r : Run) (f : State → Run) : Run :=
  match r.abort with
  | some _ => r
  | none => f r.db

/-- Source lines 62-84, `rankblocktoken::transfer`, with its writes in place: the checks of
lines 67-80 abort before anything is written, then `sub_balance` writes, then
`add_balance`. -/
def transfer_run (env : Env) (from_ to_ : Nat) (quantity : asset) (memo : List Nat)
    (s : State) : Run :=
  if from_ = to_ then ⟨s, some .e_10⟩
  else if ¬ env.has_auth from_ then ⟨s, some .missing_auth⟩
  else if ¬ env.is_account to_ then ⟨s, some .e_11⟩
  else
    let sym := quantity.symbol.name
    match s.find_stats sym sym with
    | none => ⟨s, some .key_not_found⟩
    | some st =>
      if ¬ quantity.is_valid then ⟨s, some .e_6⟩
      else if ¬ (quantity.amount > 0) then ⟨s, some .e_12⟩
      else if quantity.symbol ≠ st.supply.symbol then ⟨s, some .e_13⟩
      else if ¬ (memo.length ≤ 256) then ⟨s, some .e_4⟩
      else
        (Run.stmt (sub_balance from_ quantity) s).andThen
          (Run.stmt (add_balance to_ quantity from_))

/-- Source lines 31-60, `rankblocktoken::issue`, with its writes in place: the checks of
lines 34-48 abort before anything is written; an abort of `+=` inside the updater of line 51
leaves the row as it was; then the `stats` row is written (lines 50-52), then the issuer is
credited (line 54), then, for `to != st.issuer`, the inline transfer of line 58 runs on the
database as written so far. -/
def issue_run (env : Env) (to_ : Nat) (quantity : asset) (memo : List Nat) (s : State) : Run :=
  let sym := quantity.symbol
  if ¬ sym.is_valid then ⟨s, some .e_1⟩
  else if ¬ (memo.length ≤ 256) then ⟨s, some .e_4⟩
  else
    let sym_name := sym.name
    match s.find_stats sym_name sym_name with
    | none => ⟨s, some .e_5⟩
    | some st =>
      if ¬ env.has_auth st.issuer then ⟨s, some .missing_auth⟩
      else if ¬ quantity.is_valid then ⟨s, some .e_6⟩
      else if ¬ (quantity.amount > 0) then ⟨s, some .e_7⟩
      else if quantity.symbol ≠ st.supply.symbol then ⟨s, some .e_8⟩
      else if ¬ (quantity.amount ≤ wrap64 (st.max_supply.amount - st.supply.amount)) then
        ⟨s, some .e_9⟩
      else
        match st.supply.add quantity with
        | .error e => ⟨s, some e⟩
        | .ok supply =>
          let s1 : State :=
            { s with stats :=
                (Table.modify currency_stats.primary_key s.stats sym_name sym_name
                  { st with supply := supply }) }
          (Run.stmt (add_balance st.issuer quantity st.issuer) s1).andThen (fun s2 =>
            if to_ ≠ st.issuer then
              transfer_run { env with has_auth := fun a => a == st.issuer }
                st.issuer to_ quantity memo s2
            else ⟨s2, none⟩)

/-- Modelled from the spec: the transactional host of sections 5 and 7 of the spec, which is
not among the sources ("atomicity is assumed to be provided by the surrounding execution
environment", "must roll back any state touched so far"). A transaction whose run aborts has
all its writes undone, the database is again the one the transaction started from; a run
that completes keeps its writes. -/
def Run.commit (before : State) (r : Run) : State :=
  match r.abort with
  | none => r.db
  | some _ => before

/-- What the caller of a transaction sees: the new database, or the abort. -/
def Run.result (r : Run) : Except Error State :=
  match r.abort with
  | none => .ok r.db
  | some e => .error e

/-! # Lemmas -/


theorem wrap64_eq (x : Int) (h1 : -2 ^ 63 ≤ x) (h2 : x < 2 ^ 63) : wrap64 x = x := by
  unfold wrap64
  norm_num at h1 h2 ⊢
  omega

theorem max_amount_val : max_amount = 4611686018427387903 := by
  unfold max_amount; norm_num

/-! ### Lists -/

section lists
variable {β : Type}

theorem find?_replaceFirst_self (p : β → Bool) (new : β) (hn : p new = true) :
    ∀ (l : List β) (old : β), l.find? p = some old → (replaceFirst p new l).find? p = some new
  | [], _, h => by simp at h
  | x :: xs, old, h => by
    by_cases hx : p x = true
    · simp [replaceFirst, hx, List.find?_cons, hn]
    · simp only [Bool.not_eq_true] at hx
      have h1 : xs.find? p = some old := by simpa [List.find?_cons, hx] using h
      simp [replaceFirst, hx, List.find?_cons, find?_replaceFirst_self p new hn xs old h1]

theorem find?_replaceFirst_other (p q : β → Bool) (new : β)
    (hpq : ∀ x, p x = true → q x = false) (hn : q new = false) :
    ∀ (l : List β), (replaceFirst p new l).find? q = l.find? q
  | [] => by simp [replaceFirst]
  | x :: xs => by
    by_cases hx : p x = true
    · simp [replaceFirst, hx, List.find?_cons, hn, hpq x hx]
    · simp only [Bool.not_eq_true] at hx
      simp [replaceFirst, hx, List.find?_cons, find?_replaceFirst_other p q new hpq hn xs]

theorem find?_eraseP_other (p q : β → Bool) (hpq : ∀ x, p x = true → q x = false) :
    ∀ (l : List β), (l.eraseP p).find? q = l.find? q
  | [] => by simp
  | x :: xs => by
    by_cases hx : p x = true
    · simp [List.eraseP_cons, hx, List.find?_cons, hpq x hx]
    · simp only [Bool.not_eq_true] at hx
      simp [List.eraseP_cons, hx, List.find?_cons, find?_eraseP_other p q hpq xs]

theorem mem_replaceFirst (p : β → Bool) (new : β) :
    ∀ (l : List β) (x : β), x ∈ replaceFirst p new l → x = new ∨ x ∈ l
  | [], x, h => by simp [replaceFirst] at h
  | y :: ys, x, h => by
    by_cases hy : p y = true
    · simp only [replaceFirst, hy, if_true, List.mem_cons] at h
      rcases h with h | h
      · exact Or.inl h
      · exact Or.inr (List.mem_cons_of_mem _ h)
    · simp only [Bool.not_eq_true] at hy
      simp only [replaceFirst, hy, Bool.false_eq_true, if_false, List.mem_cons] at h
      rcases h with h | h
      · exact Or.inr (h ▸ List.mem_cons_self _ _)
      · rcases mem_replaceFirst p new ys x h with h | h
        · exact Or.inl h
        · exact Or.inr (List.mem_cons_of_mem _ h)

theorem map_replaceFirst (p : β → Bool) (new : β) {γ : Type} (g : β → γ) :
    ∀ (l : List β) (old : β), l.find? p = some old → g new = g old →
      (replaceFirst p new l).map g = l.map g
  | [], _, h, _ => by simp at h
  | x :: xs, old, h, hg => by
    by_cases hx : p x = true
    · have : x = old := by simpa [List.find?_cons, hx] using h
      subst this
      simp [replaceFirst, hx, hg]
    · simp only [Bool.not_eq_true] at hx
      have h1 : xs.find? p = some old := by simpa [List.find?_cons, hx] using h
      simp [replaceFirst, hx, map_replaceFirst p new g xs old h1 hg]

theorem sum_map_replaceFirst (p : β → Bool) (new : β) (w : β → Int) :
    ∀ (l : List β) (old : β), l.find? p = some old →
      ((replaceFirst p new l).map w).sum = (l.map w).sum - w old + w new
  | [], _, h => by simp at h
  | x :: xs, old, h => by
    by_cases hx : p x = true
    · have : x = old := by simpa [List.find?_cons, hx] using h
      subst this
      simp [replaceFirst, hx]; ring
    · simp only [Bool.not_eq_true] at hx
      have h1 : xs.find? p = some old := by simpa [List.find?_cons, hx] using h
      simp [replaceFirst, hx, sum_map_replaceFirst p new w xs old h1]; ring

theorem sum_map_eraseP (p : β → Bool) (w : β → Int) :
    ∀ (l : List β) (old : β), l.find? p = some old →
      ((l.eraseP p).map w).sum = (l.map w).sum - w old
  | [], _, h => by simp at h
  | x :: xs, old, h => by
    by_cases hx : p x = true
    · have : x = old := by simpa [List.find?_cons, hx] using h
      subst this
      simp [List.eraseP_cons, hx]
    · simp only [Bool.not_eq_true] at hx
      have h1 : xs.find? p = some old := by simpa [List.find?_cons, hx] using h
      simp [List.eraseP_cons, hx, sum_map_eraseP p w xs old h1]; ring

theorem sum_filter_map (sel : β → Bool) (f : β → Int) (l : List β) :
    ((l.filter sel).map f).sum = (l.map (fun r => if sel r then f r else 0)).sum := by
  induction l with
  | nil => simp
  | cons x xs ih =>
    by_cases hx : sel x = true
    · simp [List.filter_cons, hx, ih]
    · simp only [Bool.not_eq_true] at hx
      simp [List.filter_cons, hx, ih]

end lists

section tables
variable {α : Type} (pk : α → Nat)

theorem hit_iff (sc k : Nat) (r : Nat × α) :
    Table.hit pk sc k r = true ↔ r.1 = sc ∧ pk r.2 = k := by
  simp [Table.hit]

theorem hit_other (sc k sc1 k1 : Nat) (h : ¬ (sc1 = sc ∧ k1 = k)) (r : Nat × α)
    (hr : Table.hit pk sc k r = true) : Table.hit pk sc1 k1 r = false := by
  rw [hit_iff] at hr
  rw [Bool.eq_false_iff]
  intro h1
  rw [hit_iff] at h1
  exact h ⟨h1.1.symm.trans hr.1, h1.2.symm.trans hr.2⟩

theorem find_some_iff (t : Table α) (sc k : Nat) (row : α) :
    Table.find pk t sc k = some row ↔ t.find? (Table.hit pk sc k) = some (sc, row) := by
  unfold Table.find
  constructor
  · intro h
    rcases hf : List.find? (Table.hit pk sc k) t with _ | ⟨a, b⟩
    · simp [hf] at h
    · have hh := List.find?_some hf
      rw [hit_iff] at hh
      simp only [hf, Option.map_some'] at h
      simp only [Option.some.injEq] at h
      simp only at hh
      rw [← h, ← hh.1]
  · intro h
    simp [h]

theorem find_some_pk {t : Table α} {sc k : Nat} {row : α}
    (h : Table.find pk t sc k = some row) : pk row = k := by
  rw [find_some_iff] at h
  have hh := List.find?_some h
  rw [hit_iff] at hh
  exact hh.2

theorem find_some_mem {t : Table α} {sc k : Nat} {row : α}
    (h : Table.find pk t sc k = some row) : (sc, row) ∈ t := by
  rw [find_some_iff] at h
  exact List.mem_of_find?_eq_some h

theorem find_none_iff (t : Table α) (sc k : Nat) :
    Table.find pk t sc k = none ↔ ∀ r ∈ t, ¬ (r.1 = sc ∧ pk r.2 = k) := by
  unfold Table.find
  rw [Option.map_eq_none', List.find?_eq_none]
  constructor
  · intro h r hr; rw [← hit_iff]; exact h r hr
  · intro h r hr; rw [hit_iff]; exact h r hr

theorem find_append (t : Table α) (sc : Nat) (row : α) (sc1 k1 : Nat) :
    Table.find pk (t ++ [(sc, row)]) sc1 k1 =
      match Table.find pk t sc1 k1 with
      | some x => some x
      | none => if sc = sc1 ∧ pk row = k1 then some row else none := by
  unfold Table.find
  rw [List.find?_append]
  rcases hf : List.find? (Table.hit pk sc1 k1) t with _ | x
  · by_cases h : sc = sc1 ∧ pk row = k1
    · simp [List.find?_cons, Table.hit, h]
    · have : Table.hit pk sc1 k1 (sc, row) = false := by
        rw [Bool.eq_false_iff]; intro hh; rw [hit_iff] at hh; exact h hh
      simp [List.find?_cons, this, h]
  · simp

theorem find_modify_self (t : Table α) (sc k : Nat) (old new : α)
    (h : Table.find pk t sc k = some old) (hk : pk new = k) :
    Table.find pk (Table.modify pk t sc k new) sc k = some new := by
  rw [find_some_iff] at h ⊢
  exact find?_replaceFirst_self _ _ (by rw [hit_iff]; exact ⟨rfl, hk⟩) _ _ h

theorem find_modify_other (t : Table α) (sc k : Nat) (new : α) (sc1 k1 : Nat)
    (hk : pk new = k) (hne : ¬ (sc1 = sc ∧ k1 = k)) :
    Table.find pk (Table.modify pk t sc k new) sc1 k1 = Table.find pk t sc1 k1 := by
  unfold Table.find Table.modify
  rw [find?_replaceFirst_other _ _ _ (hit_other pk sc k sc1 k1 hne)]
  rw [Bool.eq_false_iff]
  intro h
  rw [hit_iff] at h
  exact hne ⟨h.1.symm, by rw [← hk]; exact h.2.symm⟩

theorem find_erase_other (t : Table α) (sc k : Nat) (sc1 k1 : Nat)
    (hne : ¬ (sc1 = sc ∧ k1 = k)) :
    Table.find pk (Table.erase pk t sc k) sc1 k1 = Table.find pk t sc1 k1 := by
  unfold Table.find Table.erase
  rw [find?_eraseP_other _ _ (hit_other pk sc k sc1 k1 hne)]

theorem find_erase_self (t : Table α) (sc k : Nat) (hu : Table.unique pk t) :
    Table.find pk (Table.erase pk t sc k) sc k = none := by
  unfold Table.unique Table.keys at hu
  rw [find_none_iff]
  unfold Table.erase
  induction t with
  | nil => simp
  | cons x xs ih =>
    rw [List.map_cons, List.nodup_cons] at hu
    by_cases hx : Table.hit pk sc k x = true
    · rw [List.eraseP_cons_of_pos hx]
      intro r hr hrk
      apply hu.1
      rw [hit_iff] at hx
      rw [List.mem_map]
      exact ⟨r, hr, by rw [hrk.1, hrk.2, hx.1, hx.2]⟩
    · have hx2 : ¬ (x.1 = sc ∧ pk x.2 = k) := by rw [← hit_iff]; exact hx
      rw [List.eraseP_cons_of_neg hx]
      intro r hr
      rcases List.mem_cons.1 hr with h | h
      · rw [h]; exact hx2
      · exact ih hu.2 r h

theorem unique_emplace (t : Table α) (sc : Nat) (row : α) (hu : Table.unique pk t)
    (hf : Table.find pk t sc (pk row) = none) : Table.unique pk (t ++ [(sc, row)]) := by
  unfold Table.unique Table.keys at hu ⊢
  rw [List.map_append, List.nodup_append]
  refine ⟨hu, by simp, ?_⟩
  intro a ha hb
  simp only [List.map_cons, List.map_nil, List.mem_singleton] at hb
  rw [find_none_iff] at hf
  rcases List.mem_map.1 ha with ⟨r, hr, hra⟩
  apply hf r hr
  rw [hb] at hra
  simp only [Prod.mk.injEq] at hra
  exact hra

theorem unique_modify (t : Table α) (sc k : Nat) (old new : α) (hu : Table.unique pk t)
    (h : Table.find pk t sc k = some old) (hk : pk new = k) :
    Table.unique pk (Table.modify pk t sc k new) := by
  unfold Table.unique Table.keys at hu ⊢
  unfold Table.modify
  rw [find_some_iff] at h
  rw [map_replaceFirst _ _ _ t (sc, old) h]
  · exact hu
  · have hh := List.find?_some h
    rw [hit_iff] at hh
    simp only at hh
    simp [hk, hh.2]

theorem unique_erase (t : Table α) (sc k : Nat) (hu : Table.unique pk t) :
    Table.unique pk (Table.erase pk t sc k) := by
  unfold Table.unique Table.keys at hu ⊢
  unfold Table.erase
  exact hu.sublist ((List.eraseP_sublist t).map _)

theorem emplace_ok (t : Table α) (sc : Nat) (row : α) (t1 : Table α) :
    Table.emplace pk t sc row = .ok t1 ↔
      Table.find pk t sc (pk row) = none ∧ t1 = t ++ [(sc, row)] := by
  unfold Table.emplace
  rcases hf : Table.find pk t sc (pk row) with _ | x
  · simp [eq_comm]
  · simp

end tables


/-! ### Checked asset arithmetic -/

theorem asset_add_ok {a v b : asset} (h : a.add v = .ok b) :
    v.symbol = a.symbol ∧ b = ⟨wrap64 (a.amount + v.amount), a.symbol⟩ ∧
      -max_amount ≤ b.amount ∧ b.amount ≤ max_amount := by
  unfold asset.add at h
  dsimp only at h
  split_ifs at h with h1 h2 h3
  simp only [Except.ok.injEq] at h
  subst h
  exact ⟨not_not.1 h1, rfl, h2, h3⟩

theorem asset_sub_ok {a v b : asset} (h : a.sub v = .ok b) :
    v.symbol = a.symbol ∧ b = ⟨wrap64 (a.amount - v.amount), a.symbol⟩ ∧
      -max_amount ≤ b.amount ∧ b.amount ≤ max_amount := by
  unfold asset.sub at h
  dsimp only at h
  split_ifs at h with h1 h2 h3
  simp only [Except.ok.injEq] at h
  subst h
  exact ⟨not_not.1 h1, rfl, h2, h3⟩

theorem wrap64_add {x y : Int} (hx : -max_amount ≤ x ∧ x ≤ max_amount)
    (hy : -max_amount ≤ y ∧ y ≤ max_amount) : wrap64 (x + y) = x + y := by
  rw [max_amount_val] at hx hy
  apply wrap64_eq <;> norm_num <;> omega

theorem wrap64_sub {x y : Int} (hx : -max_amount ≤ x ∧ x ≤ max_amount)
    (hy : -max_amount ≤ y ∧ y ≤ max_amount) : wrap64 (x - y) = x - y := by
  rw [max_amount_val] at hx hy
  apply wrap64_eq <;> norm_num <;> omega

theorem asset_add_exact {a v b : asset} (h : a.add v = .ok b) (ha : a.in_range)
    (hv : v.in_range) : v.symbol = a.symbol ∧ b = ⟨a.amount + v.amount, a.symbol⟩ ∧
      b.in_range := by
  obtain ⟨h1, h2, h3, h4⟩ := asset_add_ok h
  rw [wrap64_add ha hv] at h2
  exact ⟨h1, h2, h3, h4⟩

theorem asset_sub_exact {a v b : asset} (h : a.sub v = .ok b) (ha : a.in_range)
    (hv : v.in_range) : v.symbol = a.symbol ∧ b = ⟨a.amount - v.amount, a.symbol⟩ ∧
      b.in_range := by
  obtain ⟨h1, h2, h3, h4⟩ := asset_sub_ok h
  rw [wrap64_sub ha hv] at h2
  exact ⟨h1, h2, h3, h4⟩

theorem asset_add_succeeds {a v : asset} (hs : v.symbol = a.symbol)
    (ha : a.in_range) (hv : v.in_range)
    (h1 : -max_amount ≤ a.amount + v.amount) (h2 : a.amount + v.amount ≤ max_amount) :
    a.add v = .ok ⟨a.amount + v.amount, a.symbol⟩ := by
  unfold asset.add
  rw [wrap64_add ha hv]
  simp [hs, h1, h2]

theorem asset_sub_succeeds {a v : asset} (hs : v.symbol = a.symbol)
    (ha : a.in_range) (hv : v.in_range)
    (h1 : -max_amount ≤ a.amount - v.amount) (h2 : a.amount - v.amount ≤ max_amount) :
    a.sub v = .ok ⟨a.amount - v.amount, a.symbol⟩ := by
  unfold asset.sub
  rw [wrap64_sub ha hv]
  simp [hs, h1, h2]

theorem is_valid_in_range {q : asset} (h : q.is_valid = true) : q.in_range := by
  unfold asset.is_valid asset.is_amount_within_range at h
  simp only [Bool.and_eq_true, decide_eq_true_eq] at h
  exact h.1

/-! ### The two balance helpers -/

theorem sub_balance_ok {owner : Nat} {value : asset} {s s1 : State}
    (h : sub_balance owner value s = .ok s1) :
    ∃ a, s.find_account owner value.symbol.name = some a ∧
      value.amount ≤ a.balance.amount ∧ s1.stats = s.stats ∧
      ((a.balance.amount = value.amount ∧
          s1.accounts = Table.erase account.primary_key s.accounts owner value.symbol.name) ∨
       (a.balance.amount ≠ value.amount ∧ ∃ b, a.balance.sub value = .ok b ∧
          s1.accounts =
            Table.modify account.primary_key s.accounts owner value.symbol.name ⟨b⟩)) := by
  unfold sub_balance at h
  rcases hf : s.find_account owner value.symbol.name with _ | a
  · simp [hf] at h
  · simp only [hf] at h
    split_ifs at h with h1 h2
    · simp only [Except.ok.injEq] at h
      subst h
      exact ⟨a, rfl, h1, rfl, Or.inl ⟨h2, rfl⟩⟩
    · rcases hb : a.balance.sub value with e | b
      · simp [hb] at h
      · simp only [hb, Except.ok.injEq] at h
        subst h
        exact ⟨a, rfl, h1, rfl, Or.inr ⟨h2, b, hb, rfl⟩⟩

theorem add_balance_ok {owner payer : Nat} {value : asset} {s s1 : State}
    (h : add_balance owner value payer s = .ok s1) :
    s1.stats = s.stats ∧
    ((s.find_account owner value.symbol.name = none ∧
        s1.accounts = s.accounts ++ [(owner, ⟨value⟩)]) ∨
     (∃ a b, s.find_account owner value.symbol.name = some a ∧
        a.balance.add value = .ok b ∧
        s1.accounts =
          Table.modify account.primary_key s.accounts owner value.symbol.name ⟨b⟩)) := by
  unfold add_balance at h
  rcases hf : s.find_account owner value.symbol.name with _ | a
  · simp only [hf] at h
    rcases he : Table.emplace account.primary_key s.accounts owner ⟨value⟩ with e | t
    · simp [he] at h
    · simp only [he, Except.ok.injEq] at h
      subst h
      rw [emplace_ok] at he
      exact ⟨rfl, Or.inl ⟨rfl, he.2⟩⟩
  · simp only [hf] at h
    rcases hb : a.balance.add value with e | b
    · simp [hb] at h
    · simp only [hb, Except.ok.injEq] at h
      subst h
      exact ⟨rfl, Or.inr ⟨a, b, rfl, hb, rfl⟩⟩



theorem total_balance_eq (s : State) (key : Nat) :
    total_balance s key = (s.accounts.map (weight key)).sum := by
  unfold total_balance
  rw [sum_filter_map]
  rfl

theorem weight_mk (key owner : Nat) (b : asset) :
    weight key (owner, ⟨b⟩) = if b.symbol.name = key then b.amount else 0 := by
  simp [weight, account.primary_key]

theorem find_account_pk {s : State} {owner key : Nat} {a : account}
    (h : s.find_account owner key = some a) : a.balance.symbol.name = key :=
  find_some_pk account.primary_key h

/-- Effect of a successful `sub_balance` on the looked-up rows. -/
theorem sub_balance_find {owner : Nat} {value : asset} {s s1 : State}
    (h : sub_balance owner value s = .ok s1)
    (hu : Table.unique account.primary_key s.accounts)
    (hr : ∀ r ∈ s.accounts, r.2.balance.in_range) (hv : value.in_range) :
    s1.stats = s.stats ∧
    (∃ a, s.find_account owner value.symbol.name = some a ∧
      value.amount ≤ a.balance.amount ∧
      (a.balance.amount ≠ value.amount → value.symbol = a.balance.symbol) ∧
      s1.find_account owner value.symbol.name =
        if a.balance.amount = value.amount then none
        else some ⟨⟨a.balance.amount - value.amount, a.balance.symbol⟩⟩) ∧
    (∀ o k, ¬ (o = owner ∧ k = value.symbol.name) →
      s1.find_account o k = s.find_account o k) := by
  obtain ⟨a, hf, hle, hst, hcase⟩ := sub_balance_ok h
  have hpk := find_account_pk hf
  have har : a.balance.in_range := hr _ (find_some_mem account.primary_key hf)
  refine ⟨hst, ⟨a, hf, hle, ?_, ?_⟩, ?_⟩
  · intro hne
    rcases hcase with ⟨he, _⟩ | ⟨_, b, hb, _⟩
    · exact absurd he hne
    · exact (asset_sub_exact hb har hv).1
  · rcases hcase with ⟨he, hacc⟩ | ⟨hne, b, hb, hacc⟩
    · rw [if_pos he]
      unfold State.find_account
      rw [hacc]
      exact find_erase_self _ _ _ _ hu
    · rw [if_neg hne]
      unfold State.find_account
      rw [hacc]
      obtain ⟨_, hbe, _⟩ := asset_sub_exact hb har hv
      rw [find_modify_self account.primary_key _ _ _ a ⟨b⟩ hf]
      · rw [hbe]
      · rw [hbe]; exact hpk
  · intro o k hne
    unfold State.find_account
    rcases hcase with ⟨_, hacc⟩ | ⟨_, b, hb, hacc⟩
    · rw [hacc]; exact find_erase_other _ _ _ _ _ _ hne
    · rw [hacc]
      obtain ⟨_, hbe, _⟩ := asset_sub_exact hb har hv
      apply find_modify_other _ _ _ _ _ _ _ _ hne
      rw [hbe]; exact hpk

/-- Effect of a successful `add_balance` on the looked-up rows. -/
theorem add_balance_find {owner payer : Nat} {value : asset} {s s1 : State}
    (h : add_balance owner value payer s = .ok s1)
    (hr : ∀ r ∈ s.accounts, r.2.balance.in_range) (hv : value.in_range) :
    s1.stats = s.stats ∧
    (∀ a, s.find_account owner value.symbol.name = some a →
      a.balance.symbol = value.symbol) ∧
    s1.find_account owner value.symbol.name =
      some ⟨⟨balance_of s owner value.symbol.name + value.amount, value.symbol⟩⟩ ∧
    (∀ o k, ¬ (o = owner ∧ k = value.symbol.name) →
      s1.find_account o k = s.find_account o k) := by
  obtain ⟨hst, hcase⟩ := add_balance_ok h
  rcases hcase with ⟨hf, hacc⟩ | ⟨a, b, hf, hb, hacc⟩
  · refine ⟨hst, ?_, ?_, ?_⟩
    · intro a ha; rw [hf] at ha; cases ha
    · unfold balance_of
      rw [hf]
      unfold State.find_account at hf ⊢
      rw [hacc, find_append, hf]
      simp [account.primary_key]
    · intro o k hne
      unfold State.find_account
      rw [hacc, find_append]
      rcases hx : Table.find account.primary_key s.accounts o k with _ | x
      · have : ¬ (owner = o ∧ account.primary_key ⟨value⟩ = k) := by
          intro hh; exact hne ⟨hh.1.symm, hh.2.symm⟩
        simp [this]
      · rfl
  · have har : a.balance.in_range := hr _ (find_some_mem account.primary_key hf)
    have hpk := find_account_pk hf
    obtain ⟨hs, hbe, _⟩ := asset_add_exact hb har hv
    refine ⟨hst, ?_, ?_, ?_⟩
    · intro a1 ha1; rw [hf] at ha1; cases ha1; exact hs.symm
    · unfold balance_of
      rw [hf]
      unfold State.find_account
      rw [hacc, find_modify_self account.primary_key _ _ _ a ⟨b⟩ hf]
      · rw [hbe, hs]
      · rw [hbe]; exact hpk
    · intro o k hne
      unfold State.find_account
      rw [hacc]
      apply find_modify_other _ _ _ _ _ _ _ _ hne
      rw [hbe]; exact hpk

/-- A successful `sub_balance` lowers the total of its symbol name by the amount. -/
theorem sub_balance_total {owner : Nat} {value : asset} {s s1 : State}
    (h : sub_balance owner value s = .ok s1)
    (hr : ∀ r ∈ s.accounts, r.2.balance.in_range) (hv : value.in_range) (key : Nat) :
    total_balance s1 key =
      total_balance s key - (if value.symbol.name = key then value.amount else 0) := by
  obtain ⟨a, hf, hle, hst, hcase⟩ := sub_balance_ok h
  have hpk := find_account_pk hf
  have har : a.balance.in_range := hr _ (find_some_mem account.primary_key hf)
  have hf2 := (find_some_iff account.primary_key _ _ _ _).1 hf
  rw [total_balance_eq, total_balance_eq]
  rcases hcase with ⟨he, hacc⟩ | ⟨hne, b, hb, hacc⟩
  · rw [hacc]
    unfold Table.erase
    rw [sum_map_eraseP _ _ _ _ hf2]
    obtain ⟨bal⟩ := a
    rw [weight_mk]
    simp only at hpk he
    rw [hpk, he]
  · rw [hacc]
    unfold Table.modify
    rw [sum_map_replaceFirst _ _ _ _ _ hf2]
    obtain ⟨_, hbe, _⟩ := asset_sub_exact hb har hv
    obtain ⟨bal⟩ := a
    rw [weight_mk, weight_mk, hbe]
    simp only at hpk ⊢
    rw [hpk]
    split_ifs <;> ring

/-- A successful `add_balance` raises the total of its symbol name by the amount. -/
theorem add_balance_total {owner payer : Nat} {value : asset} {s s1 : State}
    (h : add_balance owner value payer s = .ok s1)
    (hr : ∀ r ∈ s.accounts, r.2.balance.in_range) (hv : value.in_range) (key : Nat) :
    total_balance s1 key =
      total_balance s key + (if value.symbol.name = key then value.amount else 0) := by
  obtain ⟨hst, hcase⟩ := add_balance_ok h
  rw [total_balance_eq, total_balance_eq]
  rcases hcase with ⟨hf, hacc⟩ | ⟨a, b, hf, hb, hacc⟩
  · rw [hacc, List.map_append, List.sum_append]
    simp [weight_mk]
  · have har : a.balance.in_range := hr _ (find_some_mem account.primary_key hf)
    have hpk := find_account_pk hf
    have hf2 := (find_some_iff account.primary_key _ _ _ _).1 hf
    obtain ⟨hs, hbe, _⟩ := asset_add_exact hb har hv
    rw [hacc]
    unfold Table.modify
    rw [sum_map_replaceFirst _ _ _ _ _ hf2]
    obtain ⟨bal⟩ := a
    rw [weight_mk, weight_mk, hbe]
    simp only at hpk ⊢
    rw [hpk]
    split_ifs <;> ring



theorem find_stats_congr {s s1 : State} (h : s1.stats = s.stats) (sc k : Nat) :
    s1.find_stats sc k = s.find_stats sc k := by
  unfold State.find_stats; rw [h]

theorem mem_erase {α : Type} (pk : α → Nat) (t : Table α) (sc k : Nat) (r : Nat × α)
    (h : r ∈ Table.erase pk t sc k) : r ∈ t :=
  (List.eraseP_sublist t).subset h

/-- A successful `sub_balance` of a non-negative amount keeps the accounts table tidy. -/
theorem sub_balance_keeps {owner : Nat} {value : asset} {s s1 : State}
    (h : sub_balance owner value s = .ok s1)
    (hu : Table.unique account.primary_key s.accounts)
    (hb : s.balances_ok) (hc : s.coherent) (hv : value.in_range) (hpos : 0 ≤ value.amount) :
    Table.unique account.primary_key s1.accounts ∧ s1.balances_ok ∧ s1.coherent := by
  obtain ⟨a, hf, hle, hst, hcase⟩ := sub_balance_ok h
  have hmem := find_some_mem account.primary_key hf
  have hpk := find_account_pk hf
  have har : a.balance.in_range := by
    have h0 : 0 ≤ a.balance.amount := (hb _ hmem).1
    exact ⟨by have := max_amount_val; omega, (hb _ hmem).2⟩
  rcases hcase with ⟨he, hacc⟩ | ⟨hne, b, hb1, hacc⟩
  · refine ⟨?_, ?_, ?_⟩
    · rw [hacc]; exact unique_erase _ _ _ _ hu
    · intro r hr
      rw [hacc] at hr
      exact hb r (mem_erase _ _ _ _ _ hr)
    · intro r hr hnz
      rw [hacc] at hr
      rw [find_stats_congr hst]
      exact hc r (mem_erase _ _ _ _ _ hr) hnz
  · obtain ⟨hs, hbe, hbr⟩ := asset_sub_exact hb1 har hv
    have hrow : ∀ r ∈ s1.accounts, r = (owner, ⟨b⟩) ∨ r ∈ s.accounts := by
      intro r hr
      rw [hacc] at hr
      exact mem_replaceFirst _ _ _ _ hr
    refine ⟨?_, ?_, ?_⟩
    · rw [hacc]
      apply unique_modify account.primary_key _ _ _ a ⟨b⟩ hu hf
      rw [hbe]; exact hpk
    · intro r hr
      rcases hrow r hr with h1 | h1
      · rw [h1, hbe]
        have := (hb _ hmem).2
        simp only at this ⊢
        constructor <;> omega
      · exact hb r h1
    · intro r hr hnz
      rw [find_stats_congr hst]
      rcases hrow r hr with h1 | h1
      · have hnz0 : a.balance.amount ≠ 0 := by omega
        obtain ⟨st, hst1, hst2⟩ := hc _ hmem hnz0
        refine ⟨st, ?_, ?_⟩
        · rw [h1, hbe]; exact hst1
        · rw [h1, hbe]; exact hst2
      · exact hc r h1 hnz

/-- A successful `add_balance` of a non-negative amount of a registered symbol keeps the
accounts table tidy. -/
theorem add_balance_keeps {owner payer : Nat} {value : asset} {s s1 : State}
    (h : add_balance owner value payer s = .ok s1)
    (hu : Table.unique account.primary_key s.accounts)
    (hb : s.balances_ok) (hc : s.coherent) (hv : value.in_range) (hpos : 0 ≤ value.amount)
    (hreg : ∃ st, s.find_stats value.symbol.name value.symbol.name = some st ∧
      st.supply.symbol = value.symbol) :
    Table.unique account.primary_key s1.accounts ∧ s1.balances_ok ∧ s1.coherent := by
  obtain ⟨hst, hcase⟩ := add_balance_ok h
  rcases hcase with ⟨hf, hacc⟩ | ⟨a, b, hf, hb1, hacc⟩
  · refine ⟨?_, ?_, ?_⟩
    · rw [hacc]; exact unique_emplace _ _ _ _ hu hf
    · intro r hr
      rw [hacc, List.mem_append, List.mem_singleton] at hr
      rcases hr with h1 | h1
      · exact hb r h1
      · rw [h1]; exact ⟨hpos, hv.2⟩
    · intro r hr hnz
      rw [find_stats_congr hst]
      rw [hacc, List.mem_append, List.mem_singleton] at hr
      rcases hr with h1 | h1
      · exact hc r h1 hnz
      · rw [h1]; exact hreg
  · have hmem := find_some_mem account.primary_key hf
    have hpk := find_account_pk hf
    have har : a.balance.in_range := by
      have h0 : 0 ≤ a.balance.amount := (hb _ hmem).1
      exact ⟨by have := max_amount_val; omega, (hb _ hmem).2⟩
    obtain ⟨hs, hbe, hbr⟩ := asset_add_exact hb1 har hv
    have hrow : ∀ r ∈ s1.accounts, r = (owner, ⟨b⟩) ∨ r ∈ s.accounts := by
      intro r hr
      rw [hacc] at hr
      exact mem_replaceFirst _ _ _ _ hr
    refine ⟨?_, ?_, ?_⟩
    · rw [hacc]
      apply unique_modify account.primary_key _ _ _ a ⟨b⟩ hu hf
      rw [hbe]; exact hpk
    · intro r hr
      rcases hrow r hr with h1 | h1
      · rw [h1]
        refine ⟨?_, hbr.2⟩
        rw [hbe]
        have := (hb _ hmem).1
        simp only at this ⊢
        omega
      · exact hb r h1
    · intro r hr hnz
      rw [find_stats_congr hst]
      rcases hrow r hr with h1 | h1
      · obtain ⟨st, hst1, hst2⟩ := hreg
        refine ⟨st, ?_, ?_⟩
        · rw [h1, hbe]
          simp only [account.primary_key]
          rw [← hs]; exact hst1
        · rw [h1, hbe]
          simp only
          rw [← hs]; exact hst2
      · exact hc r h1 hnz



theorem transfer_ok {env : Env} {from_ to_ : Nat} {q : asset} {memo : List Nat} {s s2 : State}
    (h : transfer env from_ to_ q memo s = .ok s2) :
    from_ ≠ to_ ∧ env.has_auth from_ = true ∧ env.is_account to_ = true ∧
    ∃ st, s.find_stats q.symbol.name q.symbol.name = some st ∧ q.is_valid = true ∧
      0 < q.amount ∧ q.symbol = st.supply.symbol ∧ memo.length ≤ 256 ∧
      ∃ s1, sub_balance from_ q s = .ok s1 ∧ add_balance to_ q from_ s1 = .ok s2 := by
  unfold transfer at h
  dsimp only at h
  by_cases h1 : from_ = to_
  · rw [if_pos h1] at h; cases h
  rw [if_neg h1] at h
  by_cases h2 : env.has_auth from_ = true
  swap
  · rw [if_pos h2] at h; cases h
  rw [if_neg (not_not.2 h2)] at h
  by_cases h3 : env.is_account to_ = true
  swap
  · rw [if_pos h3] at h; cases h
  rw [if_neg (not_not.2 h3)] at h
  rcases hf : s.find_stats q.symbol.name q.symbol.name with _ | st
  · rw [hf] at h; cases h
  rw [hf] at h
  dsimp only at h
  by_cases h4 : q.is_valid = true
  swap
  · rw [if_pos h4] at h; cases h
  rw [if_neg (not_not.2 h4)] at h
  by_cases h5 : q.amount > 0
  swap
  · rw [if_pos h5] at h; cases h
  rw [if_neg (not_not.2 h5)] at h
  by_cases h6 : q.symbol = st.supply.symbol
  swap
  · rw [if_pos h6] at h; cases h
  rw [if_neg (not_not.2 h6)] at h
  by_cases h7 : memo.length ≤ 256
  swap
  · rw [if_pos h7] at h; cases h
  rw [if_neg (not_not.2 h7)] at h
  rcases hs : sub_balance from_ q s with e | s1
  · rw [hs] at h; cases h
  rw [hs] at h
  exact ⟨h1, h2, h3, st, rfl, h4, h5, h6, h7, s1, rfl, h⟩

theorem transfer_eq (env : Env) (from_ to_ : Nat) {q : asset} (memo : List Nat) {s : State}
    {st : currency_stats}
    (h1 : from_ ≠ to_) (h2 : env.has_auth from_ = true) (h3 : env.is_account to_ = true)
    (hf : s.find_stats q.symbol.name q.symbol.name = some st) (h4 : q.is_valid = true)
    (h5 : 0 < q.amount) (h6 : q.symbol = st.supply.symbol) (h7 : memo.length ≤ 256) :
    transfer env from_ to_ q memo s =
      match sub_balance from_ q s with
      | .error e => .error e
      | .ok s1 => add_balance to_ q from_ s1 := by
  unfold transfer
  dsimp only
  rw [if_neg h1, if_neg (not_not.2 h2), if_neg (not_not.2 h3), hf]
  dsimp only
  rw [if_neg (not_not.2 h4), if_neg (not_not.2 h5), if_neg (not_not.2 h6),
    if_neg (not_not.2 h7)]

theorem issue_ok {env : Env} {to_ : Nat} {q : asset} {memo : List Nat} {s s3 : State}
    (h : issue env to_ q memo s = .ok s3) :
    q.symbol.is_valid = true ∧ memo.length ≤ 256 ∧
    ∃ st, s.find_stats q.symbol.name q.symbol.name = some st ∧
      env.has_auth st.issuer = true ∧ q.is_valid = true ∧ 0 < q.amount ∧
      q.symbol = st.supply.symbol ∧
      q.amount ≤ wrap64 (st.max_supply.amount - st.supply.amount) ∧
      ∃ supply s2, st.supply.add q = .ok supply ∧
        add_balance st.issuer q st.issuer
          { s with stats :=
              (Table.modify currency_stats.primary_key s.stats q.symbol.name q.symbol.name
                { st with supply := supply }) } = .ok s2 ∧
        ((to_ ≠ st.issuer ∧
            transfer { env with has_auth := fun a => a == st.issuer } st.issuer to_ q memo s2
              = .ok s3) ∨
         (to_ = st.issuer ∧ s3 = s2)) := by
  unfold issue at h
  dsimp only at h
  by_cases h1 : q.symbol.is_valid = true
  swap
  · rw [if_pos h1] at h; cases h
  rw [if_neg (not_not.2 h1)] at h
  by_cases h2 : memo.length ≤ 256
  swap
  · rw [if_pos h2] at h; cases h
  rw [if_neg (not_not.2 h2)] at h
  rcases hf : s.find_stats q.symbol.name q.symbol.name with _ | st
  · rw [hf] at h; cases h
  rw [hf] at h
  dsimp only at h
  by_cases h3 : env.has_auth st.issuer = true
  swap
  · rw [if_pos h3] at h; cases h
  rw [if_neg (not_not.2 h3)] at h
  by_cases h4 : q.is_valid = true
  swap
  · rw [if_pos h4] at h; cases h
  rw [if_neg (not_not.2 h4)] at h
  by_cases h5 : q.amount > 0
  swap
  · rw [if_pos h5] at h; cases h
  rw [if_neg (not_not.2 h5)] at h
  by_cases h6 : q.symbol = st.supply.symbol
  swap
  · rw [if_pos h6] at h; cases h
  rw [if_neg (not_not.2 h6)] at h
  by_cases h7 : q.amount ≤ wrap64 (st.max_supply.amount - st.supply.amount)
  swap
  · rw [if_pos h7] at h; cases h
  rw [if_neg (not_not.2 h7)] at h
  rcases hsup : st.supply.add q with e | supply
  · rw [hsup] at h; cases h
  rw [hsup] at h
  dsimp only at h
  rcases hadd : add_balance st.issuer q st.issuer
      { s with stats :=
          (Table.modify currency_stats.primary_key s.stats q.symbol.name q.symbol.name
            { st with supply := supply }) } with e | s2
  · rw [hadd] at h; cases h
  rw [hadd] at h
  dsimp only at h
  refine ⟨h1, h2, st, rfl, h3, h4, h5, h6, h7, supply, s2, hsup, hadd, ?_⟩
  by_cases h8 : to_ = st.issuer
  · rw [if_neg (not_not.2 h8)] at h
    exact Or.inr ⟨h8, (Except.ok.inj h).symm⟩
  · rw [if_pos h8] at h
    exact Or.inl ⟨h8, h⟩

theorem issue_eq {env : Env} (to_ : Nat) {q : asset} {memo : List Nat} {s : State}
    {st : currency_stats}
    (h1 : q.symbol.is_valid = true) (h2 : memo.length ≤ 256)
    (hf : s.find_stats q.symbol.name q.symbol.name = some st)
    (h3 : env.has_auth st.issuer = true) (h4 : q.is_valid = true) (h5 : 0 < q.amount)
    (h6 : q.symbol = st.supply.symbol)
    (h7 : q.amount ≤ wrap64 (st.max_supply.amount - st.supply.amount)) :
    issue env to_ q memo s =
      match st.supply.add q with
      | .error e => .error e
      | .ok supply =>
        match add_balance st.issuer q st.issuer
          { s with stats :=
              (Table.modify currency_stats.primary_key s.stats q.symbol.name q.symbol.name
                { st with supply := supply }) } with
        | .error e => .error e
        | .ok s2 =>
          if to_ ≠ st.issuer then
            transfer { env with has_auth := fun a => a == st.issuer }
              st.issuer to_ q memo s2
          else .ok s2 := by
  unfold issue
  dsimp only
  rw [if_neg (not_not.2 h1), if_neg (not_not.2 h2), hf]
  dsimp only
  rw [if_neg (not_not.2 h3), if_neg (not_not.2 h4), if_neg (not_not.2 h5),
    if_neg (not_not.2 h6), if_neg (not_not.2 h7)]

theorem create_ok {cfg : Config} {env : Env} {issuer : Nat} {m : asset} {s s1 : State}
    (h : create cfg env issuer m s = .ok s1) :
    env.has_auth cfg.self = true ∧ m.symbol.is_valid = true ∧ m.is_valid = true ∧
    0 < m.amount ∧ s.find_stats m.symbol.name m.symbol.name = none ∧
    s1 = { s with stats := s.stats ++ [(m.symbol.name,
      { supply := { amount := 0, symbol := m.symbol }, max_supply := m, issuer := issuer })] } := by
  unfold create at h
  dsimp only at h
  by_cases h1 : env.has_auth cfg.self = true
  swap
  · rw [if_pos h1] at h; cases h
  rw [if_neg (not_not.2 h1)] at h
  by_cases h2 : m.symbol.is_valid = true
  swap
  · rw [if_pos h2] at h; cases h
  rw [if_neg (not_not.2 h2)] at h
  by_cases h3 : m.is_valid = true
  swap
  · rw [if_pos h3] at h; cases h
  rw [if_neg (not_not.2 h3)] at h
  by_cases h4 : m.amount > 0
  swap
  · rw [if_pos h4] at h; cases h
  rw [if_neg (not_not.2 h4)] at h
  rcases hf : s.find_stats m.symbol.name m.symbol.name with _ | st
  · rw [hf] at h
    dsimp only at h
    rcases he : Table.emplace currency_stats.primary_key s.stats m.symbol.name
        { supply := { amount := 0, symbol := m.symbol }, max_supply := m, issuer := issuer }
      with e | t
    · rw [he] at h; cases h
    · rw [he] at h
      rw [emplace_ok] at he
      refine ⟨h1, h2, h3, h4, rfl, ?_⟩
      rw [← Except.ok.inj h, he.2]
  · rw [hf] at h; cases h

theorem regairdrop_ok {cfg : Config} {receiver : Nat} {s s1 : State}
    (h : regairdrop cfg receiver s = .ok s1) :
    s.find_account receiver rankblock_SYMBOL.name = none ∧
    s.find_account receiver cfg.core_symbol.name = none ∧
    s1 = { s with accounts := s.accounts ++ [(receiver, ⟨⟨0, cfg.core_symbol⟩⟩)] } := by
  unfold regairdrop at h
  rcases hf : s.find_account receiver rankblock_SYMBOL.name with _ | a
  · rw [hf] at h
    dsimp only at h
    rcases he : Table.emplace account.primary_key s.accounts receiver
        ⟨⟨0, cfg.core_symbol⟩⟩ with e | t
    · rw [he] at h; cases h
    · rw [he] at h
      rw [emplace_ok] at he
      refine ⟨rfl, he.1, ?_⟩
      rw [← Except.ok.inj h, he.2]
  · rw [hf] at h; cases h



/-! ### The invariant is kept by every action -/

theorem supply_of_congr {s s1 : State} (h : s1.stats = s.stats) (key : Nat) :
    supply_of s1 key = supply_of s key := by
  unfold supply_of; rw [find_stats_congr h]

theorem balances_in_range {s : State} (hb : s.balances_ok) :
    ∀ r ∈ s.accounts, r.2.balance.in_range := by
  intro r hr
  have h0 : 0 ≤ r.2.balance.amount := (hb r hr).1
  exact ⟨by have := max_amount_val; omega, (hb r hr).2⟩

theorem transfer_inv {env : Env} {from_ to_ : Nat} {q : asset} {memo : List Nat}
    {s s2 : State} (hi : Inv s) (h : transfer env from_ to_ q memo s = .ok s2) : Inv s2 := by
  obtain ⟨_, _, _, st, hf, hval, hpos, hsym, _, s1, hsub, hadd⟩ := transfer_ok h
  have hv := is_valid_in_range hval
  have hst1 := (sub_balance_ok hsub).choose_spec.2.2.1
  obtain ⟨hu1, hb1, hc1⟩ :=
    sub_balance_keeps hsub hi.unique_accounts hi.balances_ok hi.coherent hv (le_of_lt hpos)
  have hst2 := (add_balance_ok hadd).1
  have hreg : ∃ st, s1.find_stats q.symbol.name q.symbol.name = some st ∧
      st.supply.symbol = q.symbol := ⟨st, by rw [find_stats_congr hst1]; exact hf, hsym.symm⟩
  obtain ⟨hu2, hb2, hc2⟩ := add_balance_keeps hadd hu1 hb1 hc1 hv (le_of_lt hpos) hreg
  have hstats : s2.stats = s.stats := hst2.trans hst1
  refine ⟨hu2, ?_, ?_, hb2, ?_, hc2, ?_⟩
  · rw [hstats]; exact hi.unique_stats
  · rw [hstats]; exact hi.stats_ok
  · intro key
    rw [add_balance_total hadd (balances_in_range hb1) hv,
      sub_balance_total hsub (balances_in_range hi.balances_ok) hv,
      supply_of_congr hstats, hi.totals]
    ring
  · rw [hstats]; exact hi.stats_scoped

theorem create_inv {cfg : Config} {env : Env} {issuer : Nat} {m : asset} {s s1 : State}
    (hi : Inv s) (h : create cfg env issuer m s = .ok s1) : Inv s1 := by
  obtain ⟨_, _, hval, hpos, hf, hs1⟩ := create_ok h
  have hv := is_valid_in_range hval
  have hfind : ∀ k st, s.find_stats k k = some st → s1.find_stats k k = some st := by
    intro k st hk
    rw [hs1]
    unfold State.find_stats at hk ⊢
    simp only
    rw [find_append, hk]
  subst hs1
  refine ⟨hi.unique_accounts, ?_, ?_, hi.balances_ok, ?_, ?_, ?_⟩
  · exact unique_emplace _ _ _ _ hi.unique_stats hf
  · intro r hr
    simp only [List.mem_append, List.mem_singleton] at hr
    rcases hr with h1 | h1
    · exact hi.stats_ok r h1
    · rw [h1]
      exact ⟨le_refl _, le_of_lt hpos, hpos, hv.2⟩
  · intro key
    have : total_balance
        { s with stats := s.stats ++ [(m.symbol.name,
          { supply := { amount := 0, symbol := m.symbol }, max_supply := m,
            issuer := issuer })] } key = total_balance s key := rfl
    rw [this, hi.totals]
    unfold supply_of State.find_stats
    simp only
    rw [find_append]
    rcases hk : Table.find currency_stats.primary_key s.stats key key with _ | x
    · by_cases hc : m.symbol.name = key ∧
          currency_stats.primary_key
            { supply := { amount := 0, symbol := m.symbol }, max_supply := m,
              issuer := issuer } = key
      · simp [hc]
      · simp [hc]
    · rfl
  · intro r hr hnz
    obtain ⟨st, hst1, hst2⟩ := hi.coherent r hr hnz
    exact ⟨st, hfind _ _ hst1, hst2⟩
  · intro r hr
    simp only [List.mem_append, List.mem_singleton] at hr
    rcases hr with h1 | h1
    · exact hi.stats_scoped r h1
    · rw [h1]; rfl

theorem regairdrop_inv {cfg : Config} {receiver : Nat} {s s1 : State}
    (hi : Inv s) (h : regairdrop cfg receiver s = .ok s1) : Inv s1 := by
  obtain ⟨_, hf, hs1⟩ := regairdrop_ok h
  subst hs1
  refine ⟨?_, hi.unique_stats, hi.stats_ok, ?_, ?_, ?_, hi.stats_scoped⟩
  · exact unique_emplace _ _ _ _ hi.unique_accounts hf
  · intro r hr
    simp only [List.mem_append, List.mem_singleton] at hr
    rcases hr with h1 | h1
    · exact hi.balances_ok r h1
    · rw [h1]
      refine ⟨le_refl _, ?_⟩
      rw [max_amount_val]; simp
  · intro key
    have hsup : supply_of
        { s with accounts := s.accounts ++ [(receiver, ⟨⟨0, cfg.core_symbol⟩⟩)] } key =
          supply_of s key := rfl
    rw [hsup, ← hi.totals, total_balance_eq, total_balance_eq]
    simp [weight_mk]
  · intro r hr hnz
    simp only [List.mem_append, List.mem_singleton] at hr
    rcases hr with h1 | h1
    · exact hi.coherent r h1 hnz
    · rw [h1] at hnz
      exact absurd rfl hnz



theorem stats_in_range {st : currency_stats} (h : st.ok) :
    st.supply.in_range ∧ st.max_supply.in_range := by
  obtain ⟨h1, h2, h3, h4⟩ := h
  have := max_amount_val
  unfold asset.in_range
  omega

/-- The first half of `issue`: supply raised, issuer credited. -/
theorem issue_mint_inv {q : asset} {s s2 : State} {st : currency_stats} {supply : asset}
    (hi : Inv s) (hf : s.find_stats q.symbol.name q.symbol.name = some st)
    (hval : q.is_valid = true) (hpos : 0 < q.amount) (hsym : q.symbol = st.supply.symbol)
    (hcap : q.amount ≤ wrap64 (st.max_supply.amount - st.supply.amount))
    (hsup : st.supply.add q = .ok supply)
    (hadd : add_balance st.issuer q st.issuer
      { s with stats :=
          (Table.modify currency_stats.primary_key s.stats q.symbol.name q.symbol.name
            { st with supply := supply }) } = .ok s2) :
    Inv s2 ∧ supply = ⟨st.supply.amount + q.amount, st.supply.symbol⟩ ∧
      st.supply.amount + q.amount ≤ st.max_supply.amount ∧
      s2.stats = Table.modify currency_stats.primary_key s.stats q.symbol.name q.symbol.name
            { st with supply := supply } := by
  have hv := is_valid_in_range hval
  have hmem := find_some_mem currency_stats.primary_key hf
  have hok : st.ok := hi.stats_ok _ hmem
  obtain ⟨hsr, hmr⟩ := stats_in_range hok
  obtain ⟨_, hse, hsr2⟩ := asset_add_exact hsup hsr hv
  rw [wrap64_sub hmr hsr] at hcap
  have hpk : st.supply.symbol.name = q.symbol.name := find_some_pk currency_stats.primary_key hf
  have hpk2 : currency_stats.primary_key { st with supply := supply } = q.symbol.name := by
    rw [hse]; exact hpk
  -- the state after the supply update
  have hfs : ∀ k, (k = q.symbol.name →
        Table.find currency_stats.primary_key
          (Table.modify currency_stats.primary_key s.stats q.symbol.name q.symbol.name
            { st with supply := supply }) k k = some { st with supply := supply }) ∧
      (k ≠ q.symbol.name →
        Table.find currency_stats.primary_key
          (Table.modify currency_stats.primary_key s.stats q.symbol.name q.symbol.name
            { st with supply := supply }) k k = s.find_stats k k) := by
    intro k
    constructor
    · intro hk
      rw [hk]
      exact find_modify_self _ _ _ _ st _ hf hpk2
    · intro hk
      exact find_modify_other _ _ _ _ _ _ _ hpk2 (fun hh => hk hh.1)
  have hc1 : State.coherent
      { s with stats :=
          (Table.modify currency_stats.primary_key s.stats q.symbol.name q.symbol.name
            { st with supply := supply }) } := by
    intro r hr hnz
    obtain ⟨st1, h1, h2⟩ := hi.coherent r hr hnz
    unfold State.find_stats
    simp only
    by_cases hk : r.2.primary_key = q.symbol.name
    · rw [(hfs _).1 hk]
      rw [hk, hf] at h1
      cases h1
      exact ⟨_, rfl, by rw [hse]; exact h2⟩
    · rw [(hfs _).2 hk]
      exact ⟨st1, h1, h2⟩
  have hreg : ∃ st1, State.find_stats
      { s with stats :=
          (Table.modify currency_stats.primary_key s.stats q.symbol.name q.symbol.name
            { st with supply := supply }) } q.symbol.name q.symbol.name = some st1 ∧
      st1.supply.symbol = q.symbol := by
    refine ⟨_, (hfs _).1 rfl, ?_⟩
    rw [hse]; exact hsym.symm
  obtain ⟨hu2, hb2, hc2⟩ :=
    add_balance_keeps hadd hi.unique_accounts hi.balances_ok hc1 hv (le_of_lt hpos) hreg
  have hst2 := (add_balance_ok hadd).1
  simp only at hst2
  refine ⟨⟨hu2, ?_, ?_, hb2, ?_, hc2, ?_⟩, hse, by omega, hst2⟩
  · rw [hst2]
    exact unique_modify _ _ _ _ st _ hi.unique_stats hf hpk2
  · intro r hr
    rw [hst2] at hr
    rcases mem_replaceFirst _ _ _ _ hr with h1 | h1
    · rw [h1, hse]
      obtain ⟨h1, h2, h3, h4⟩ := hok
      exact ⟨by simp only; omega, by simp only; omega, h3, h4⟩
    · exact hi.stats_ok r h1
  · intro key
    rw [add_balance_total hadd (balances_in_range hi.balances_ok) hv]
    have : total_balance
        { s with stats :=
          (Table.modify currency_stats.primary_key s.stats q.symbol.name q.symbol.name
            { st with supply := supply }) } key = total_balance s key := rfl
    rw [this, hi.totals]
    unfold supply_of State.find_stats
    rw [hst2]
    by_cases hk : key = q.symbol.name
    · rw [(hfs _).1 hk]
      have hf2 : Table.find currency_stats.primary_key s.stats key key = some st := by
        rw [hk]; exact hf
      rw [hf2, if_pos hk.symm, hse]
    · rw [(hfs _).2 hk, if_neg (fun hh => hk hh.symm)]
      unfold State.find_stats
      simp
  · intro r hr
    rw [hst2] at hr
    rcases mem_replaceFirst _ _ _ _ hr with h1 | h1
    · rw [h1]; exact hpk2.symm
    · exact hi.stats_scoped r h1

theorem issue_inv {env : Env} {to_ : Nat} {q : asset} {memo : List Nat} {s s3 : State}
    (hi : Inv s) (h : issue env to_ q memo s = .ok s3) : Inv s3 := by
  obtain ⟨_, _, st, hf, _, hval, hpos, hsym, hcap, supply, s2, hsup, hadd, hcase⟩ :=
    issue_ok h
  have hi2 := (issue_mint_inv hi hf hval hpos hsym hcap hsup hadd).1
  rcases hcase with ⟨_, ht⟩ | ⟨_, he⟩
  · exact transfer_inv hi2 ht
  · rw [he]; exact hi2

theorem empty_inv : Inv State.empty := by
  refine ⟨?_, ?_, ?_, ?_, ?_, ?_, ?_⟩
  · simp [State.empty, Table.unique, Table.keys]
  · simp [State.empty, Table.unique, Table.keys]
  · intro r hr; simp [State.empty] at hr
  · intro r hr; simp [State.empty] at hr
  · intro key; rfl
  · intro r hr; simp [State.empty] at hr
  · intro r hr; simp [State.empty] at hr

theorem step_inv {cfg : Config} {env : Env} {a : Call} {s : State} (hi : Inv s) :
    Inv (step cfg env a s) := by
  unfold step
  rcases hr : run cfg env a s with e | s1
  · exact hi
  · simp only
    cases a with
    | create issuer m => exact create_inv hi hr
    | issue to_ q memo => exact issue_inv hi hr
    | transfer from_ to_ q memo => exact transfer_inv hi hr
    | regairdrop receiver => exact regairdrop_inv hi hr

theorem reachable_inv {cfg : Config} {s : State} (h : Reachable cfg s) : Inv s := by
  induction h with
  | init => exact empty_inv
  | call env a _ ih => exact step_inv ih



theorem mem_find {α : Type} (pk : α → Nat) (t : Table α) (hu : Table.unique pk t)
    (sc : Nat) (row : α) (hm : (sc, row) ∈ t) : Table.find pk t sc (pk row) = some row := by
  unfold Table.unique Table.keys at hu
  induction t with
  | nil => simp at hm
  | cons x xs ih =>
    rw [List.map_cons, List.nodup_cons] at hu
    unfold Table.find
    by_cases hx : Table.hit pk sc (pk row) x = true
    · rw [List.find?_cons_of_pos _ hx]
      rcases List.mem_cons.1 hm with h | h
      · rw [← h]; rfl
      · exfalso
        apply hu.1
        rw [hit_iff] at hx
        rw [List.mem_map]
        exact ⟨(sc, row), h, by simp [hx.1, hx.2]⟩
    · rw [List.find?_cons_of_neg _ hx]
      rcases List.mem_cons.1 hm with h | h
      · exfalso; apply hx; rw [← h, hit_iff]; exact ⟨rfl, rfl⟩
      · exact ih hu.2 h

theorem inv_find_stats {s : State} (hi : Inv s) (r : Nat × currency_stats) (hr : r ∈ s.stats) :
    s.find_stats r.2.supply.symbol.name r.2.supply.symbol.name = some r.2 := by
  have hsc := hi.stats_scoped r hr
  have := mem_find currency_stats.primary_key s.stats hi.unique_stats r.1 r.2 hr
  rw [hsc] at this
  exact this

theorem total_balance_exact_eq {s : State} (hi : Inv s) {key : Nat} {st : currency_stats}
    (hf : s.find_stats key key = some st) :
    total_balance_exact s st.supply.symbol = total_balance s key := by
  have hpk : st.supply.symbol.name = key := find_some_pk currency_stats.primary_key hf
  unfold total_balance_exact total_balance
  rw [sum_filter_map, sum_filter_map]
  congr 1
  apply List.map_congr_left
  intro r hr
  by_cases hz : r.2.balance.amount = 0
  · simp [hz]
  · obtain ⟨st1, h1, h2⟩ := hi.coherent r hr hz
    by_cases hk : r.2.primary_key = key
    · rw [hk, hf] at h1
      cases h1
      simp [hk, h2]
    · have hne : r.2.balance.symbol ≠ st.supply.symbol := by
        intro hh
        apply hk
        unfold account.primary_key
        rw [hh]; exact hpk
      simp [hk, hne]

/-! ## Invariants of the reachable states -/

/-- C1 (supply cap). In every state reachable from the empty ledger by any sequence of
`create`, `issue`, `transfer` and `regairdrop` calls, successful or failed, every row of the
`stats` table satisfies `0 <= supply.amount <= max_supply.amount` and
`max_supply.amount > 0`. -/
theorem supply_cap_invariant (cfg : Config) (s : State) (h : Reachable cfg s) :
    ∀ r ∈ s.stats, 0 ≤ r.2.supply.amount ∧ r.2.supply.amount ≤ r.2.max_supply.amount ∧
      0 < r.2.max_supply.amount := by
  intro r hr
  obtain ⟨h1, h2, h3, _⟩ := (reachable_inv h).stats_ok r hr
  exact ⟨h1, h2, h3⟩

theorem supply_cap_invariant_witness :
    Reachable demo_cfg demo_issued ∧
    demo_issued.stats = [(16978, ⟨RB 5000000, RB 10000000000, 10⟩)] ∧
    ∀ r ∈ demo_issued.stats, 0 ≤ r.2.supply.amount ∧
      r.2.supply.amount ≤ r.2.max_supply.amount ∧ 0 < r.2.max_supply.amount :=
  ⟨Reachable.call _ _ (Reachable.call _ _ Reachable.init), by decide,
    supply_cap_invariant demo_cfg demo_issued
      (Reachable.call _ _ (Reachable.call _ _ Reachable.init))⟩

/-- C2 (conservation). In every state reachable from the empty ledger, for every row of
the `stats` table, the sum of the balances of all `accounts` rows held under that symbol
(rows keyed by its symbol name, and likewise rows carrying exactly its symbol) does not
exceed the current supply of the row. -/
theorem conservation (cfg : Config) (s : State) (h : Reachable cfg s) :
    ∀ r ∈ s.stats, total_balance s r.2.supply.symbol.name ≤ r.2.supply.amount ∧
      total_balance_exact s r.2.supply.symbol ≤ r.2.supply.amount := by
  intro r hr
  have hi := reachable_inv h
  have hf := inv_find_stats hi r hr
  have ht := hi.totals r.2.supply.symbol.name
  unfold supply_of at ht
  rw [hf] at ht
  rw [total_balance_exact_eq hi hf, ht]
  exact ⟨le_refl _, le_refl _⟩

theorem conservation_witness :
    Reachable demo_cfg demo_moved ∧
    ∀ r ∈ demo_moved.stats, total_balance demo_moved r.2.supply.symbol.name ≤ r.2.supply.amount ∧
      total_balance_exact demo_moved r.2.supply.symbol ≤ r.2.supply.amount :=
  ⟨Reachable.call _ _ (Reachable.call _ _ (Reachable.call _ _ Reachable.init)),
    conservation demo_cfg demo_moved
      (Reachable.call _ _ (Reachable.call _ _ (Reachable.call _ _ Reachable.init)))⟩

/-- C3 (supply is the sum of the balances). In every state reachable from the empty
ledger, for every row of the `stats` table, `supply.amount` equals the sum of
`balance.amount` over all `accounts` rows of that symbol: over the rows keyed by its symbol
name, and equally over the rows that carry exactly its symbol. -/
theorem supply_is_sum_of_balances (cfg : Config) (s : State) (h : Reachable cfg s) :
    ∀ r ∈ s.stats, r.2.supply.amount = total_balance s r.2.supply.symbol.name ∧
      r.2.supply.amount = total_balance_exact s r.2.supply.symbol := by
  intro r hr
  have hi := reachable_inv h
  have hf := inv_find_stats hi r hr
  have ht := hi.totals r.2.supply.symbol.name
  unfold supply_of at ht
  rw [hf] at ht
  rw [total_balance_exact_eq hi hf, ht]
  exact ⟨rfl, rfl⟩

theorem supply_is_sum_of_balances_witness :
    Reachable demo_cfg demo_back ∧
    total_balance demo_moved 16978 = 5000000 ∧
    ∀ r ∈ demo_back.stats, r.2.supply.amount = total_balance demo_back r.2.supply.symbol.name ∧
      r.2.supply.amount = total_balance_exact demo_back r.2.supply.symbol :=
  ⟨Reachable.call _ _ (Reachable.call _ _ (Reachable.call _ _
      (Reachable.call _ _ Reachable.init))), by decide,
    supply_is_sum_of_balances demo_cfg demo_back
      (Reachable.call _ _ (Reachable.call _ _ (Reachable.call _ _
        (Reachable.call _ _ Reachable.init))))⟩



/-! ### Storage well-formedness is kept by the balance helpers -/

theorem sub_balance_wf {owner : Nat} {value : asset} {s s1 : State}
    (h : sub_balance owner value s = .ok s1)
    (hu : Table.unique account.primary_key s.accounts)
    (hr : ∀ r ∈ s.accounts, r.2.balance.in_range) (hv : value.in_range) :
    Table.unique account.primary_key s1.accounts ∧
      ∀ r ∈ s1.accounts, r.2.balance.in_range := by
  obtain ⟨a, hf, hle, hst, hcase⟩ := sub_balance_ok h
  have hmem := find_some_mem account.primary_key hf
  have hpk := find_account_pk hf
  rcases hcase with ⟨he, hacc⟩ | ⟨hne, b, hb1, hacc⟩
  · rw [hacc]
    exact ⟨unique_erase _ _ _ _ hu, fun r hr1 => hr r (mem_erase _ _ _ _ _ hr1)⟩
  · obtain ⟨hs, hbe, hbr⟩ := asset_sub_exact hb1 (hr _ hmem) hv
    rw [hacc]
    refine ⟨?_, ?_⟩
    · apply unique_modify account.primary_key _ _ _ a ⟨b⟩ hu hf
      rw [hbe]; exact hpk
    · intro r hr1
      rcases mem_replaceFirst _ _ _ _ hr1 with h1 | h1
      · rw [h1]; exact hbr
      · exact hr r h1

theorem add_balance_wf {owner payer : Nat} {value : asset} {s s1 : State}
    (h : add_balance owner value payer s = .ok s1)
    (hu : Table.unique account.primary_key s.accounts)
    (hr : ∀ r ∈ s.accounts, r.2.balance.in_range) (hv : value.in_range) :
    Table.unique account.primary_key s1.accounts ∧
      ∀ r ∈ s1.accounts, r.2.balance.in_range := by
  obtain ⟨hst, hcase⟩ := add_balance_ok h
  rcases hcase with ⟨hf, hacc⟩ | ⟨a, b, hf, hb1, hacc⟩
  · rw [hacc]
    refine ⟨unique_emplace _ _ _ _ hu hf, ?_⟩
    intro r hr1
    rw [List.mem_append, List.mem_singleton] at hr1
    rcases hr1 with h1 | h1
    · exact hr r h1
    · rw [h1]; exact hv
  · have hmem := find_some_mem account.primary_key hf
    have hpk := find_account_pk hf
    obtain ⟨hs, hbe, hbr⟩ := asset_add_exact hb1 (hr _ hmem) hv
    rw [hacc]
    refine ⟨?_, ?_⟩
    · apply unique_modify account.primary_key _ _ _ a ⟨b⟩ hu hf
      rw [hbe]; exact hpk
    · intro r hr1
      rcases mem_replaceFirst _ _ _ _ hr1 with h1 | h1
      · rw [h1]; exact hbr
      · exact hr r h1

theorem balance_of_congr {s s1 : State} {o k : Nat}
    (h : s1.find_account o k = s.find_account o k) : balance_of s1 o k = balance_of s o k := by
  unfold balance_of; rw [h]

/-- What a successful `transfer` does to the looked-up rows of a well-formed state. -/
theorem transfer_effect {env : Env} {from_ to_ : Nat} {q : asset} {memo : List Nat}
    {s s2 : State} (hwf : s.WF) (h : transfer env from_ to_ q memo s = .ok s2) :
    s2.stats = s.stats ∧ s2.WF ∧
    (∃ a, s.find_account from_ q.symbol.name = some a ∧ q.amount ≤ a.balance.amount ∧
      (a.balance.amount ≠ q.amount → q.symbol = a.balance.symbol) ∧
      s2.find_account from_ q.symbol.name =
        if a.balance.amount = q.amount then none
        else some ⟨⟨a.balance.amount - q.amount, a.balance.symbol⟩⟩) ∧
    (∀ a, s.find_account to_ q.symbol.name = some a → a.balance.symbol = q.symbol) ∧
    s2.find_account to_ q.symbol.name =
      some ⟨⟨balance_of s to_ q.symbol.name + q.amount, q.symbol⟩⟩ ∧
    (∀ o k, ¬ ((o = from_ ∨ o = to_) ∧ k = q.symbol.name) →
      s2.find_account o k = s.find_account o k) := by
  obtain ⟨hne, _, _, st, hf, hval, hpos, hsym, _, s1, hsub, hadd⟩ := transfer_ok h
  obtain ⟨hu, hus, hr, hrs⟩ := hwf
  have hv := is_valid_in_range hval
  obtain ⟨hst1, ⟨a, hfa, hle, hsy, hfrom1⟩, hoth1⟩ := sub_balance_find hsub hu hr hv
  obtain ⟨hu1, hr1⟩ := sub_balance_wf hsub hu hr hv
  obtain ⟨hst2, hsy2, hto2, hoth2⟩ := add_balance_find hadd hr1 hv
  obtain ⟨hu2, hr2⟩ := add_balance_wf hadd hu1 hr1 hv
  have hto1 : s1.find_account to_ q.symbol.name = s.find_account to_ q.symbol.name :=
    hoth1 _ _ (fun hh => hne hh.1.symm)
  refine ⟨hst2.trans hst1, ⟨hu2, ?_, hr2, ?_⟩, ⟨a, hfa, hle, hsy, ?_⟩, ?_, ?_, ?_⟩
  · rw [hst2.trans hst1]; exact hus
  · rw [hst2.trans hst1]; exact hrs
  · rw [hoth2 _ _ (fun hh => hne hh.1), hfrom1]
  · intro a1 ha1
    exact hsy2 a1 (by rw [hto1]; exact ha1)
  · rw [hto2, balance_of_congr hto1]
  · intro o k hn
    rw [hoth2 o k (fun hh => hn ⟨Or.inr hh.1, hh.2⟩),
      hoth1 o k (fun hh => hn ⟨Or.inl hh.1, hh.2⟩)]

/-! ## Transfer -/

/-- C4 (transfer conserves balances). For every well-formed state and every successful
`transfer(from, to, q, memo)`: the row of `from` holds its old amount minus `q.amount` and is
absent exactly when that is zero; the row of `to` holds its old amount (`0` without a row)
plus `q.amount`; so the two balances add up to what they did before; every other row of
the `accounts` table, and the whole `stats` table, is as before. -/
theorem transfer_conserves_balances (env : Env) (from_ to_ : Nat) (q : asset)
    (memo : List Nat) (s s2 : State) (hwf : s.WF)
    (h : transfer env from_ to_ q memo s = .ok s2) :
    (∃ a, s.find_account from_ q.symbol.name = some a ∧
      s2.find_account from_ q.symbol.name =
        if a.balance.amount - q.amount = 0 then none
        else some ⟨⟨a.balance.amount - q.amount, a.balance.symbol⟩⟩) ∧
    balance_of s2 from_ q.symbol.name = balance_of s from_ q.symbol.name - q.amount ∧
    s2.find_account to_ q.symbol.name =
      some ⟨⟨balance_of s to_ q.symbol.name + q.amount, q.symbol⟩⟩ ∧
    balance_of s2 to_ q.symbol.name = balance_of s to_ q.symbol.name + q.amount ∧
    balance_of s2 from_ q.symbol.name + balance_of s2 to_ q.symbol.name =
      balance_of s from_ q.symbol.name + balance_of s to_ q.symbol.name ∧
    (∀ o k, ¬ ((o = from_ ∨ o = to_) ∧ k = q.symbol.name) →
      s2.find_account o k = s.find_account o k) ∧
    s2.stats = s.stats := by
  obtain ⟨hst, _, ⟨a, hfa, hle, _, hfrom⟩, _, hto, hoth⟩ := transfer_effect hwf h
  have hb1 : balance_of s2 from_ q.symbol.name = balance_of s from_ q.symbol.name - q.amount := by
    unfold balance_of
    rw [hfrom, hfa]
    by_cases he : a.balance.amount = q.amount
    · rw [if_pos he]; simp only; omega
    · rw [if_neg he]
  have hb2 : balance_of s2 to_ q.symbol.name = balance_of s to_ q.symbol.name + q.amount := by
    conv_lhs => unfold balance_of
    rw [hto]
  refine ⟨⟨a, hfa, ?_⟩, hb1, hto, hb2, ?_, hoth, hst⟩
  · rw [hfrom]
    by_cases he : a.balance.amount = q.amount
    · rw [if_pos he, if_pos (by omega)]
    · rw [if_neg he, if_neg (by omega)]
  · rw [hb1, hb2]; ring

theorem transfer_conserves_balances_witness :
    demo_issued.WF ∧
    transfer demo_env 10 11 (RB 2000000) [] demo_issued = .ok demo_moved ∧
    demo_moved.find_account 10 16978 = some ⟨RB 3000000⟩ ∧
    demo_moved.find_account 11 16978 = some ⟨RB 2000000⟩ ∧
    balance_of demo_moved 10 (RB 2000000).symbol.name +
        balance_of demo_moved 11 (RB 2000000).symbol.name =
      balance_of demo_issued 10 (RB 2000000).symbol.name +
        balance_of demo_issued 11 (RB 2000000).symbol.name :=
  ⟨by decide, by decide, by decide, by decide,
    (transfer_conserves_balances demo_env 10 11 (RB 2000000) [] demo_issued demo_moved
      (by decide) (by decide)).2.2.2.2.1⟩



theorem step_of_error {cfg : Config} {env : Env} {a : Call} {s : State} {e : Error}
    (h : run cfg env a s = .error e) : step cfg env a s = s := by
  unfold step; rw [h]

theorem step_of_ok {cfg : Config} {env : Env} {a : Call} {s s1 : State}
    (h : run cfg env a s = .ok s1) : step cfg env a s = s1 := by
  unfold step; rw [h]

theorem asset_add_ne_e9 (a v : asset) : a.add v ≠ .error .e_9 := by
  unfold asset.add
  dsimp only
  split_ifs <;> simp

theorem asset_sub_ne_e9 (a v : asset) : a.sub v ≠ .error .e_9 := by
  unfold asset.sub
  dsimp only
  split_ifs <;> simp

theorem emplace_ne_e9 {α : Type} (pk : α → Nat) (t : Table α) (sc : Nat) (row : α) :
    Table.emplace pk t sc row ≠ .error .e_9 := by
  unfold Table.emplace
  split_ifs <;> simp

theorem sub_balance_ne_e9 (owner : Nat) (value : asset) (s : State) :
    sub_balance owner value s ≠ .error .e_9 := by
  unfold sub_balance
  rcases s.find_account owner value.symbol.name with _ | a
  · simp
  · dsimp only
    split_ifs
    all_goals first | (simp; done) | skip
    have := asset_sub_ne_e9 a.balance value
    rcases hb : a.balance.sub value with e | b
    · rw [hb] at this
      intro hh
      apply this
      simpa using hh
    · simp

theorem add_balance_ne_e9 (owner payer : Nat) (value : asset) (s : State) :
    add_balance owner value payer s ≠ .error .e_9 := by
  unfold add_balance
  rcases s.find_account owner value.symbol.name with _ | a
  · dsimp only
    have := emplace_ne_e9 account.primary_key s.accounts owner ⟨value⟩
    rcases he : Table.emplace account.primary_key s.accounts owner ⟨value⟩ with e | t
    · rw [he] at this
      intro hh
      apply this
      simpa using hh
    · simp
  · dsimp only
    have := asset_add_ne_e9 a.balance value
    rcases hb : a.balance.add value with e | b
    · rw [hb] at this
      intro hh
      apply this
      simpa using hh
    · simp

theorem transfer_ne_e9 (env : Env) (from_ to_ : Nat) (q : asset) (memo : List Nat)
    (s : State) : transfer env from_ to_ q memo s ≠ .error .e_9 := by
  unfold transfer
  dsimp only
  by_cases h1 : from_ = to_
  · rw [if_pos h1]; simp
  rw [if_neg h1]
  by_cases h2 : env.has_auth from_ = true
  swap
  · rw [if_pos h2]; simp
  rw [if_neg (not_not.2 h2)]
  by_cases h3 : env.is_account to_ = true
  swap
  · rw [if_pos h3]; simp
  rw [if_neg (not_not.2 h3)]
  rcases s.find_stats q.symbol.name q.symbol.name with _ | st
  · simp
  dsimp only
  split_ifs
  all_goals first | (simp; done) | skip
  rcases hs : sub_balance from_ q s with e | s1
  · have := sub_balance_ne_e9 from_ q s
    rw [hs] at this
    intro hh
    apply this
    simpa using hh
  · exact add_balance_ne_e9 _ _ _ _


/-! ## Debit and token creation -/

/-- C5 (debit). `sub_balance(owner, value)` on a well-formed state: without a row for the
symbol name it aborts with `e.14` (NoBalance); with a row smaller than the amount it aborts
with `e.15` (InsufficientFunds), and an aborted call writes nothing; with a row equal to the
amount it erases the row; with a larger row of the same symbol it leaves the row with the old
amount minus the amount (the difference being an amount `asset` accepts, as it is for every
non-negative debit). No other row changes. -/
theorem sub_balance_semantics (owner : Nat) (value : asset) (s : State) (hwf : s.WF) :
    (s.find_account owner value.symbol.name = none →
      sub_balance owner value s = .error .e_14) ∧
    (∀ a, s.find_account owner value.symbol.name = some a →
      a.balance.amount < value.amount → sub_balance owner value s = .error .e_15) ∧
    (∀ a, s.find_account owner value.symbol.name = some a →
      a.balance.amount = value.amount →
      ∃ s1, sub_balance owner value s = .ok s1 ∧
        s1.find_account owner value.symbol.name = none ∧
        (∀ o k, ¬ (o = owner ∧ k = value.symbol.name) →
          s1.find_account o k = s.find_account o k) ∧ s1.stats = s.stats) ∧
    (∀ a, s.find_account owner value.symbol.name = some a →
      value.amount < a.balance.amount → value.symbol = a.balance.symbol →
      a.balance.amount - value.amount ≤ max_amount →
      ∃ s1, sub_balance owner value s = .ok s1 ∧
        s1.find_account owner value.symbol.name =
          some ⟨⟨a.balance.amount - value.amount, a.balance.symbol⟩⟩ ∧
        (∀ o k, ¬ (o = owner ∧ k = value.symbol.name) →
          s1.find_account o k = s.find_account o k) ∧ s1.stats = s.stats) := by
  refine ⟨?_, ?_, ?_, ?_⟩
  · intro hf
    unfold sub_balance
    rw [hf]
  · intro a hf hlt
    unfold sub_balance
    rw [hf]
    dsimp only
    rw [if_pos (by omega)]
  · intro a hf heq
    have hpk := find_account_pk hf
    refine ⟨{ s with accounts :=
      (Table.erase account.primary_key s.accounts owner value.symbol.name) }, ?_, ?_, ?_, rfl⟩
    · unfold sub_balance
      rw [hf]
      dsimp only
      rw [if_neg (by omega), if_pos heq]
    · exact find_erase_self _ _ _ _ hwf.1
    · intro o k hne
      exact find_erase_other _ _ _ _ _ _ hne
  · intro a hf hlt hsym hrange
    have hpk := find_account_pk hf
    have hsub : a.balance.sub value = .ok ⟨a.balance.amount - value.amount, a.balance.symbol⟩ := by
      unfold asset.sub
      dsimp only
      have hw : wrap64 (a.balance.amount - value.amount) = a.balance.amount - value.amount := by
        have := max_amount_val
        apply wrap64_eq <;> norm_num <;> omega
      rw [hw, if_neg (not_not.2 hsym), if_neg (by have := max_amount_val; omega),
        if_neg (by omega)]
    refine ⟨{ s with accounts :=
      (Table.modify account.primary_key s.accounts owner value.symbol.name
        ⟨⟨a.balance.amount - value.amount, a.balance.symbol⟩⟩) }, ?_, ?_, ?_, rfl⟩
    · unfold sub_balance
      rw [hf]
      dsimp only
      rw [if_neg (by omega), if_neg (by omega), hsub]
    · exact find_modify_self _ _ _ _ a _ hf hpk
    · intro o k hne
      exact find_modify_other _ _ _ _ _ _ _ hpk hne

theorem sub_balance_semantics_witness :
    demo_moved.WF ∧
    sub_balance 12 (RB 1) demo_moved = .error .e_14 ∧
    sub_balance 11 (RB 2000001) demo_moved = .error .e_15 ∧
    sub_balance 11 (RB 2000000) demo_moved =
      .ok ⟨demo_moved.stats, [(10, ⟨RB 3000000⟩)]⟩ ∧
    sub_balance 11 (RB 500000) demo_moved =
      .ok ⟨demo_moved.stats, [(10, ⟨RB 3000000⟩), (11, ⟨RB 1500000⟩)]⟩ :=
  ⟨by decide, (sub_balance_semantics 12 (RB 1) demo_moved (by decide)).1 (by decide),
    by decide, by decide, by decide⟩

/-- C6 (create once). When a `stats` row already exists for the symbol name of
`maximum_supply`, `create` aborts for every issuer and every amount; with the contract's
authority and a valid positive `maximum_supply` the abort is `err.4` (AlreadyExists). The
state, hence the existing row with its issuer, supply and maximum supply, is unchanged. -/
theorem create_once (cfg : Config) (env : Env) (issuer : Nat) (m : asset) (s : State)
    (st : currency_stats) (hf : s.find_stats m.symbol.name m.symbol.name = some st) :
    (∃ e, create cfg env issuer m s = .error e) ∧
    (env.has_auth cfg.self = true → m.is_valid = true → 0 < m.amount →
      create cfg env issuer m s = .error .err_4) ∧
    step cfg env (.create issuer m) s = s ∧
    (step cfg env (.create issuer m) s).find_stats m.symbol.name m.symbol.name = some st := by
  have hfail : ∃ e, create cfg env issuer m s = .error e := by
    rcases hc : create cfg env issuer m s with e | s1
    · exact ⟨e, rfl⟩
    · have := (create_ok hc).2.2.2.2.1
      rw [hf] at this
      cases this
  have hstep : step cfg env (.create issuer m) s = s := by
    obtain ⟨e, he⟩ := hfail
    exact step_of_error (a := .create issuer m) he
  refine ⟨hfail, ?_, hstep, by rw [hstep]; exact hf⟩
  intro h1 h2 h3
  have hsv : m.symbol.is_valid = true := by
    unfold asset.is_valid at h2
    rw [Bool.and_eq_true] at h2
    exact h2.2
  unfold create
  dsimp only
  rw [if_neg (not_not.2 h1), if_neg (not_not.2 hsv), if_neg (not_not.2 h2),
    if_neg (not_not.2 h3), hf]

theorem create_once_witness :
    demo_created.find_stats (RB 77).symbol.name (RB 77).symbol.name =
      some ⟨RB 0, RB 10000000000, 10⟩ ∧
    create demo_cfg demo_env 11 (RB 77) demo_created = .error .err_4 ∧
    step demo_cfg demo_env (.create 11 (RB 77)) demo_created = demo_created :=
  ⟨by decide,
    (create_once demo_cfg demo_env 11 (RB 77) demo_created ⟨RB 0, RB 10000000000, 10⟩
      (by decide)).2.1 (by decide) (by decide) (by decide),
    (create_once demo_cfg demo_env 11 (RB 77) demo_created ⟨RB 0, RB 10000000000, 10⟩
      (by decide)).2.2.1⟩



/-- The abort `e.9` of `issue` can only come from its cap check. -/
theorem issue_e9 {env : Env} {to_ : Nat} {q : asset} {memo : List Nat} {s : State}
    (h : issue env to_ q memo s = .error .e_9) :
    ∃ st, s.find_stats q.symbol.name q.symbol.name = some st ∧
      ¬ (q.amount ≤ wrap64 (st.max_supply.amount - st.supply.amount)) := by
  unfold issue at h
  dsimp only at h
  by_cases h1 : q.symbol.is_valid = true
  swap
  · rw [if_pos h1] at h; cases h
  rw [if_neg (not_not.2 h1)] at h
  by_cases h2 : memo.length ≤ 256
  swap
  · rw [if_pos h2] at h; cases h
  rw [if_neg (not_not.2 h2)] at h
  rcases hf : s.find_stats q.symbol.name q.symbol.name with _ | st
  · rw [hf] at h; cases h
  rw [hf] at h
  dsimp only at h
  by_cases h3 : env.has_auth st.issuer = true
  swap
  · rw [if_pos h3] at h; cases h
  rw [if_neg (not_not.2 h3)] at h
  by_cases h4 : q.is_valid = true
  swap
  · rw [if_pos h4] at h; cases h
  rw [if_neg (not_not.2 h4)] at h
  by_cases h5 : q.amount > 0
  swap
  · rw [if_pos h5] at h; cases h
  rw [if_neg (not_not.2 h5)] at h
  by_cases h6 : q.symbol = st.supply.symbol
  swap
  · rw [if_pos h6] at h; cases h
  rw [if_neg (not_not.2 h6)] at h
  by_cases h7 : q.amount ≤ wrap64 (st.max_supply.amount - st.supply.amount)
  swap
  · exact ⟨st, rfl, h7⟩
  exfalso
  rw [if_neg (not_not.2 h7)] at h
  rcases hsup : st.supply.add q with e | supply
  · rw [hsup] at h
    dsimp only at h
    have he : e = .e_9 := by injection h
    rw [he] at hsup
    exact asset_add_ne_e9 st.supply q hsup
  rw [hsup] at h
  dsimp only at h
  rcases hadd : add_balance st.issuer q st.issuer
      { s with stats :=
          (Table.modify currency_stats.primary_key s.stats q.symbol.name q.symbol.name
            { st with supply := supply }) } with e | s2
  · rw [hadd] at h
    dsimp only at h
    have he : e = .e_9 := by injection h
    rw [he] at hadd
    exact add_balance_ne_e9 _ _ _ _ hadd
  rw [hadd] at h
  dsimp only at h
  by_cases h8 : to_ = st.issuer
  · rw [if_neg (not_not.2 h8)] at h; cases h
  · rw [if_pos h8] at h
    exact transfer_ne_e9 _ _ _ _ _ _ h

theorem wf_stats_in_range {s : State} (hwf : s.WF) {sc k : Nat} {st : currency_stats}
    (hf : s.find_stats sc k = some st) : st.supply.in_range ∧ st.max_supply.in_range :=
  hwf.2.2.2 _ (find_some_mem currency_stats.primary_key hf)

/-! ## Issue -/

/-- C7 (supply cap enforcement). On a well-formed state with a `stats` row for the symbol
name of `quantity`: when `quantity.amount > max_supply.amount - supply.amount`, `issue`
aborts and the state after the call is the state before it; if the checks that precede the
cap check pass (memo length, authority of the issuer, valid positive quantity, matching
symbol) the abort is `e.9` (SupplyExceeded). When `quantity.amount` is exactly
`max_supply.amount - supply.amount` and positive, `issue` does not abort with `e.9`. -/
theorem supply_cap_enforced (cfg : Config) (env : Env) (to_ : Nat) (q : asset)
    (memo : List Nat) (s : State) (st : currency_stats) (hwf : s.WF)
    (hf : s.find_stats q.symbol.name q.symbol.name = some st) :
    (st.max_supply.amount - st.supply.amount < q.amount →
      (∃ e, issue env to_ q memo s = .error e) ∧
      step cfg env (.issue to_ q memo) s = s ∧
      (memo.length ≤ 256 → env.has_auth st.issuer = true → q.is_valid = true →
        0 < q.amount → q.symbol = st.supply.symbol →
        issue env to_ q memo s = .error .e_9)) ∧
    (q.amount = st.max_supply.amount - st.supply.amount → 0 < q.amount →
      issue env to_ q memo s ≠ .error .e_9) := by
  obtain ⟨hsr, hmr⟩ := wf_stats_in_range hwf hf
  have hw : wrap64 (st.max_supply.amount - st.supply.amount) =
      st.max_supply.amount - st.supply.amount := wrap64_sub hmr hsr
  constructor
  · intro hgt
    have hfail : ∃ e, issue env to_ q memo s = .error e := by
      rcases hc : issue env to_ q memo s with e | s3
      · exact ⟨e, rfl⟩
      · obtain ⟨_, _, st1, hf1, _, _, _, _, hcap, _⟩ := issue_ok hc
        rw [hf] at hf1
        cases hf1
        rw [hw] at hcap
        omega
    refine ⟨hfail, ?_, ?_⟩
    · obtain ⟨e, he⟩ := hfail
      exact step_of_error (a := .issue to_ q memo) he
    · intro h2 h3 h4 h5 h6
      have h1 : q.symbol.is_valid = true := by
        unfold asset.is_valid at h4
        rw [Bool.and_eq_true] at h4
        exact h4.2
      unfold issue
      dsimp only
      rw [if_neg (not_not.2 h1), if_neg (not_not.2 h2), hf]
      dsimp only
      rw [if_neg (not_not.2 h3), if_neg (not_not.2 h4), if_neg (not_not.2 h5),
        if_neg (not_not.2 h6), hw, if_pos (by omega)]
  · intro heq _ he9
    obtain ⟨st1, hf1, hcap⟩ := issue_e9 he9
    rw [hf] at hf1
    cases hf1
    rw [hw] at hcap
    omega

theorem supply_cap_enforced_witness :
    demo_issued.WF ∧
    demo_issued.find_stats (RB 1).symbol.name (RB 1).symbol.name =
      some ⟨RB 5000000, RB 10000000000, 10⟩ ∧
    issue demo_env 10 (RB 9995000001) [] demo_issued = .error .e_9 ∧
    step demo_cfg demo_env (.issue 10 (RB 9995000001) []) demo_issued = demo_issued ∧
    issue demo_env 10 (RB 9995000000) [] demo_issued =
      .ok ⟨[(16978, ⟨RB 10000000000, RB 10000000000, 10⟩)], [(10, ⟨RB 10000000000⟩)]⟩ :=
  ⟨by decide, by decide,
    ((supply_cap_enforced demo_cfg demo_env 10 (RB 9995000001) [] demo_issued
      ⟨RB 5000000, RB 10000000000, 10⟩ (by decide) (by decide)).1 (by decide)).2.2
        (by decide) (by decide) (by decide) (by decide) (by decide),
    ((supply_cap_enforced demo_cfg demo_env 10 (RB 9995000001) [] demo_issued
      ⟨RB 5000000, RB 10000000000, 10⟩ (by decide) (by decide)).1 (by decide)).2.1,
    by decide⟩



/-- The state `issue` hands to its follow-on transfer: supply raised, issuer credited. -/
theorem issue_mint_effect {q : asset} {s s2 : State} {st : currency_stats} {supply : asset}
    (hwf : s.WF) (hf : s.find_stats q.symbol.name q.symbol.name = some st)
    (hval : q.is_valid = true)
    (hsup : st.supply.add q = .ok supply)
    (hadd : add_balance st.issuer q st.issuer
      { s with stats :=
          (Table.modify currency_stats.primary_key s.stats q.symbol.name q.symbol.name
            { st with supply := supply }) } = .ok s2) :
    s2.WF ∧
    s2.find_stats q.symbol.name q.symbol.name =
      some { st with supply := ⟨st.supply.amount + q.amount, st.supply.symbol⟩ } ∧
    (∀ sc k, ¬ (sc = q.symbol.name ∧ k = q.symbol.name) →
      s2.find_stats sc k = s.find_stats sc k) ∧
    (∀ a, s.find_account st.issuer q.symbol.name = some a → a.balance.symbol = q.symbol) ∧
    s2.find_account st.issuer q.symbol.name =
      some ⟨⟨balance_of s st.issuer q.symbol.name + q.amount, q.symbol⟩⟩ ∧
    (∀ o k, ¬ (o = st.issuer ∧ k = q.symbol.name) →
      s2.find_account o k = s.find_account o k) := by
  obtain ⟨hu, hus, hr, hrs⟩ := hwf
  have hv := is_valid_in_range hval
  obtain ⟨hsr, hmr⟩ := hrs _ (find_some_mem currency_stats.primary_key hf)
  obtain ⟨_, hse, hsr2⟩ := asset_add_exact hsup hsr hv
  have hpk : st.supply.symbol.name = q.symbol.name := find_some_pk currency_stats.primary_key hf
  have hpk2 : currency_stats.primary_key { st with supply := supply } = q.symbol.name := by
    rw [hse]; exact hpk
  obtain ⟨hst2, hsy, hiss, hoth⟩ := add_balance_find hadd hr hv
  obtain ⟨hu2, hr2⟩ := add_balance_wf hadd hu hr hv
  simp only at hst2
  refine ⟨⟨hu2, ?_, hr2, ?_⟩, ?_, ?_, hsy, hiss, hoth⟩
  · rw [hst2]
    exact unique_modify _ _ _ _ st _ hus hf hpk2
  · intro r hr1
    rw [hst2] at hr1
    rcases mem_replaceFirst _ _ _ _ hr1 with h1 | h1
    · rw [h1]; exact ⟨hsr2, hmr⟩
    · exact hrs r h1
  · unfold State.find_stats
    rw [hst2, find_modify_self _ _ _ _ st _ hf hpk2, hse]
  · intro sc k hne
    unfold State.find_stats
    rw [hst2]
    exact find_modify_other _ _ _ _ _ _ _ hpk2 hne

/-- What a successful `issue` does to the looked-up rows of a well-formed state. -/
theorem issue_effect {env : Env} {to_ : Nat} {q : asset} {memo : List Nat} {s s3 : State}
    (hwf : s.WF) (h : issue env to_ q memo s = .ok s3) :
    ∃ st, s.find_stats q.symbol.name q.symbol.name = some st ∧
      s3.find_stats q.symbol.name q.symbol.name =
        some { st with supply := ⟨st.supply.amount + q.amount, st.supply.symbol⟩ } ∧
      (∀ sc k, ¬ (sc = q.symbol.name ∧ k = q.symbol.name) →
        s3.find_stats sc k = s.find_stats sc k) ∧
      (to_ = st.issuer →
        s3.find_account st.issuer q.symbol.name =
          some ⟨⟨balance_of s st.issuer q.symbol.name + q.amount, q.symbol⟩⟩ ∧
        (∀ o k, ¬ (o = st.issuer ∧ k = q.symbol.name) →
          s3.find_account o k = s.find_account o k)) ∧
      (to_ ≠ st.issuer →
        s3.find_account to_ q.symbol.name =
          some ⟨⟨balance_of s to_ q.symbol.name + q.amount, q.symbol⟩⟩ ∧
        s3.find_account st.issuer q.symbol.name =
          (if balance_of s st.issuer q.symbol.name = 0 then none
           else s.find_account st.issuer q.symbol.name) ∧
        (∀ o k, ¬ ((o = st.issuer ∨ o = to_) ∧ k = q.symbol.name) →
          s3.find_account o k = s.find_account o k)) := by
  obtain ⟨_, _, st, hf, _, hval, hpos, hsym, hcap, supply, s2, hsup, hadd, hcase⟩ :=
    issue_ok h
  obtain ⟨hwf2, hfs2, hfso2, hsy, hiss, hoth⟩ := issue_mint_effect hwf hf hval hsup hadd
  refine ⟨st, hf, ?_⟩
  rcases hcase with ⟨hne, ht⟩ | ⟨heq, he⟩
  · obtain ⟨hst, _, ⟨a2, hfa2, hle, _, hfrom⟩, _, hto, hoth3⟩ := transfer_effect hwf2 ht
    have hfs : ∀ sc k, s3.find_stats sc k = s2.find_stats sc k := find_stats_congr hst
    refine ⟨by rw [hfs]; exact hfs2, fun sc k hn => by rw [hfs]; exact hfso2 sc k hn,
      fun hh => absurd hh hne, fun _ => ⟨?_, ?_, ?_⟩⟩
    · rw [hto, balance_of_congr (hoth to_ _ (fun hh => hne hh.1))]
    · have ha2 : a2 = ⟨⟨balance_of s st.issuer q.symbol.name + q.amount, q.symbol⟩⟩ := by
        rw [hiss] at hfa2
        exact (Option.some.inj hfa2).symm
      have hbal : balance_of s st.issuer q.symbol.name =
          match s.find_account st.issuer q.symbol.name with
          | some a => a.balance.amount
          | none => 0 := rfl
      rw [hfrom, ha2]
      simp only
      generalize balance_of s st.issuer q.symbol.name = b at hbal ⊢
      by_cases hz : b = 0
      · rw [if_pos (by omega), if_pos hz]
      · rw [if_neg (by omega), if_neg hz]
        rcases hfi : s.find_account st.issuer q.symbol.name with _ | a
        · rw [hfi] at hbal; exact absurd hbal hz
        · have hs := hsy a hfi
          rw [hfi] at hbal
          simp only at hbal
          obtain ⟨⟨am, sy⟩⟩ := a
          simp only at hs hbal
          rw [hs, hbal]
          congr 3
          omega
    · intro o k hn
      rw [hoth3 o k hn, hoth o k (fun hh => hn ⟨Or.inl hh.1, hh.2⟩)]
  · subst he
    refine ⟨hfs2, hfso2, fun _ => ⟨hiss, hoth⟩, fun hh => absurd heq hh⟩



/-- C8 as written in the spec does not hold: after `create(A, 1000.0000 SYS)` and `regairdrop(A)` the
issuer `A` holds the zero row `0.0000 SYS`; `issue(B, 5.0000 SYS)` with `B ≠ A` succeeds and
afterwards `A` has no row at all, so the issuer's record is not the same as before the call.
The same happens for the token `4,RB` on a deployment whose default asset symbol is
`4,RB`. -/
theorem issue_issuer_record_counterexample :
    (Reachable demo_cfg demo_sys_provisioned ∧
      demo_sys_provisioned.find_stats SYS_SYMBOL.name SYS_SYMBOL.name =
        some ⟨SYS 0, SYS 10000000, 10⟩ ∧
      demo_sys_provisioned.find_account 10 SYS_SYMBOL.name = some ⟨SYS 0⟩ ∧
      issue demo_env 11 (SYS 50000) [] demo_sys_provisioned = .ok demo_sys_issued ∧
      demo_sys_issued.find_account 10 SYS_SYMBOL.name = none ∧
      demo_sys_issued.find_account 10 SYS_SYMBOL.name ≠
        demo_sys_provisioned.find_account 10 SYS_SYMBOL.name) ∧
    (Reachable demo_cfg_rb demo_rb_provisioned ∧
      demo_rb_provisioned.find_stats rankblock_SYMBOL.name rankblock_SYMBOL.name =
        some ⟨RB 0, RB 10000000000, 10⟩ ∧
      demo_rb_provisioned.find_account 10 rankblock_SYMBOL.name = some ⟨RB 0⟩ ∧
      issue demo_env 11 (RB 5000000) [] demo_rb_provisioned = .ok demo_rb_issued ∧
      demo_rb_issued.find_account 10 rankblock_SYMBOL.name = none ∧
      demo_rb_issued.find_account 10 rankblock_SYMBOL.name ≠
        demo_rb_provisioned.find_account 10 rankblock_SYMBOL.name) :=
  ⟨⟨Reachable.call _ _ (Reachable.call _ _ Reachable.init), by decide, by decide, by decide,
      by decide, by decide⟩,
    ⟨Reachable.call _ _ (Reachable.call _ _ Reachable.init), by decide, by decide, by decide,
      by decide, by decide⟩⟩

/-- C8 as amended (effect of `issue`). For every successful `issue(to, quantity, memo)` on a
well-formed state, with `st` the `stats` row of the symbol and `I = st.issuer`: the supply
grows by exactly `quantity.amount`, issuer and maximum supply stay. If `to = I`, the row of
`I` holds its old amount plus `quantity.amount` (a new row holding `quantity` when there was
none). If `to ≠ I`, the row of `to` holds its old amount plus `quantity.amount`, the
balance of `I` is what it was, and the row of `I` is as before when its balance was not
zero and absent otherwise (no row stays no row, a zero row is erased). -/
theorem issue_effect_on_supply_and_balances (env : Env) (to_ : Nat) (q : asset)
    (memo : List Nat) (s s3 : State) (hwf : s.WF) (h : issue env to_ q memo s = .ok s3) :
    ∃ st, s.find_stats q.symbol.name q.symbol.name = some st ∧
      s3.find_stats q.symbol.name q.symbol.name =
        some ⟨⟨st.supply.amount + q.amount, st.supply.symbol⟩, st.max_supply, st.issuer⟩ ∧
      (to_ = st.issuer →
        s3.find_account st.issuer q.symbol.name =
          some ⟨⟨balance_of s st.issuer q.symbol.name + q.amount, q.symbol⟩⟩ ∧
        balance_of s3 st.issuer q.symbol.name =
          balance_of s st.issuer q.symbol.name + q.amount ∧
        (s.find_account st.issuer q.symbol.name = none →
          s3.find_account st.issuer q.symbol.name = some ⟨q⟩)) ∧
      (to_ ≠ st.issuer →
        s3.find_account to_ q.symbol.name =
          some ⟨⟨balance_of s to_ q.symbol.name + q.amount, q.symbol⟩⟩ ∧
        balance_of s3 to_ q.symbol.name = balance_of s to_ q.symbol.name + q.amount ∧
        balance_of s3 st.issuer q.symbol.name = balance_of s st.issuer q.symbol.name ∧
        s3.find_account st.issuer q.symbol.name =
          (if balance_of s st.issuer q.symbol.name = 0 then none
           else s.find_account st.issuer q.symbol.name)) := by
  obtain ⟨st, hf, hfs, _, hself, hother⟩ := issue_effect hwf h
  refine ⟨st, hf, hfs, ?_, ?_⟩
  · intro heq
    obtain ⟨h1, _⟩ := hself heq
    refine ⟨h1, ?_, ?_⟩
    · conv_lhs => unfold balance_of
      rw [h1]
    · intro hnone
      rw [h1]
      unfold balance_of
      rw [hnone]
      simp
  · intro hne
    obtain ⟨h1, h2, _⟩ := hother hne
    refine ⟨h1, ?_, ?_, h2⟩
    · conv_lhs => unfold balance_of
      rw [h1]
    · conv_lhs => unfold balance_of
      rw [h2]
      by_cases hz : balance_of s st.issuer q.symbol.name = 0
      · rw [if_pos hz, hz]
      · rw [if_neg hz]; rfl

theorem issue_effect_on_supply_and_balances_witness :
    demo_created.WF ∧
    issue demo_env 10 (RB 5000000) [] demo_created = .ok demo_issued ∧
    demo_created.find_stats 16978 16978 = some ⟨RB 0, RB 10000000000, 10⟩ ∧
    demo_issued.find_stats 16978 16978 = some ⟨RB 5000000, RB 10000000000, 10⟩ ∧
    demo_issued.find_account 10 16978 = some ⟨RB 5000000⟩ ∧
    ∃ st, demo_created.find_stats (RB 5000000).symbol.name (RB 5000000).symbol.name = some st ∧
      demo_issued.find_stats (RB 5000000).symbol.name (RB 5000000).symbol.name =
        some ⟨⟨st.supply.amount + (RB 5000000).amount, st.supply.symbol⟩, st.max_supply,
          st.issuer⟩ :=
  ⟨by decide, by decide, by decide, by decide, by decide,
    (issue_effect_on_supply_and_balances demo_env 10 (RB 5000000) [] demo_created demo_issued
      (by decide) (by decide)).imp (fun _ hst => ⟨hst.1, hst.2.1⟩)⟩



theorem sub_balance_succeeds {owner : Nat} {value : asset} {s : State} {a : account}
    (hf : s.find_account owner value.symbol.name = some a)
    (hle : value.amount ≤ a.balance.amount)
    (hsym : a.balance.amount ≠ value.amount → value.symbol = a.balance.symbol)
    (hrange : a.balance.amount - value.amount ≤ max_amount) :
    ∃ s1, sub_balance owner value s = .ok s1 := by
  unfold sub_balance
  rw [hf]
  dsimp only
  rw [if_neg (by omega)]
  by_cases he : a.balance.amount = value.amount
  · rw [if_pos he]; exact ⟨_, rfl⟩
  · rw [if_neg he]
    have hsub : a.balance.sub value = .ok ⟨a.balance.amount - value.amount, a.balance.symbol⟩ := by
      unfold asset.sub
      dsimp only
      have hw : wrap64 (a.balance.amount - value.amount) = a.balance.amount - value.amount := by
        have := max_amount_val
        apply wrap64_eq <;> norm_num <;> omega
      rw [hw, if_neg (not_not.2 (hsym he)), if_neg (by have := max_amount_val; omega),
        if_neg (by omega)]
    rw [hsub]
    exact ⟨_, rfl⟩

theorem add_balance_succeeds {owner payer : Nat} {value : asset} {s : State}
    (hv : value.in_range) (hr : ∀ r ∈ s.accounts, r.2.balance.in_range)
    (h : ∀ a, s.find_account owner value.symbol.name = some a →
      value.symbol = a.balance.symbol ∧ -max_amount ≤ a.balance.amount + value.amount ∧
        a.balance.amount + value.amount ≤ max_amount) :
    ∃ s1, add_balance owner value payer s = .ok s1 := by
  unfold add_balance
  rcases hf : s.find_account owner value.symbol.name with _ | a
  · dsimp only
    have : Table.emplace account.primary_key s.accounts owner ⟨value⟩ =
        .ok (s.accounts ++ [(owner, ⟨value⟩)]) := by
      rw [emplace_ok]; exact ⟨hf, rfl⟩
    rw [this]
    exact ⟨_, rfl⟩
  · dsimp only
    obtain ⟨h1, h2, h3⟩ := h a hf
    rw [asset_add_succeeds h1 (hr _ (find_some_mem account.primary_key hf)) hv h2 h3]
    exact ⟨_, rfl⟩

/-! ## Round trip -/

/-- C10 (transfer round trip). On a well-formed state in which `B` holds no negative
balance, let `transfer(A, B, q, m)` succeed. Then `transfer(B, A, q, m2)`, called with the
authority of `B`, `A` an existing account and a memo of at most 256 bytes, succeeds and
gives every account the balance it had before the first transfer; every row other than
those of `A` and `B` under the symbol is as before; if `B` had no row before it has none
afterwards; the `stats` table, hence the current supply, is the same in all three
states. -/
theorem transfer_round_trip (env env2 : Env) (A B : Nat) (q : asset) (m m2 : List Nat)
    (s s1 : State) (hwf : s.WF) (hnn : 0 ≤ balance_of s B q.symbol.name)
    (h1 : transfer env A B q m s = .ok s1)
    (hauth : env2.has_auth B = true) (hacc : env2.is_account A = true)
    (hm2 : m2.length ≤ 256) :
    ∃ s2, transfer env2 B A q m2 s1 = .ok s2 ∧
      (∀ o k, balance_of s2 o k = balance_of s o k) ∧
      (∀ o k, ¬ ((o = A ∨ o = B) ∧ k = q.symbol.name) →
        s2.find_account o k = s.find_account o k) ∧
      (s.find_account B q.symbol.name = none → s2.find_account B q.symbol.name = none) ∧
      s1.stats = s.stats ∧ s2.stats = s.stats := by
  obtain ⟨hne, _, _, st, hf, hval, hpos, hsym, _, _⟩ := transfer_ok h1
  have hv := is_valid_in_range hval
  obtain ⟨hst1, hwf1, ⟨a, hfa, hle, hsy, hfromA1⟩, _, hB1, hoth1⟩ := transfer_effect hwf h1
  have har : a.balance.in_range := hwf.2.2.1 _ (find_some_mem account.primary_key hfa)
  have hf1 : s1.find_stats q.symbol.name q.symbol.name = some st := by
    rw [find_stats_congr hst1]; exact hf
  -- the second transfer goes through
  have hrun := transfer_eq env2 B A m2
    (fun hh => hne hh.symm) hauth hacc hf1 hval hpos hsym hm2
  have hB1r : (⟨⟨balance_of s B q.symbol.name + q.amount, q.symbol⟩⟩ : account).balance.in_range :=
    hwf1.2.2.1 _ (find_some_mem account.primary_key hB1)
  obtain ⟨t, hsub2⟩ : ∃ t, sub_balance B q s1 = .ok t := by
    apply sub_balance_succeeds hB1
    · simp only; omega
    · intro _; rfl
    · simp only
      have := hB1r.2
      simp only at this
      omega
  obtain ⟨_, _, hotht⟩ := sub_balance_find hsub2 hwf1.1 hwf1.2.2.1 hv
  obtain ⟨_, hrt⟩ := sub_balance_wf hsub2 hwf1.1 hwf1.2.2.1 hv
  have hAt : t.find_account A q.symbol.name =
      if a.balance.amount = q.amount then none
      else some ⟨⟨a.balance.amount - q.amount, a.balance.symbol⟩⟩ := by
    rw [hotht A _ (fun hh => hne hh.1), hfromA1]
  obtain ⟨s2, hadd2⟩ : ∃ s2, add_balance A q B t = .ok s2 := by
    apply add_balance_succeeds hv hrt
    intro a1 ha1
    rw [hAt] at ha1
    by_cases he : a.balance.amount = q.amount
    · rw [if_pos he] at ha1; cases ha1
    · rw [if_neg he] at ha1
      cases ha1
      simp only
      have := har.1
      have := har.2
      exact ⟨hsy he, by omega, by omega⟩
  have h2 : transfer env2 B A q m2 s1 = .ok s2 := by
    rw [hrun, hsub2]
    exact hadd2
  -- its effect
  obtain ⟨hst2, _, ⟨b, hfb, _, _, hfromB2⟩, _, hA2, hoth2⟩ := transfer_effect hwf1 h2
  have hb : b = ⟨⟨balance_of s B q.symbol.name + q.amount, q.symbol⟩⟩ := by
    rw [hB1] at hfb
    exact (Option.some.inj hfb).symm
  rw [hb] at hfromB2
  simp only at hfromB2
  have hbalA1 : balance_of s1 A q.symbol.name = a.balance.amount - q.amount := by
    unfold balance_of
    rw [hfromA1]
    by_cases he : a.balance.amount = q.amount
    · rw [if_pos he]; simp only; omega
    · rw [if_neg he]
  have hbalA : balance_of s A q.symbol.name = a.balance.amount := by
    unfold balance_of; rw [hfa]
  have hbalA2 : balance_of s2 A q.symbol.name = balance_of s A q.symbol.name := by
    conv_lhs => unfold balance_of
    rw [hA2, hbalA]
    simp only
    rw [hbalA1]
    ring
  have hbalB2 : balance_of s2 B q.symbol.name = balance_of s B q.symbol.name := by
    conv_lhs => unfold balance_of
    rw [hfromB2]
    by_cases hz : balance_of s B q.symbol.name + q.amount = q.amount
    · rw [if_pos hz]; simp only; omega
    · rw [if_neg hz]; simp only; ring
  have hrest : ∀ o k, ¬ ((o = A ∨ o = B) ∧ k = q.symbol.name) →
      s2.find_account o k = s.find_account o k := by
    intro o k hn
    rw [hoth2 o k (fun hh => hn ⟨hh.1.symm, hh.2⟩), hoth1 o k hn]
  refine ⟨s2, h2, ?_, hrest, ?_, hst1, hst2.trans hst1⟩
  · intro o k
    by_cases hk : (o = A ∨ o = B) ∧ k = q.symbol.name
    · obtain ⟨ho, hk⟩ := hk
      rw [hk]
      rcases ho with ho | ho
      · rw [ho]; exact hbalA2
      · rw [ho]; exact hbalB2
    · exact balance_of_congr (hrest o k hk)
  · intro hnone
    rw [hfromB2]
    have : balance_of s B q.symbol.name = 0 := by
      unfold balance_of; rw [hnone]
    rw [if_pos (by omega)]

theorem transfer_round_trip_witness :
    demo_issued.WF ∧
    transfer demo_env 10 11 (RB 2000000) [] demo_issued = .ok demo_moved ∧
    demo_moved.accounts = [(10, ⟨RB 3000000⟩), (11, ⟨RB 2000000⟩)] ∧
    transfer demo_env 11 10 (RB 2000000) [] demo_moved = .ok demo_back ∧
    demo_back.accounts = [(10, ⟨RB 5000000⟩)] ∧
    demo_back.find_account 11 16978 = none ∧
    demo_back.stats = demo_issued.stats ∧
    ∃ s2, transfer demo_env 11 10 (RB 2000000) [] demo_moved = .ok s2 ∧
      ∀ o k, balance_of s2 o k = balance_of demo_issued o k :=
  ⟨by decide, by decide, by decide, by decide, by decide, by decide, by decide,
    (transfer_round_trip demo_env demo_env 10 11 (RB 2000000) [] [] demo_issued demo_moved
      (by decide) (by decide) (by decide) (by decide) (by decide) (by decide)).imp
      (fun _ hs => ⟨hs.1, hs.2.1⟩)⟩


/-- Every reachable state is well formed and holds no negative balance, so the theorems
stated for well-formed states apply to it. -/
theorem reachable_wf {cfg : Config} {s : State} (h : Reachable cfg s) :
    s.WF ∧ ∀ o k, 0 ≤ balance_of s o k := by
  have hi := reachable_inv h
  refine ⟨⟨hi.unique_accounts, hi.unique_stats, balances_in_range hi.balances_ok, ?_⟩, ?_⟩
  · intro r hr
    exact stats_in_range (hi.stats_ok r hr)
  · intro o k
    unfold balance_of
    rcases hf : s.find_account o k with _ | a
    · exact le_refl _
    · exact (hi.balances_ok _ (find_some_mem account.primary_key hf)).1



/-! ## Rejected calls -/

theorem step_of_fail {cfg : Config} {env : Env} {a : Call} {s : State}
    (h : ∃ e, run cfg env a s = .error e) : step cfg env a s = s := by
  obtain ⟨e, he⟩ := h
  exact step_of_error he

/-- C12 (self-transfer). For every state, account `A`, quantity and memo,
`transfer(A, A, quantity, memo)` aborts with `e.10` (SelfTransfer), whatever the balance of
`A`, whether or not the token exists and whether or not `A` authorised the call: the test
`from != to` is the first statement of `transfer`. The state after the call is the state
before it. -/
theorem self_transfer_rejected (cfg : Config) (env : Env) (A : Nat) (q : asset)
    (memo : List Nat) (s : State) :
    transfer env A A q memo s = .error .e_10 ∧
    step cfg env (.transfer A A q memo) s = s := by
  have h : transfer env A A q memo s = .error .e_10 := by
    unfold transfer
    rw [if_pos rfl]
  exact ⟨h, step_of_error (a := .transfer A A q memo) h⟩

/-- C13 (no negative balances). In every state reachable from the empty ledger by any
sequence of `create`, `issue`, `transfer` and `regairdrop` calls, every row of the
`accounts` table holds an amount `>= 0`; so does every looked-up balance. -/
theorem no_negative_balances (cfg : Config) (s : State) (h : Reachable cfg s) :
    (∀ r ∈ s.accounts, 0 ≤ r.2.balance.amount) ∧ ∀ o k, 0 ≤ balance_of s o k :=
  ⟨fun r hr => ((reachable_inv h).balances_ok r hr).1, (reachable_wf h).2⟩

theorem no_negative_balances_witness :
    Reachable demo_cfg demo_moved ∧
    demo_moved.accounts = [(10, ⟨RB 3000000⟩), (11, ⟨RB 2000000⟩)] ∧
    ∀ r ∈ demo_moved.accounts, 0 ≤ r.2.balance.amount :=
  ⟨Reachable.call _ _ (Reachable.call _ _ (Reachable.call _ _ Reachable.init)), by decide,
    (no_negative_balances demo_cfg demo_moved
      (Reachable.call _ _ (Reachable.call _ _ (Reachable.call _ _ Reachable.init)))).1⟩

theorem transfer_fails_of_nonpos (env : Env) (from_ to_ : Nat) (q : asset) (memo : List Nat)
    (s : State) (hq : q.amount ≤ 0) : ∃ e, transfer env from_ to_ q memo s = .error e := by
  rcases hc : transfer env from_ to_ q memo s with e | s2
  · exact ⟨e, rfl⟩
  · obtain ⟨_, _, _, _, _, _, hpos, _⟩ := transfer_ok hc
    omega

theorem issue_fails_of_nonpos (env : Env) (to_ : Nat) (q : asset) (memo : List Nat)
    (s : State) (hq : q.amount ≤ 0) : ∃ e, issue env to_ q memo s = .error e := by
  rcases hc : issue env to_ q memo s with e | s2
  · exact ⟨e, rfl⟩
  · obtain ⟨_, _, _, _, _, _, hpos, _⟩ := issue_ok hc
    omega

/-- C14 (non-positive quantities). For every state, a `transfer` and an `issue` whose
quantity has an amount `<= 0` abort, and the state after the call is the state before it.
When the checks that come earlier in the source pass, the abort of `transfer` is `e.12`
(NonPositiveAmount) for a valid quantity and `e.6` (InvalidAmount) for an invalid one, and
the abort of `issue` is `e.7` (NonPositiveAmount), respectively `e.6`. -/
theorem non_positive_quantity_rejected (cfg : Config) (env : Env) (from_ to_ : Nat)
    (q : asset) (memo : List Nat) (s : State) (hq : q.amount ≤ 0) :
    ((∃ e, transfer env from_ to_ q memo s = .error e) ∧
      step cfg env (.transfer from_ to_ q memo) s = s ∧
      (from_ ≠ to_ → env.has_auth from_ = true → env.is_account to_ = true →
        (∃ st, s.find_stats q.symbol.name q.symbol.name = some st) →
        transfer env from_ to_ q memo s = .error (if q.is_valid = true then .e_12 else .e_6))) ∧
    ((∃ e, issue env to_ q memo s = .error e) ∧
      step cfg env (.issue to_ q memo) s = s ∧
      (q.symbol.is_valid = true → memo.length ≤ 256 →
        (∃ st, s.find_stats q.symbol.name q.symbol.name = some st ∧
          env.has_auth st.issuer = true) →
        issue env to_ q memo s = .error (if q.is_valid = true then .e_7 else .e_6))) := by
  have ht := transfer_fails_of_nonpos env from_ to_ q memo s hq
  have hi := issue_fails_of_nonpos env to_ q memo s hq
  refine ⟨⟨ht, step_of_fail (a := .transfer from_ to_ q memo) ht, ?_⟩,
    ⟨hi, step_of_fail (a := .issue to_ q memo) hi, ?_⟩⟩
  · rintro h1 h2 h3 ⟨st, hf⟩
    unfold transfer
    dsimp only
    rw [if_neg h1, if_neg (not_not.2 h2), if_neg (not_not.2 h3), hf]
    dsimp only
    by_cases h4 : q.is_valid = true
    · rw [if_neg (not_not.2 h4), if_pos (by omega), if_pos h4]
    · rw [if_pos h4, if_neg h4]
  · rintro h1 h2 ⟨st, hf, h3⟩
    unfold issue
    dsimp only
    rw [if_neg (not_not.2 h1), if_neg (not_not.2 h2), hf]
    dsimp only
    rw [if_neg (not_not.2 h3)]
    by_cases h4 : q.is_valid = true
    · rw [if_neg (not_not.2 h4), if_pos (by omega), if_pos h4]
    · rw [if_pos h4, if_neg h4]

theorem non_positive_quantity_rejected_witness :
    (RB 0).amount ≤ 0 ∧
    transfer demo_env 10 11 (RB 0) [] demo_issued = .error .e_12 ∧
    issue demo_env 10 (RB 0) [] demo_issued = .error .e_7 ∧
    transfer demo_env 10 11 (RB (-5)) [] demo_issued = .error .e_12 ∧
    issue demo_env 10 (RB (-4611686018427387904)) [] demo_issued = .error .e_6 ∧
    step demo_cfg demo_env (.transfer 10 11 (RB 0) []) demo_issued = demo_issued ∧
    step demo_cfg demo_env (.issue 10 (RB 0) []) demo_issued = demo_issued :=
  ⟨by decide, by decide, by decide, by decide, by decide,
    (non_positive_quantity_rejected demo_cfg demo_env 10 11 (RB 0) [] demo_issued
      (by decide)).1.2.1,
    (non_positive_quantity_rejected demo_cfg demo_env 10 11 (RB 0) [] demo_issued
      (by decide)).2.2.1⟩



/-! ## Token creation and the frame of the stats table -/

/-- C15 (effect of create). For every state without a `stats` row for the symbol name of
`maximum_supply`, a `create(issuer, maximum_supply)` authorised by the contract account, with
a valid `maximum_supply` (valid symbol, amount in range), succeeds exactly when
`maximum_supply.amount > 0` and otherwise aborts with `e.3` (NonPositiveMax). On success the
new row holds the issuer, `maximum_supply` as ceiling and a supply of amount `0` with the
symbol of `maximum_supply`; every other lookup in the `stats` table and the whole `accounts`
table are as before. -/
theorem create_effect (cfg : Config) (env : Env) (issuer : Nat) (m : asset) (s : State)
    (hf : s.find_stats m.symbol.name m.symbol.name = none)
    (hauth : env.has_auth cfg.self = true) (hval : m.is_valid = true) :
    ((∃ s1, create cfg env issuer m s = .ok s1) ↔ 0 < m.amount) ∧
    (¬ 0 < m.amount → create cfg env issuer m s = .error .e_3) ∧
    (∀ s1, create cfg env issuer m s = .ok s1 →
      s1.find_stats m.symbol.name m.symbol.name = some ⟨⟨0, m.symbol⟩, m, issuer⟩ ∧
      (∀ sc k, ¬ (sc = m.symbol.name ∧ k = m.symbol.name) →
        s1.find_stats sc k = s.find_stats sc k) ∧
      s1.accounts = s.accounts ∧
      s1.stats = s.stats ++ [(m.symbol.name, ⟨⟨0, m.symbol⟩, m, issuer⟩)]) := by
  have hsv : m.symbol.is_valid = true := by
    unfold asset.is_valid at hval
    rw [Bool.and_eq_true] at hval
    exact hval.2
  have hrun : create cfg env issuer m s =
      if ¬ (m.amount > 0) then .error .e_3
      else .ok { s with stats := s.stats ++ [(m.symbol.name, ⟨⟨0, m.symbol⟩, m, issuer⟩)] } := by
    unfold create
    dsimp only
    rw [if_neg (not_not.2 hauth), if_neg (not_not.2 hsv), if_neg (not_not.2 hval)]
    by_cases hp : m.amount > 0
    · rw [if_neg (not_not.2 hp), if_neg (not_not.2 hp), hf]
      dsimp only
      have he : Table.emplace currency_stats.primary_key s.stats m.symbol.name
          ⟨⟨0, m.symbol⟩, m, issuer⟩ =
          .ok (s.stats ++ [(m.symbol.name, ⟨⟨0, m.symbol⟩, m, issuer⟩)]) := by
        rw [emplace_ok]; exact ⟨hf, rfl⟩
      rw [he]
    · rw [if_pos hp, if_pos hp]
  refine ⟨⟨?_, ?_⟩, ?_, ?_⟩
  · rintro ⟨s1, h1⟩
    exact (create_ok h1).2.2.2.1
  · intro hp
    rw [hrun, if_neg (not_not.2 hp)]
    exact ⟨_, rfl⟩
  · intro hp
    rw [hrun, if_pos hp]
  · intro s1 h1
    have hs1 := (create_ok h1).2.2.2.2.2
    subst hs1
    refine ⟨?_, ?_, rfl, rfl⟩
    · unfold State.find_stats at hf ⊢
      simp only
      rw [find_append, hf]
      simp [currency_stats.primary_key]
    · intro sc k hne
      unfold State.find_stats
      simp only
      rw [find_append]
      rcases hx : Table.find currency_stats.primary_key s.stats sc k with _ | x
      · have : ¬ (m.symbol.name = sc ∧
            currency_stats.primary_key ⟨⟨0, m.symbol⟩, m, issuer⟩ = k) := by
          intro hh; exact hne ⟨hh.1.symm, hh.2.symm⟩
        simp [this]
      · rfl

theorem create_effect_witness :
    State.empty.find_stats (RB 10000000000).symbol.name (RB 10000000000).symbol.name = none ∧
    create demo_cfg demo_env 10 (RB 10000000000) State.empty =
      .ok ⟨[(16978, ⟨RB 0, RB 10000000000, 10⟩)], []⟩ ∧
    create demo_cfg demo_env 10 (RB 0) State.empty = .error .e_3 ∧
    create demo_cfg demo_env 10 (RB (-1)) State.empty = .error .e_3 :=
  ⟨by decide, by decide,
    (create_effect demo_cfg demo_env 10 (RB 0) State.empty (by decide) (by decide)
      (by decide)).2.1 (by decide),
    by decide⟩

theorem find_stats_append_some {s : State} {sc k : Nat} {st : currency_stats}
    (row : Nat × currency_stats) (h : s.find_stats sc k = some st) :
    State.find_stats { s with stats := s.stats ++ [row] } sc k = some st := by
  unfold State.find_stats at h ⊢
  simp only
  obtain ⟨a, b⟩ := row
  rw [find_append, h]

theorem transfer_stats_eq {env : Env} {from_ to_ : Nat} {q : asset} {memo : List Nat}
    {s s1 : State} (h : transfer env from_ to_ q memo s = .ok s1) : s1.stats = s.stats := by
  obtain ⟨_, _, _, _, _, _, _, _, _, t, hsub, hadd⟩ := transfer_ok h
  exact ((add_balance_ok hadd).1).trans (sub_balance_ok hsub).choose_spec.2.2.1

/-- The only write of a successful `issue` to the `stats` table: the row found for the
symbol name of the quantity gets a new supply of the same symbol. -/
theorem issue_stats_eq {env : Env} {to_ : Nat} {q : asset} {memo : List Nat} {s s1 : State}
    (h : issue env to_ q memo s = .ok s1) :
    ∃ st0 supply, s.find_stats q.symbol.name q.symbol.name = some st0 ∧
      supply.symbol = st0.supply.symbol ∧
      s1.stats = Table.modify currency_stats.primary_key s.stats q.symbol.name q.symbol.name
        { st0 with supply := supply } := by
  obtain ⟨_, _, st0, hf, _, _, _, _, _, supply, s2, hsup, hadd, hcase⟩ := issue_ok h
  obtain ⟨_, hse, _, _⟩ := asset_add_ok hsup
  refine ⟨st0, supply, hf, by rw [hse], ?_⟩
  have hst2 : s2.stats =
      Table.modify currency_stats.primary_key s.stats q.symbol.name q.symbol.name
        { st0 with supply := supply } := (add_balance_ok hadd).1
  rcases hcase with ⟨_, ht⟩ | ⟨_, he⟩
  · rw [transfer_stats_eq ht, hst2]
  · rw [he, hst2]

theorem issue_stats_other {env : Env} {to_ : Nat} {q : asset} {memo : List Nat} {s s1 : State}
    (h : issue env to_ q memo s = .ok s1) (sc k : Nat)
    (hne : ¬ (sc = q.symbol.name ∧ k = q.symbol.name)) :
    s1.find_stats sc k = s.find_stats sc k := by
  obtain ⟨st0, supply, hf, hsy, hst⟩ := issue_stats_eq h
  have hpk : st0.supply.symbol.name = q.symbol.name :=
    find_some_pk currency_stats.primary_key hf
  unfold State.find_stats
  rw [hst]
  apply find_modify_other _ _ _ _ _ _ _ _ hne
  unfold currency_stats.primary_key
  simp only
  rw [hsy]; exact hpk

/-- The frame of one call on the `stats` table. -/
theorem run_stats_frame {cfg : Config} {env : Env} {a : Call} {s s1 : State}
    (h : run cfg env a s = .ok s1) :
    ∀ sc k st, s.find_stats sc k = some st →
      ∃ st1, s1.find_stats sc k = some st1 ∧ st1.issuer = st.issuer ∧
        st1.max_supply = st.max_supply ∧ st1.supply.symbol = st.supply.symbol := by
  intro sc k st hst
  cases a with
  | create issuer m =>
    have hs1 := (create_ok h).2.2.2.2.2
    subst hs1
    exact ⟨st, find_stats_append_some _ hst, rfl, rfl, rfl⟩
  | transfer from_ to_ q memo =>
    exact ⟨st, by rw [find_stats_congr (transfer_stats_eq h)]; exact hst, rfl, rfl, rfl⟩
  | regairdrop receiver =>
    have hs1 := (regairdrop_ok h).2.2
    subst hs1
    exact ⟨st, hst, rfl, rfl, rfl⟩
  | issue to_ q memo =>
    by_cases hk : sc = q.symbol.name ∧ k = q.symbol.name
    · obtain ⟨st0, supply, hf, hsy, hst1⟩ := issue_stats_eq h
      have hpk : st0.supply.symbol.name = q.symbol.name :=
        find_some_pk currency_stats.primary_key hf
      obtain ⟨h1, h2⟩ := hk
      subst h1 h2
      have hst0 : st0 = st := Option.some.inj (hf.symm.trans hst)
      subst hst0
      refine ⟨{ st0 with supply := supply }, ?_, rfl, rfl, hsy⟩
      unfold State.find_stats
      rw [hst1]
      apply find_modify_self _ _ _ _ st0 _ hf
      unfold currency_stats.primary_key
      simp only
      rw [hsy]; exact hpk
    · exact ⟨st, by rw [issue_stats_other h sc k hk]; exact hst, rfl, rfl, rfl⟩

/-- C16 (stats rows are immutable but for the supply). For every state and every call:
a `stats` row that exists before the call exists after it with the same issuer and the same
maximum supply (and the same supply symbol), so it differs at most in its supply; `transfer`
and `regairdrop` leave the whole `stats` table as it was, supplies included; `create`
leaves every existing row as it was; `issue` leaves every lookup other than the one for the
symbol name of its quantity as it was. -/
theorem stats_immutable (cfg : Config) (env : Env) (s : State) :
    (∀ a sc k st, s.find_stats sc k = some st →
      ∃ st1, (step cfg env a s).find_stats sc k = some st1 ∧ st1.issuer = st.issuer ∧
        st1.max_supply = st.max_supply ∧ st1.supply.symbol = st.supply.symbol ∧
        st1 = { st with supply := st1.supply }) ∧
    (∀ from_ to_ q memo, (step cfg env (.transfer from_ to_ q memo) s).stats = s.stats) ∧
    (∀ receiver, (step cfg env (.regairdrop receiver) s).stats = s.stats) ∧
    (∀ issuer m sc k st, s.find_stats sc k = some st →
      (step cfg env (.create issuer m) s).find_stats sc k = some st) ∧
    (∀ to_ q memo sc k, ¬ (sc = q.symbol.name ∧ k = q.symbol.name) →
      (step cfg env (.issue to_ q memo) s).find_stats sc k = s.find_stats sc k) := by
  refine ⟨?_, ?_, ?_, ?_, ?_⟩
  · intro a sc k st hst
    rcases hr : run cfg env a s with e | s1
    · rw [step_of_error hr]
      exact ⟨st, hst, rfl, rfl, rfl, rfl⟩
    · rw [step_of_ok hr]
      obtain ⟨st1, h1, h2, h3, h4⟩ := run_stats_frame hr sc k st hst
      refine ⟨st1, h1, h2, h3, h4, ?_⟩
      obtain ⟨sup1, max1, iss1⟩ := st1
      obtain ⟨sup, max0, iss⟩ := st
      simp only at h2 h3
      rw [h2, h3]
  · intro from_ to_ q memo
    rcases hr : run cfg env (.transfer from_ to_ q memo) s with e | s1
    · rw [step_of_error hr]
    · rw [step_of_ok hr]
      exact transfer_stats_eq hr
  · intro receiver
    rcases hr : run cfg env (.regairdrop receiver) s with e | s1
    · rw [step_of_error hr]
    · rw [step_of_ok hr]
      have hs1 := (regairdrop_ok hr).2.2
      rw [hs1]
  · intro issuer m sc k st hst
    rcases hr : run cfg env (.create issuer m) s with e | s1
    · rw [step_of_error hr]; exact hst
    · rw [step_of_ok hr]
      have hs1 := (create_ok hr).2.2.2.2.2
      rw [hs1]
      exact find_stats_append_some _ hst
  · intro to_ q memo sc k hne
    rcases hr : run cfg env (.issue to_ q memo) s with e | s1
    · rw [step_of_error hr]
    · rw [step_of_ok hr]
      exact issue_stats_other hr sc k hne

theorem stats_immutable_witness :
    (step demo_cfg demo_env (.transfer 10 11 (RB 2000000) []) demo_issued).stats =
      demo_issued.stats ∧
    (step demo_cfg demo_env (.regairdrop 12) demo_issued).stats = demo_issued.stats ∧
    demo_created.find_stats 16978 16978 = some ⟨RB 0, RB 10000000000, 10⟩ ∧
    (step demo_cfg demo_env (.issue 10 (RB 5000000) []) demo_created).find_stats 16978 16978 =
      some ⟨RB 5000000, RB 10000000000, 10⟩ ∧
    ∃ st1, (step demo_cfg demo_env (.issue 10 (RB 5000000) []) demo_created).find_stats
        16978 16978 = some st1 ∧ st1.issuer = 10 ∧ st1.max_supply = RB 10000000000 :=
  ⟨(stats_immutable demo_cfg demo_env demo_issued).2.1 10 11 (RB 2000000) [],
    (stats_immutable demo_cfg demo_env demo_issued).2.2.1 12,
    by decide, by decide,
    ((stats_immutable demo_cfg demo_env demo_created).1 (.issue 10 (RB 5000000) [])
      16978 16978 ⟨RB 0, RB 10000000000, 10⟩ (by decide)).imp
      (fun _ h => ⟨h.1, h.2.1, h.2.2.1⟩)⟩



/-! ## Provisioning -/

/-- The guard of `regairdrop`: with a row under the name of the fixed symbol, however it
got there, the call aborts with `e.16`. -/
theorem regairdrop_registered (cfg : Config) (receiver : Nat) (s : State) (a : account)
    (h : s.find_account receiver rankblock_SYMBOL.name = some a) :
    regairdrop cfg receiver s = .error .e_16 := by
  unfold regairdrop
  rw [h]

/-- The row `regairdrop` stores is the default-constructed one, under the name of
`cfg.core_symbol`. -/
theorem regairdrop_row {cfg : Config} {receiver : Nat} {s s1 : State}
    (h : regairdrop cfg receiver s = .ok s1) :
    s1.find_account receiver cfg.core_symbol.name = some ⟨⟨0, cfg.core_symbol⟩⟩ ∧
    (∀ o k, ¬ (o = receiver ∧ k = cfg.core_symbol.name) →
      s1.find_account o k = s.find_account o k) ∧
    s1.stats = s.stats := by
  obtain ⟨_, hf, hs1⟩ := regairdrop_ok h
  subst hs1
  refine ⟨?_, ?_, rfl⟩
  · unfold State.find_account at hf ⊢
    simp only
    rw [find_append, hf]
    simp [account.primary_key]
  · intro o k hne
    unfold State.find_account
    simp only
    rw [find_append]
    rcases hx : Table.find account.primary_key s.accounts o k with _ | x
    · have : ¬ (receiver = o ∧ account.primary_key ⟨⟨0, cfg.core_symbol⟩⟩ = k) := by
        intro hh; exact hne ⟨hh.1.symm, hh.2.symm⟩
      simp [this]
    · rfl

/-- A second `regairdrop` right after a successful one always aborts: with `e.16` when the
default-constructed row is stored under the name of the fixed symbol, and otherwise with
the duplicate key rejection of the host, because the guard looks under the fixed symbol and
finds nothing. -/
theorem regairdrop_again {cfg : Config} {receiver : Nat} {s s1 : State}
    (h : regairdrop cfg receiver s = .ok s1) :
    regairdrop cfg receiver s1 =
      .error (if cfg.core_symbol.name = rankblock_SYMBOL.name then .e_16
              else .duplicate_key) := by
  obtain ⟨hrow, hoth, _⟩ := regairdrop_row h
  obtain ⟨hnone, _, _⟩ := regairdrop_ok h
  by_cases hc : cfg.core_symbol.name = rankblock_SYMBOL.name
  · rw [if_pos hc]
    rw [hc] at hrow
    exact regairdrop_registered cfg receiver s1 _ hrow
  · rw [if_neg hc]
    have h1 : s1.find_account receiver rankblock_SYMBOL.name = none := by
      rw [hoth _ _ (fun hh => hc hh.2.symm)]; exact hnone
    unfold regairdrop
    rw [h1]
    dsimp only
    unfold Table.emplace
    have h2 : Table.find account.primary_key s1.accounts receiver
        (account.primary_key ⟨⟨0, cfg.core_symbol⟩⟩) = some ⟨⟨0, cfg.core_symbol⟩⟩ := hrow
    rw [h2]
    rfl

/-- C11, the code at the failing input. On the sample deployment (default asset symbol
`4,SYS`), starting from the empty ledger: `regairdrop(C)` succeeds and stores `0.0000 SYS`
for `C`; `C` still has no row under the name of the fixed symbol `4,RB`; the second
`regairdrop(C)` passes the guard of line 127 and is refused by the host as a duplicate key,
not with `e.16`. -/
theorem regairdrop_twice_evaluation :
    regairdrop demo_cfg 12 State.empty = .ok ⟨[], [(12, ⟨SYS 0⟩)]⟩ ∧
    State.find_account ⟨[], [(12, ⟨SYS 0⟩)]⟩ 12 rankblock_SYMBOL.name = none ∧
    regairdrop demo_cfg 12 ⟨[], [(12, ⟨SYS 0⟩)]⟩ = .error .duplicate_key ∧
    regairdrop demo_cfg 12 ⟨[], [(12, ⟨SYS 0⟩)]⟩ ≠ .error .e_16 :=
  ⟨by decide, by decide, by decide, by decide⟩

/-- C17, the code at the failing input. On the sample deployment, after `create` and
`issue` of the token `4,RB`: `regairdrop(C)` succeeds; the row it stores for `C` is
`0.0000 SYS`, under the name `SYS`; `C` has no row under the fixed symbol `4,RB`. The
following `transfer(A, C, 200.0000 RB)` succeeds and stores a second row for `C`, holding
`200.0000 RB`. -/
theorem regairdrop_row_evaluation :
    regairdrop demo_cfg 12 demo_issued = .ok demo_provisioned ∧
    demo_provisioned.accounts = [(10, ⟨RB 5000000⟩), (12, ⟨SYS 0⟩)] ∧
    demo_provisioned.find_account 12 rankblock_SYMBOL.name = none ∧
    demo_provisioned.find_account 12 SYS_SYMBOL.name = some ⟨SYS 0⟩ ∧
    transfer demo_env 10 12 (RB 2000000) [] demo_provisioned = .ok demo_provisioned_paid ∧
    demo_provisioned_paid.accounts =
      [(10, ⟨RB 3000000⟩), (12, ⟨SYS 0⟩), (12, ⟨RB 2000000⟩)] :=
  ⟨by decide, by decide, by decide, by decide, by decide, by decide⟩

/-- A `transfer` whose checks pass, whose debit is covered and whose credit meets a row of
the same symbol (or none) succeeds. -/
theorem transfer_succeeds {env : Env} {from_ to_ : Nat} {q : asset} {memo : List Nat}
    {s : State} {st : currency_stats} {a : account} (hwf : s.WF)
    (h1 : from_ ≠ to_) (h2 : env.has_auth from_ = true) (h3 : env.is_account to_ = true)
    (hf : s.find_stats q.symbol.name q.symbol.name = some st) (h4 : q.is_valid = true)
    (h5 : 0 < q.amount) (h6 : q.symbol = st.supply.symbol) (h7 : memo.length ≤ 256)
    (hfrom : s.find_account from_ q.symbol.name = some a)
    (hle : q.amount ≤ a.balance.amount)
    (hsym : a.balance.amount ≠ q.amount → q.symbol = a.balance.symbol)
    (hto : ∀ b, s.find_account to_ q.symbol.name = some b →
      q.symbol = b.balance.symbol ∧ b.balance.amount + q.amount ≤ max_amount) :
    ∃ s2, transfer env from_ to_ q memo s = .ok s2 := by
  have hv := is_valid_in_range h4
  obtain ⟨hu, _, hr, _⟩ := hwf
  have har : a.balance.in_range := hr _ (find_some_mem account.primary_key hfrom)
  obtain ⟨t, hsub⟩ : ∃ t, sub_balance from_ q s = .ok t := by
    apply sub_balance_succeeds hfrom hle hsym
    have := har.2
    omega
  obtain ⟨_, _, hotht⟩ := sub_balance_find hsub hu hr hv
  obtain ⟨_, hrt⟩ := sub_balance_wf hsub hu hr hv
  obtain ⟨s2, hadd⟩ : ∃ s2, add_balance to_ q from_ t = .ok s2 := by
    apply add_balance_succeeds hv hrt
    intro b hb
    rw [hotht to_ _ (fun hh => h1 hh.1.symm)] at hb
    obtain ⟨hb1, hb2⟩ := hto b hb
    have hbr : b.balance.in_range := hr _ (find_some_mem account.primary_key hb)
    have := hbr.1
    exact ⟨hb1, by omega, hb2⟩
  refine ⟨s2, ?_⟩
  rw [transfer_eq env from_ to_ memo h1 h2 h3 hf h4 h5 h6 h7, hsub]
  exact hadd

theorem regairdrop_wf {cfg : Config} {receiver : Nat} {s s1 : State} (hwf : s.WF)
    (h : regairdrop cfg receiver s = .ok s1) : s1.WF := by
  obtain ⟨_, hf, hs1⟩ := regairdrop_ok h
  subst hs1
  obtain ⟨hu, hus, hr, hrs⟩ := hwf
  refine ⟨unique_emplace _ _ _ _ hu hf, hus, ?_, hrs⟩
  intro r hr1
  simp only [List.mem_append, List.mem_singleton] at hr1
  rcases hr1 with h1 | h1
  · exact hr r h1
  · rw [h1]
    unfold asset.in_range
    rw [max_amount_val]
    simp

/-- On a deployment whose default-constructed asset carries the fixed symbol `4,RB`,
`regairdrop` does what section 4.4 of the spec describes: the row stored for the receiver is
`0.0000 RB`, and a following `transfer` of the fixed symbol to the receiver whose checks
pass and whose debit is covered succeeds and leaves the receiver with exactly the
quantity. -/
theorem regairdrop_usable_of_core_fixed {cfg : Config} {C : Nat} {s s1 : State}
    (hcore : cfg.core_symbol = rankblock_SYMBOL) (hwf : s.WF)
    (h : regairdrop cfg C s = .ok s1) :
    s1.find_account C rankblock_SYMBOL.name = some ⟨⟨0, rankblock_SYMBOL⟩⟩ ∧
    ∀ (env : Env) (A : Nat) (q : asset) (memo : List Nat) (st : currency_stats) (a : account),
      q.symbol = rankblock_SYMBOL → A ≠ C → env.has_auth A = true →
      env.is_account C = true →
      s1.find_stats q.symbol.name q.symbol.name = some st → q.is_valid = true →
      0 < q.amount → q.symbol = st.supply.symbol → memo.length ≤ 256 →
      s1.find_account A q.symbol.name = some a → q.amount ≤ a.balance.amount →
      (a.balance.amount ≠ q.amount → q.symbol = a.balance.symbol) →
      ∃ s2, transfer env A C q memo s1 = .ok s2 ∧
        s2.find_account C rankblock_SYMBOL.name = some ⟨q⟩ := by
  obtain ⟨hrow, _, _⟩ := regairdrop_row h
  rw [hcore] at hrow
  refine ⟨hrow, ?_⟩
  intro env A q memo st a hq h1 h2 h3 hf h4 h5 h6 h7 hfrom hle hsym
  have hwf1 := regairdrop_wf hwf h
  have hv := is_valid_in_range h4
  obtain ⟨s2, hs2⟩ : ∃ s2, transfer env A C q memo s1 = .ok s2 := by
    apply transfer_succeeds hwf1 h1 h2 h3 hf h4 h5 h6 h7 hfrom hle hsym
    intro b hb
    rw [hq, hrow] at hb
    cases hb
    simp only
    exact ⟨hq, by have := hv.2; omega⟩
  refine ⟨s2, hs2, ?_⟩
  obtain ⟨_, _, _, _, hto, _⟩ := transfer_effect hwf1 hs2
  rw [hq] at hto
  rw [hto]
  unfold balance_of
  rw [hrow]
  obtain ⟨am, sy⟩ := q
  simp only at hq
  simp [hq]



/-! ## Symbols of the stored rows -/

theorem precision_ne {a b : symbol_type} (h : a.precision ≠ b.precision) : a ≠ b := by
  intro hh; rw [hh] at h; exact h rfl

/-- C18 as written in the spec does not hold in its last part. On the sample deployment
(default asset symbol `4,SYS`), after `regairdrop(B)` and `create(A, 1000.00 SYS)` the token
`2,SYS` is registered and `B` holds, under its symbol name, a row that carries `4,SYS`. The
same happens on the deployment whose default asset symbol is `4,RB` with the token
`2,RB`. -/
theorem record_symbol_counterexample :
    (Reachable demo_cfg demo_sys2_created ∧
      demo_sys2_created.find_stats SYS2_SYMBOL.name SYS2_SYMBOL.name =
        some ⟨SYS2 0, SYS2 100000, 10⟩ ∧
      demo_sys2_created.find_account 11 SYS2_SYMBOL.name = some ⟨SYS 0⟩ ∧
      (SYS 0).symbol ≠ (SYS2 0).symbol) ∧
    (Reachable demo_cfg_rb demo_rb2_created ∧
      demo_rb2_created.find_stats RB2_SYMBOL.name RB2_SYMBOL.name =
        some ⟨RB2 0, RB2 100000, 10⟩ ∧
      demo_rb2_created.find_account 11 RB2_SYMBOL.name = some ⟨RB 0⟩ ∧
      (RB 0).symbol ≠ (RB2 0).symbol) :=
  ⟨⟨Reachable.call _ _ (Reachable.call _ _ Reachable.init), by decide, by decide, by decide⟩,
    ⟨Reachable.call _ _ (Reachable.call _ _ Reachable.init), by decide, by decide,
      by decide⟩⟩

/-- C18 as amended (exact symbol match). For every state with a `stats` row `st` under the
symbol name of `quantity`, when the precision of `quantity` differs from that of
`st.supply`: `transfer` and `issue` abort and the state after the call is the state before
it; when the checks that come earlier in the source pass, the abort is `e.13`, respectively
`e.8` (SymbolMismatch). Consequently, in every reachable state every `accounts` row with a
non-zero balance belongs to a registered token and carries exactly the symbol of its
supply, precision included. -/
theorem exact_symbol_match (cfg : Config) (s : State) :
    (∀ (env : Env) (from_ to_ : Nat) (q : asset) (memo : List Nat) (st : currency_stats),
      s.find_stats q.symbol.name q.symbol.name = some st →
      q.symbol.precision ≠ st.supply.symbol.precision →
      ((∃ e, transfer env from_ to_ q memo s = .error e) ∧
        step cfg env (.transfer from_ to_ q memo) s = s ∧
        (from_ ≠ to_ → env.has_auth from_ = true → env.is_account to_ = true →
          q.is_valid = true → 0 < q.amount →
          transfer env from_ to_ q memo s = .error .e_13)) ∧
      ((∃ e, issue env to_ q memo s = .error e) ∧
        step cfg env (.issue to_ q memo) s = s ∧
        (memo.length ≤ 256 → env.has_auth st.issuer = true → q.is_valid = true →
          0 < q.amount → issue env to_ q memo s = .error .e_8))) ∧
    (Reachable cfg s → ∀ r ∈ s.accounts, r.2.balance.amount ≠ 0 →
      ∃ st, s.find_stats r.2.balance.symbol.name r.2.balance.symbol.name = some st ∧
        r.2.balance.symbol = st.supply.symbol) := by
  constructor
  · intro env from_ to_ q memo st hf hprec
    have hne : q.symbol ≠ st.supply.symbol := precision_ne hprec
    have ht : ∃ e, transfer env from_ to_ q memo s = .error e := by
      rcases hc : transfer env from_ to_ q memo s with e | s2
      · exact ⟨e, rfl⟩
      · obtain ⟨_, _, _, st1, hf1, _, _, hsym, _⟩ := transfer_ok hc
        rw [hf] at hf1
        cases hf1
        exact absurd hsym hne
    have hi : ∃ e, issue env to_ q memo s = .error e := by
      rcases hc : issue env to_ q memo s with e | s2
      · exact ⟨e, rfl⟩
      · obtain ⟨_, _, st1, hf1, _, _, _, hsym, _⟩ := issue_ok hc
        rw [hf] at hf1
        cases hf1
        exact absurd hsym hne
    refine ⟨⟨ht, step_of_fail (a := .transfer from_ to_ q memo) ht, ?_⟩,
      ⟨hi, step_of_fail (a := .issue to_ q memo) hi, ?_⟩⟩
    · intro h1 h2 h3 h4 h5
      unfold transfer
      dsimp only
      rw [if_neg h1, if_neg (not_not.2 h2), if_neg (not_not.2 h3), hf]
      dsimp only
      rw [if_neg (not_not.2 h4), if_neg (not_not.2 h5), if_pos hne]
    · intro h2 h3 h4 h5
      have h1 : q.symbol.is_valid = true := by
        unfold asset.is_valid at h4
        rw [Bool.and_eq_true] at h4
        exact h4.2
      unfold issue
      dsimp only
      rw [if_neg (not_not.2 h1), if_neg (not_not.2 h2), hf]
      dsimp only
      rw [if_neg (not_not.2 h3), if_neg (not_not.2 h4), if_neg (not_not.2 h5), if_pos hne]
  · intro hreach r hr hnz
    obtain ⟨st, h1, h2⟩ := (reachable_inv hreach).coherent r hr hnz
    exact ⟨st, h1, h2.symm⟩

theorem exact_symbol_match_witness :
    demo_issued.find_stats (RB2 500).symbol.name (RB2 500).symbol.name =
      some ⟨RB 5000000, RB 10000000000, 10⟩ ∧
    (RB2 500).symbol.precision ≠ (RB 5000000).symbol.precision ∧
    transfer demo_env 10 11 (RB2 500) [] demo_issued = .error .e_13 ∧
    issue demo_env 10 (RB2 500) [] demo_issued = .error .e_8 ∧
    (∀ r ∈ demo_moved.accounts, r.2.balance.amount ≠ 0 →
      ∃ st, demo_moved.find_stats r.2.balance.symbol.name r.2.balance.symbol.name = some st ∧
        r.2.balance.symbol = st.supply.symbol) :=
  ⟨by decide, by decide,
    ((exact_symbol_match demo_cfg demo_issued).1 demo_env 10 11 (RB2 500) []
      ⟨RB 5000000, RB 10000000000, 10⟩ (by decide) (by decide)).1.2.2
      (by decide) (by decide) (by decide) (by decide) (by decide),
    ((exact_symbol_match demo_cfg demo_issued).1 demo_env 10 11 (RB2 500) []
      ⟨RB 5000000, RB 10000000000, 10⟩ (by decide) (by decide)).2.2.2
      (by decide) (by decide) (by decide) (by decide),
    (exact_symbol_match demo_cfg demo_moved).2
      (Reachable.call _ _ (Reachable.call _ _ (Reachable.call _ _ Reachable.init)))⟩



/-! ## Ranges of the stored amounts -/

/-- In a state that satisfies the invariant no row holds more than the total of its symbol
name. -/
theorem row_le_total {s : State} (hi : Inv s) (r : Nat × account) (hr : r ∈ s.accounts) :
    r.2.balance.amount ≤ total_balance s r.2.primary_key := by
  rw [total_balance_eq]
  have hnn : ∀ x ∈ s.accounts.map (weight r.2.primary_key), 0 ≤ x := by
    intro x hx
    obtain ⟨y, hy, hxy⟩ := List.mem_map.1 hx
    rw [← hxy]
    unfold weight
    split_ifs
    · exact (hi.balances_ok y hy).1
    · exact le_refl _
  have hmem : weight r.2.primary_key r ∈ s.accounts.map (weight r.2.primary_key) :=
    List.mem_map.2 ⟨r, hr, rfl⟩
  have hw : weight r.2.primary_key r = r.2.balance.amount := by
    unfold weight; simp
  rw [← hw]
  exact List.single_le_sum hnn _ hmem

/-- In a state that satisfies the invariant no row of a registered token holds more than
the supply of the token. -/
theorem row_le_supply {s : State} (hi : Inv s) (r : Nat × account) (hr : r ∈ s.accounts)
    {st : currency_stats} (hf : s.find_stats r.2.primary_key r.2.primary_key = some st) :
    r.2.balance.amount ≤ st.supply.amount := by
  have h1 := row_le_total hi r hr
  have h2 := hi.totals r.2.primary_key
  unfold supply_of at h2
  rw [hf] at h2
  simp only at h2
  omega

theorem wrap64_of_bounds {x : Int} (h1 : -2 * max_amount ≤ x) (h2 : x ≤ 2 * max_amount) :
    wrap64 x = x := by
  rw [max_amount_val] at h1 h2
  apply wrap64_eq <;> norm_num <;> omega

/-- The state in which the follow-on transfer of `issue` starts is the state after the same
`issue` to the issuer, hence reachable. -/
theorem issue_mint_reachable {cfg : Config} {env : Env} {q : asset} {memo : List Nat}
    {s s2 : State} {st : currency_stats} {supply : asset} (hreach : Reachable cfg s)
    (h1 : q.symbol.is_valid = true) (h2 : memo.length ≤ 256)
    (hf : s.find_stats q.symbol.name q.symbol.name = some st)
    (h3 : env.has_auth st.issuer = true) (h4 : q.is_valid = true) (h5 : 0 < q.amount)
    (h6 : q.symbol = st.supply.symbol)
    (h7 : q.amount ≤ wrap64 (st.max_supply.amount - st.supply.amount))
    (hsup : st.supply.add q = .ok supply)
    (hadd : add_balance st.issuer q st.issuer
      { s with stats :=
          (Table.modify currency_stats.primary_key s.stats q.symbol.name q.symbol.name
            { st with supply := supply }) } = .ok s2) :
    Reachable cfg s2 := by
  have hrun : run cfg env (.issue st.issuer q memo) s = .ok s2 := by
    show issue env st.issuer q memo s = .ok s2
    rw [issue_eq st.issuer h1 h2 hf h3 h4 h5 h6 h7, hsup]
    dsimp only
    rw [hadd]
    dsimp only
    rw [if_neg (not_not.2 rfl)]
  have := Reachable.call env (.issue st.issuer q memo) hreach
  rw [step_of_ok hrun] at this
  exact this

/-- C19 (no overflow). In every state reachable from the empty ledger: every supply is at
most its maximum supply, which is at most `2^62 - 1`; every balance is at most `2^62 - 1`
and at most the maximum supply of the token registered under its symbol name. Hence the
64 bit arithmetic of the contract is exact there: the subtraction
`max_supply.amount - supply.amount` of `issue`, the addition of a valid quantity to a
supply, the addition of a valid quantity to a stored balance, also in the state a debit of
`transfer` leaves behind; and the state in which the follow-on transfer of `issue` starts
is reachable as well. -/
theorem no_overflow (cfg : Config) (s : State) (h : Reachable cfg s) :
    (∀ r ∈ s.stats, r.2.supply.amount ≤ r.2.max_supply.amount ∧
      r.2.max_supply.amount ≤ 2 ^ 62 - 1) ∧
    (∀ r ∈ s.accounts, r.2.balance.amount ≤ 2 ^ 62 - 1 ∧
      ∀ st, s.find_stats r.2.balance.symbol.name r.2.balance.symbol.name = some st →
        r.2.balance.amount ≤ st.max_supply.amount) ∧
    (∀ r ∈ s.stats, wrap64 (r.2.max_supply.amount - r.2.supply.amount) =
      r.2.max_supply.amount - r.2.supply.amount) ∧
    (∀ r ∈ s.stats, ∀ q : asset, q.is_valid = true →
      wrap64 (r.2.supply.amount + q.amount) = r.2.supply.amount + q.amount) ∧
    (∀ r ∈ s.accounts, ∀ q : asset, q.is_valid = true →
      wrap64 (r.2.balance.amount + q.amount) = r.2.balance.amount + q.amount) ∧
    (∀ (owner : Nat) (q : asset) (t : State), q.is_valid = true → 0 < q.amount →
      sub_balance owner q s = .ok t →
      ∀ r ∈ t.accounts, wrap64 (r.2.balance.amount + q.amount) =
        r.2.balance.amount + q.amount) ∧
    (∀ (env : Env) (q : asset) (memo : List Nat) (st : currency_stats) (supply : asset)
      (s2 : State), q.symbol.is_valid = true → memo.length ≤ 256 →
      s.find_stats q.symbol.name q.symbol.name = some st → env.has_auth st.issuer = true →
      q.is_valid = true → 0 < q.amount → q.symbol = st.supply.symbol →
      q.amount ≤ wrap64 (st.max_supply.amount - st.supply.amount) →
      st.supply.add q = .ok supply →
      add_balance st.issuer q st.issuer
        { s with stats :=
            (Table.modify currency_stats.primary_key s.stats q.symbol.name q.symbol.name
              { st with supply := supply }) } = .ok s2 →
      Reachable cfg s2) := by
  have hi := reachable_inv h
  have hmax := max_amount_val
  have hpow : (2 : Int) ^ 62 - 1 = max_amount := by rw [hmax]; norm_num
  refine ⟨?_, ?_, ?_, ?_, ?_, ?_, ?_⟩
  · intro r hr
    obtain ⟨_, h2, _, h4⟩ := hi.stats_ok r hr
    exact ⟨h2, by rw [hpow]; exact h4⟩
  · intro r hr
    refine ⟨by rw [hpow]; exact (hi.balances_ok r hr).2, ?_⟩
    intro st hf
    have h1 := row_le_supply hi r hr hf
    have h2 : st.supply.amount ≤ st.max_supply.amount :=
      (hi.stats_ok _ (find_some_mem currency_stats.primary_key hf)).2.1
    omega
  · intro r hr
    obtain ⟨h1, h2, h3, h4⟩ := hi.stats_ok r hr
    apply wrap64_of_bounds <;> omega
  · intro r hr q hq
    obtain ⟨h1, h2, h3, h4⟩ := hi.stats_ok r hr
    obtain ⟨h5, h6⟩ := is_valid_in_range hq
    apply wrap64_of_bounds <;> omega
  · intro r hr q hq
    obtain ⟨h1, h2⟩ := hi.balances_ok r hr
    obtain ⟨h5, h6⟩ := is_valid_in_range hq
    apply wrap64_of_bounds <;> omega
  · intro owner q t hq hpos hsub r hr
    obtain ⟨_, hbt, _⟩ := sub_balance_keeps hsub hi.unique_accounts hi.balances_ok
      hi.coherent (is_valid_in_range hq) (le_of_lt hpos)
    obtain ⟨h1, h2⟩ := hbt r hr
    obtain ⟨h5, h6⟩ := is_valid_in_range hq
    apply wrap64_of_bounds <;> omega
  · intro env q memo st supply s2 h1 h2 hf h3 h4 h5 h6 h7 hsup hadd
    exact issue_mint_reachable h h1 h2 hf h3 h4 h5 h6 h7 hsup hadd

theorem no_overflow_witness :
    Reachable demo_cfg demo_moved ∧
    (∀ r ∈ demo_moved.stats, r.2.supply.amount ≤ r.2.max_supply.amount ∧
      r.2.max_supply.amount ≤ 2 ^ 62 - 1) ∧
    (∀ r ∈ demo_moved.accounts, ∀ q : asset, q.is_valid = true →
      wrap64 (r.2.balance.amount + q.amount) = r.2.balance.amount + q.amount) :=
  ⟨Reachable.call _ _ (Reachable.call _ _ (Reachable.call _ _ Reachable.init)),
    (no_overflow demo_cfg demo_moved
      (Reachable.call _ _ (Reachable.call _ _ (Reachable.call _ _ Reachable.init)))).1,
    (no_overflow demo_cfg demo_moved
      (Reachable.call _ _ (Reachable.call _ _ (Reachable.call _ _ Reachable.init)))).2.2.2.2.1⟩



/-! ## The follow-on transfer of issue -/

/-- A credit whose sum stays in range either succeeds or aborts on the symbol check of the
checked `+=`, the latter exactly when the row found carries another symbol. -/
theorem add_balance_cases (owner payer : Nat) (value : asset) (s : State)
    (hv : value.in_range) (hr : ∀ r ∈ s.accounts, r.2.balance.in_range)
    (hb : ∀ a, s.find_account owner value.symbol.name = some a →
      -max_amount ≤ a.balance.amount + value.amount ∧
        a.balance.amount + value.amount ≤ max_amount) :
    ((∀ a, s.find_account owner value.symbol.name = some a →
        a.balance.symbol = value.symbol) ∧
      ∃ s1, add_balance owner value payer s = .ok s1) ∨
    ((∃ a, s.find_account owner value.symbol.name = some a ∧
        a.balance.symbol ≠ value.symbol) ∧
      add_balance owner value payer s = .error .asset_symbol) := by
  rcases hf : s.find_account owner value.symbol.name with _ | a
  · left
    refine ⟨fun a ha => (by cases ha), ?_⟩
    apply add_balance_succeeds hv hr
    intro a ha
    rw [hf] at ha
    cases ha
  · by_cases hs : a.balance.symbol = value.symbol
    · left
      refine ⟨fun a1 ha1 => (by cases ha1; exact hs), ?_⟩
      apply add_balance_succeeds hv hr
      intro a1 ha1
      rw [hf] at ha1
      cases ha1
      exact ⟨hs.symm, hb a hf⟩
    · right
      refine ⟨⟨a, rfl, hs⟩, ?_⟩
      unfold add_balance
      rw [hf]
      dsimp only
      have : a.balance.add value = .error .asset_symbol := by
        unfold asset.add
        rw [if_pos (fun hh => hs hh.symm)]
      rw [this]

/-- C20 as written in the spec does not hold. On the sample deployment (default asset symbol
`4,SYS`), after `regairdrop(B)` and `create(A, 1000.00 SYS)`: the checks of
`issue(B, 50.00 SYS)` pass (token registered, issuer authorised, quantity valid, positive,
of the registered symbol and within the cap, empty memo), `B` is not the issuer and is an
existing account, yet `issue` aborts: the credit of `B` meets the zero row `0.0000 SYS` of
another precision and the checked `+=` refuses it. The same happens on the deployment whose
default asset symbol is `4,RB` with the token `2,RB`. -/
theorem issue_follow_on_counterexample :
    (Reachable demo_cfg demo_sys2_created ∧
      demo_sys2_created.find_stats (SYS2 5000).symbol.name (SYS2 5000).symbol.name =
        some ⟨SYS2 0, SYS2 100000, 10⟩ ∧
      demo_env.has_auth 10 = true ∧ (SYS2 5000).is_valid = true ∧ 0 < (SYS2 5000).amount ∧
      (SYS2 5000).symbol = (SYS2 0).symbol ∧
      (SYS2 5000).amount ≤ (SYS2 100000).amount - (SYS2 0).amount ∧
      (11 : Nat) ≠ 10 ∧ demo_env.is_account 11 = true ∧
      issue demo_env 11 (SYS2 5000) [] demo_sys2_created = .error .asset_symbol) ∧
    (Reachable demo_cfg_rb demo_rb2_created ∧
      demo_rb2_created.find_stats (RB2 5000).symbol.name (RB2 5000).symbol.name =
        some ⟨RB2 0, RB2 100000, 10⟩ ∧
      demo_env.has_auth 10 = true ∧ (RB2 5000).is_valid = true ∧ 0 < (RB2 5000).amount ∧
      (RB2 5000).symbol = (RB2 0).symbol ∧
      (RB2 5000).amount ≤ (RB2 100000).amount - (RB2 0).amount ∧
      (11 : Nat) ≠ 10 ∧ demo_env.is_account 11 = true ∧
      issue demo_env 11 (RB2 5000) [] demo_rb2_created = .error .asset_symbol) :=
  ⟨⟨Reachable.call _ _ (Reachable.call _ _ Reachable.init), by decide, by decide, by decide,
      by decide, by decide, by decide, by decide, by decide, by decide⟩,
    ⟨Reachable.call _ _ (Reachable.call _ _ Reachable.init), by decide, by decide, by decide,
      by decide, by decide, by decide, by decide, by decide, by decide⟩⟩

/-- The debit of the follow-on transfer of `issue` is always covered: in a reachable state,
once the checks of `issue` have passed and the issuer has been credited, the follow-on
transfer passes its own checks, its `sub_balance` succeeds, and what is left of the
transfer is the credit of `to`. -/
theorem issue_debit_covered {cfg : Config} {env : Env} {to_ : Nat} {q : asset}
    {memo : List Nat} {s s2 : State} {st : currency_stats} {supply : asset}
    (hreach : Reachable cfg s) (h2 : memo.length ≤ 256)
    (hf : s.find_stats q.symbol.name q.symbol.name = some st)
    (h4 : q.is_valid = true) (h5 : 0 < q.amount) (h6 : q.symbol = st.supply.symbol)
    (hne : to_ ≠ st.issuer) (hacc : env.is_account to_ = true)
    (hsup : st.supply.add q = .ok supply)
    (hadd : add_balance st.issuer q st.issuer
      { s with stats :=
          (Table.modify currency_stats.primary_key s.stats q.symbol.name q.symbol.name
            { st with supply := supply }) } = .ok s2) :
    ∃ t, sub_balance st.issuer q s2 = .ok t ∧
      transfer { env with has_auth := fun a => a == st.issuer } st.issuer to_ q memo s2 =
        add_balance to_ q st.issuer t ∧
      t.find_account to_ q.symbol.name = s.find_account to_ q.symbol.name ∧
      ∀ r ∈ t.accounts, r.2.balance.in_range := by
  have hwf := (reachable_wf hreach).1
  have hnn := (reachable_wf hreach).2 st.issuer q.symbol.name
  have hv := is_valid_in_range h4
  obtain ⟨hwf2, hfs2, _, _, hiss, hoth⟩ := issue_mint_effect hwf hf h4 hsup hadd
  have hrow : (⟨⟨balance_of s st.issuer q.symbol.name + q.amount, q.symbol⟩⟩ :
      account).balance.in_range := hwf2.2.2.1 _ (find_some_mem account.primary_key hiss)
  obtain ⟨t, hsub⟩ : ∃ t, sub_balance st.issuer q s2 = .ok t := by
    apply sub_balance_succeeds hiss
    · simp only; omega
    · intro _; rfl
    · have := hrow.2
      simp only at this ⊢
      omega
  obtain ⟨_, _, hotht⟩ := sub_balance_find hsub hwf2.1 hwf2.2.2.1 hv
  obtain ⟨_, hrt⟩ := sub_balance_wf hsub hwf2.1 hwf2.2.2.1 hv
  refine ⟨t, hsub, ?_, ?_, hrt⟩
  · have hauth : Env.has_auth { env with has_auth := fun a => a == st.issuer } st.issuer
        = true := by simp
    rw [transfer_eq { env with has_auth := fun a => a == st.issuer } st.issuer to_ memo
      (fun hh => hne hh.symm) hauth hacc hfs2 h4 h5 h6 h2, hsub]
  · rw [hotht to_ _ (fun hh => hne hh.1), hoth to_ _ (fun hh => hne hh.1)]

/-- C20 as amended (the follow-on transfer of issue). In every reachable state, for every
`issue(to, quantity, memo)` whose own checks pass (token registered, issuer authorised,
quantity valid, positive, of the registered symbol and within the remaining cap, memo of at
most 256 bytes) with `to` an existing account other than the issuer: once the issuer is
credited, the follow-on transfer passes all its checks and its debit succeeds, so `issue`
never aborts with `e.14` (NoBalance) or `e.15` (InsufficientFunds). `issue` either succeeds
or aborts on the symbol check of a credit, and it succeeds exactly when neither the issuer
nor `to` holds, under the symbol name, a row of another symbol. -/
theorem issue_follow_on_transfer (cfg : Config) (env : Env) (to_ : Nat) (q : asset)
    (memo : List Nat) (s : State) (st : currency_stats) (hreach : Reachable cfg s)
    (h2 : memo.length ≤ 256)
    (hf : s.find_stats q.symbol.name q.symbol.name = some st)
    (h3 : env.has_auth st.issuer = true) (h4 : q.is_valid = true) (h5 : 0 < q.amount)
    (h6 : q.symbol = st.supply.symbol)
    (h7 : q.amount ≤ st.max_supply.amount - st.supply.amount)
    (hne : to_ ≠ st.issuer) (hacc : env.is_account to_ = true) :
    (∀ supply s2, st.supply.add q = .ok supply →
      add_balance st.issuer q st.issuer
        { s with stats :=
            (Table.modify currency_stats.primary_key s.stats q.symbol.name q.symbol.name
              { st with supply := supply }) } = .ok s2 →
      ∃ t, sub_balance st.issuer q s2 = .ok t ∧
        transfer { env with has_auth := fun a => a == st.issuer } st.issuer to_ q memo s2 =
          add_balance to_ q st.issuer t) ∧
    issue env to_ q memo s ≠ .error .e_14 ∧
    issue env to_ q memo s ≠ .error .e_15 ∧
    ((∃ s3, issue env to_ q memo s = .ok s3) ∨
      issue env to_ q memo s = .error .asset_symbol) ∧
    ((∃ s3, issue env to_ q memo s = .ok s3) ↔
      (∀ a, s.find_account st.issuer q.symbol.name = some a → a.balance.symbol = q.symbol) ∧
      (∀ a, s.find_account to_ q.symbol.name = some a → a.balance.symbol = q.symbol)) := by
  have hi := reachable_inv hreach
  have hwf := (reachable_wf hreach).1
  have hv := is_valid_in_range h4
  have hmax := max_amount_val
  have h1 : q.symbol.is_valid = true := by
    unfold asset.is_valid at h4
    rw [Bool.and_eq_true] at h4
    exact h4.2
  obtain ⟨hs0, hs1, hs2, hs3⟩ := hi.stats_ok _ (find_some_mem currency_stats.primary_key hf)
  simp only at hs0 hs1 hs2 hs3
  obtain ⟨hsr, hmr⟩ := wf_stats_in_range hwf hf
  have h7w : q.amount ≤ wrap64 (st.max_supply.amount - st.supply.amount) := by
    rw [wrap64_sub hmr hsr]; exact h7
  have hrun := issue_eq to_ h1 h2 hf h3 h4 h5 h6 h7w
  have hsup : st.supply.add q = .ok ⟨st.supply.amount + q.amount, st.supply.symbol⟩ :=
    asset_add_succeeds h6 hsr hv (by omega) (by omega)
  -- a row of the symbol name holds at most the supply
  have hle : ∀ o a, s.find_account o q.symbol.name = some a →
      0 ≤ a.balance.amount ∧ a.balance.amount ≤ st.supply.amount := by
    intro o a ha
    have hm := find_some_mem account.primary_key ha
    have hpk : a.balance.symbol.name = q.symbol.name := find_account_pk ha
    refine ⟨(hi.balances_ok _ hm).1, ?_⟩
    apply row_le_supply hi (o, a) hm
    show s.find_stats a.balance.symbol.name a.balance.symbol.name = some st
    rw [hpk]; exact hf
  have hpart1 : ∀ supply s2, st.supply.add q = .ok supply →
      add_balance st.issuer q st.issuer
        { s with stats :=
            (Table.modify currency_stats.primary_key s.stats q.symbol.name q.symbol.name
              { st with supply := supply }) } = .ok s2 →
      ∃ t, sub_balance st.issuer q s2 = .ok t ∧
        transfer { env with has_auth := fun a => a == st.issuer } st.issuer to_ q memo s2 =
          add_balance to_ q st.issuer t := by
    intro supply s2 hsup1 hadd1
    obtain ⟨t, ht1, ht2, _⟩ := issue_debit_covered hreach h2 hf h4 h5 h6 hne hacc hsup1 hadd1
    exact ⟨t, ht1, ht2⟩
  -- the credit of the issuer
  have hcase1 := add_balance_cases st.issuer st.issuer q
    { s with stats :=
          (Table.modify currency_stats.primary_key s.stats q.symbol.name q.symbol.name
            { st with supply := ⟨st.supply.amount + q.amount, st.supply.symbol⟩ }) }
    hv hwf.2.2.1
    (fun a ha => by
      obtain ⟨ha1, ha2⟩ := hle st.issuer a ha
      constructor <;> omega)
  rcases hcase1 with ⟨hsyI, s2, hadd⟩ | ⟨⟨a, ha, hasym⟩, hadd⟩
  · obtain ⟨t, hsub, htr, hfindt, hrt⟩ :=
      issue_debit_covered hreach h2 hf h4 h5 h6 hne hacc hsup hadd
    have hissue : issue env to_ q memo s = add_balance to_ q st.issuer t := by
      rw [hrun, hsup]
      dsimp only
      rw [hadd]
      dsimp only
      rw [if_pos hne, htr]
    have hcase2 := add_balance_cases to_ st.issuer q t hv hrt
      (fun a ha => by
        rw [hfindt] at ha
        obtain ⟨ha1, ha2⟩ := hle to_ a ha
        constructor <;> omega)
    rcases hcase2 with ⟨hsyT, s3, hadd2⟩ | ⟨⟨b, hb, hbsym⟩, hadd2⟩
    · have hok : issue env to_ q memo s = .ok s3 := by rw [hissue]; exact hadd2
      refine ⟨hpart1, by rw [hok]; simp, by rw [hok]; simp, Or.inl ⟨s3, hok⟩, ?_⟩
      refine ⟨fun _ => ⟨hsyI, ?_⟩, fun _ => ⟨s3, hok⟩⟩
      intro b hb
      exact hsyT b (by rw [hfindt]; exact hb)
    · have herr : issue env to_ q memo s = .error .asset_symbol := by
        rw [hissue]; exact hadd2
      refine ⟨hpart1, by rw [herr]; simp, by rw [herr]; simp, Or.inr herr, ?_⟩
      constructor
      · rintro ⟨s3, hs3⟩
        rw [herr] at hs3
        cases hs3
      · rintro ⟨_, hT⟩
        rw [hfindt] at hb
        exact absurd (hT b hb) hbsym
  · have herr : issue env to_ q memo s = .error .asset_symbol := by
      rw [hrun, hsup]
      dsimp only
      rw [hadd]
    refine ⟨hpart1, by rw [herr]; simp, by rw [herr]; simp, Or.inr herr, ?_⟩
    constructor
    · rintro ⟨s3, hs3⟩
      rw [herr] at hs3
      cases hs3
    · rintro ⟨hI, _⟩
      exact absurd (hI a ha) hasym

theorem issue_follow_on_transfer_witness :
    Reachable demo_cfg demo_issued ∧
    demo_issued.find_stats (RB 2000000).symbol.name (RB 2000000).symbol.name =
      some ⟨RB 5000000, RB 10000000000, 10⟩ ∧
    issue demo_env 11 (RB 2000000) [] demo_issued =
      .ok ⟨[(16978, ⟨RB 7000000, RB 10000000000, 10⟩)],
        [(10, ⟨RB 5000000⟩), (11, ⟨RB 2000000⟩)]⟩ ∧
    ((∃ s3, issue demo_env 11 (RB 2000000) [] demo_issued = .ok s3) ∨
      issue demo_env 11 (RB 2000000) [] demo_issued = .error .asset_symbol) :=
  ⟨Reachable.call _ _ (Reachable.call _ _ Reachable.init), by decide, by decide,
    (issue_follow_on_transfer demo_cfg demo_env 11 (RB 2000000) [] demo_issued
      ⟨RB 5000000, RB 10000000000, 10⟩
      (Reachable.call _ _ (Reachable.call _ _ Reachable.init))
      (by decide) (by decide) (by decide) (by decide) (by decide) (by decide) (by decide)
      (by decide) (by decide)).2.2.2.1⟩



/-! ### Runs and transactions -/

theorem stmt_result (f : State → Except Error State) (s : State) :
    (Run.stmt f s).result = f s := by
  unfold Run.stmt Run.result
  rcases f s with e | s1 <;> rfl

theorem andThen_result (r : Run) (f : State → Run) (g : State → Except Error State)
    (h : ∀ t, (f t).result = g t) :
    (r.andThen f).result =
      match r.result with
      | .error e => .error e
      | .ok t => g t := by
  obtain ⟨db, ab⟩ := r
  cases ab with
  | none => simp only [Run.andThen, Run.result]; exact h db
  | some e => simp only [Run.andThen, Run.result]

/-- The outcome of `transfer` is the outcome of its run. -/
theorem transfer_run_result (env : Env) (from_ to_ : Nat) (q : asset) (memo : List Nat)
    (s : State) : (transfer_run env from_ to_ q memo s).result = transfer env from_ to_ q memo s := by
  unfold transfer_run transfer
  dsimp only
  by_cases h1 : from_ = to_
  · rw [if_pos h1, if_pos h1]; rfl
  rw [if_neg h1, if_neg h1]
  by_cases h2 : env.has_auth from_ = true
  swap
  · rw [if_pos h2, if_pos h2]; rfl
  rw [if_neg (not_not.2 h2), if_neg (not_not.2 h2)]
  by_cases h3 : env.is_account to_ = true
  swap
  · rw [if_pos h3, if_pos h3]; rfl
  rw [if_neg (not_not.2 h3), if_neg (not_not.2 h3)]
  rcases s.find_stats q.symbol.name q.symbol.name with _ | st
  · rfl
  dsimp only
  by_cases h4 : q.is_valid = true
  swap
  · rw [if_pos h4, if_pos h4]; rfl
  rw [if_neg (not_not.2 h4), if_neg (not_not.2 h4)]
  by_cases h5 : q.amount > 0
  swap
  · rw [if_pos h5, if_pos h5]; rfl
  rw [if_neg (not_not.2 h5), if_neg (not_not.2 h5)]
  by_cases h6 : q.symbol = st.supply.symbol
  swap
  · rw [if_pos h6, if_pos h6]; rfl
  rw [if_neg (not_not.2 h6), if_neg (not_not.2 h6)]
  by_cases h7 : memo.length ≤ 256
  swap
  · rw [if_pos h7, if_pos h7]; rfl
  rw [if_neg (not_not.2 h7), if_neg (not_not.2 h7)]
  rw [andThen_result _ _ (add_balance to_ q from_) (fun t => stmt_result _ t), stmt_result]

/-- The outcome of `issue` is the outcome of its run. -/
theorem issue_run_result (env : Env) (to_ : Nat) (q : asset) (memo : List Nat) (s : State) :
    (issue_run env to_ q memo s).result = issue env to_ q memo s := by
  unfold issue_run issue
  dsimp only
  by_cases h1 : q.symbol.is_valid = true
  swap
  · rw [if_pos h1, if_pos h1]; rfl
  rw [if_neg (not_not.2 h1), if_neg (not_not.2 h1)]
  by_cases h2 : memo.length ≤ 256
  swap
  · rw [if_pos h2, if_pos h2]; rfl
  rw [if_neg (not_not.2 h2), if_neg (not_not.2 h2)]
  rcases s.find_stats q.symbol.name q.symbol.name with _ | st
  · rfl
  dsimp only
  by_cases h3 : env.has_auth st.issuer = true
  swap
  · rw [if_pos h3, if_pos h3]; rfl
  rw [if_neg (not_not.2 h3), if_neg (not_not.2 h3)]
  by_cases h4 : q.is_valid = true
  swap
  · rw [if_pos h4, if_pos h4]; rfl
  rw [if_neg (not_not.2 h4), if_neg (not_not.2 h4)]
  by_cases h5 : q.amount > 0
  swap
  · rw [if_pos h5, if_pos h5]; rfl
  rw [if_neg (not_not.2 h5), if_neg (not_not.2 h5)]
  by_cases h6 : q.symbol = st.supply.symbol
  swap
  · rw [if_pos h6, if_pos h6]; rfl
  rw [if_neg (not_not.2 h6), if_neg (not_not.2 h6)]
  by_cases h7 : q.amount ≤ wrap64 (st.max_supply.amount - st.supply.amount)
  swap
  · rw [if_pos h7, if_pos h7]; rfl
  rw [if_neg (not_not.2 h7), if_neg (not_not.2 h7)]
  rcases st.supply.add q with e | supply
  · rfl
  dsimp only
  rw [andThen_result _ _
    (fun s2 => if to_ ≠ st.issuer then
        transfer { env with has_auth := fun a => a == st.issuer } st.issuer to_ q memo s2
      else .ok s2)
    (fun t => by
      dsimp only
      by_cases h8 : to_ = st.issuer
      · rw [if_neg (not_not.2 h8), if_neg (not_not.2 h8)]; rfl
      · rw [if_pos h8, if_pos h8]; exact transfer_run_result _ _ _ _ _ _), stmt_result]

/-- The state after a call of `issue` is what the host commits of its run. -/
theorem issue_commit_eq_step (cfg : Config) (env : Env) (to_ : Nat) (q : asset)
    (memo : List Nat) (s : State) :
    (issue_run env to_ q memo s).commit s = step cfg env (.issue to_ q memo) s := by
  have h := issue_run_result env to_ q memo s
  unfold step run
  simp only
  rw [← h]
  unfold Run.commit Run.result
  rcases (issue_run env to_ q memo s).abort with _ | e <;> rfl



theorem wrap64_add_ne (x q : Int) (h1 : 0 < q) (h2 : q ≤ max_amount) : wrap64 (x + q) ≠ x := by
  rw [max_amount_val] at h2
  intro h
  unfold wrap64 at h
  norm_num at h
  omega

/-- The writes of `transfer` never touch the `stats` table, also when it aborts half way. -/
theorem transfer_run_stats (env : Env) (from_ to_ : Nat) (q : asset) (memo : List Nat)
    (s : State) : (transfer_run env from_ to_ q memo s).db.stats = s.stats := by
  unfold transfer_run
  dsimp only
  by_cases h1 : from_ = to_
  · rw [if_pos h1]
  rw [if_neg h1]
  by_cases h2 : env.has_auth from_ = true
  swap
  · rw [if_pos h2]
  rw [if_neg (not_not.2 h2)]
  by_cases h3 : env.is_account to_ = true
  swap
  · rw [if_pos h3]
  rw [if_neg (not_not.2 h3)]
  rcases s.find_stats q.symbol.name q.symbol.name with _ | st
  · rfl
  dsimp only
  by_cases h4 : q.is_valid = true
  swap
  · rw [if_pos h4]
  rw [if_neg (not_not.2 h4)]
  by_cases h5 : q.amount > 0
  swap
  · rw [if_pos h5]
  rw [if_neg (not_not.2 h5)]
  by_cases h6 : q.symbol = st.supply.symbol
  swap
  · rw [if_pos h6]
  rw [if_neg (not_not.2 h6)]
  by_cases h7 : memo.length ≤ 256
  swap
  · rw [if_pos h7]
  rw [if_neg (not_not.2 h7)]
  unfold Run.stmt Run.andThen
  rcases hs : sub_balance from_ q s with e | t
  · rfl
  · have ht : t.stats = s.stats := (sub_balance_ok hs).choose_spec.2.2.1
    dsimp only
    rcases ha : add_balance to_ q from_ t with e | s2
    · exact ht
    · exact ((add_balance_ok ha).1).trans ht

/-- The run of `issue` once its own checks have passed. -/
theorem issue_run_eq {env : Env} (to_ : Nat) {q : asset} {memo : List Nat} {s : State}
    {st : currency_stats}
    (h1 : q.symbol.is_valid = true) (h2 : memo.length ≤ 256)
    (hf : s.find_stats q.symbol.name q.symbol.name = some st)
    (h3 : env.has_auth st.issuer = true) (h4 : q.is_valid = true) (h5 : 0 < q.amount)
    (h6 : q.symbol = st.supply.symbol)
    (h7 : q.amount ≤ wrap64 (st.max_supply.amount - st.supply.amount)) :
    issue_run env to_ q memo s =
      match st.supply.add q with
      | .error e => ⟨s, some e⟩
      | .ok supply =>
        (Run.stmt (add_balance st.issuer q st.issuer)
          { s with stats :=
              (Table.modify currency_stats.primary_key s.stats q.symbol.name q.symbol.name
                { st with supply := supply }) }).andThen (fun s2 =>
            if to_ ≠ st.issuer then
              transfer_run { env with has_auth := fun a => a == st.issuer }
                st.issuer to_ q memo s2
            else ⟨s2, none⟩) := by
  unfold issue_run
  dsimp only
  rw [if_neg (not_not.2 h1), if_neg (not_not.2 h2), hf]
  dsimp only
  rw [if_neg (not_not.2 h3), if_neg (not_not.2 h4), if_neg (not_not.2 h5),
    if_neg (not_not.2 h6), if_neg (not_not.2 h7)]

/-- The database in which the follow-on transfer of `issue` starts holds the two writes of
lines 50-54: the `stats` row with the new supply, which differs from the old one, and a row
of the issuer that differs from what the issuer had. -/
theorem issue_writes {q : asset} {s s2 : State} {st : currency_stats} {supply : asset}
    (hf : s.find_stats q.symbol.name q.symbol.name = some st)
    (h4 : q.is_valid = true) (h5 : 0 < q.amount)
    (hsup : st.supply.add q = .ok supply)
    (hadd : add_balance st.issuer q st.issuer
      { s with stats :=
          (Table.modify currency_stats.primary_key s.stats q.symbol.name q.symbol.name
            { st with supply := supply }) } = .ok s2) :
    s2.find_stats q.symbol.name q.symbol.name = some { st with supply := supply } ∧
    supply.amount = wrap64 (st.supply.amount + q.amount) ∧
    supply.amount ≠ st.supply.amount ∧
    (∃ row, s2.find_account st.issuer q.symbol.name = some row ∧
      ((s.find_account st.issuer q.symbol.name = none ∧ row = ⟨q⟩) ∨
        ∃ a, s.find_account st.issuer q.symbol.name = some a ∧
          a.balance.add q = .ok row.balance)) ∧
    s2.find_account st.issuer q.symbol.name ≠ s.find_account st.issuer q.symbol.name := by
  have hv := is_valid_in_range h4
  obtain ⟨_, hse, _, _⟩ := asset_add_ok hsup
  have hpk : st.supply.symbol.name = q.symbol.name :=
    find_some_pk currency_stats.primary_key hf
  have hpk2 : currency_stats.primary_key { st with supply := supply } = q.symbol.name := by
    rw [hse]; exact hpk
  obtain ⟨hst2, hcase⟩ := add_balance_ok hadd
  simp only at hst2
  have hamt : supply.amount = wrap64 (st.supply.amount + q.amount) := by rw [hse]
  have hfs : s2.find_stats q.symbol.name q.symbol.name = some { st with supply := supply } := by
    unfold State.find_stats
    rw [hst2]
    exact find_modify_self _ _ _ _ st _ hf hpk2
  refine ⟨hfs, hamt, by rw [hamt]; exact wrap64_add_ne _ _ h5 hv.2, ?_⟩
  rcases hcase with ⟨hnone, hacc⟩ | ⟨a, b, hfa, hb, hacc⟩
  · have hnone1 : s.find_account st.issuer q.symbol.name = none := hnone
    have hrow : s2.find_account st.issuer q.symbol.name = some ⟨q⟩ := by
      unfold State.find_account at hnone1 ⊢
      rw [hacc]
      simp only
      rw [find_append, hnone1]
      simp [account.primary_key]
    refine ⟨⟨⟨q⟩, hrow, Or.inl ⟨hnone1, rfl⟩⟩, ?_⟩
    rw [hrow, hnone1]
    simp
  · have hfa1 : s.find_account st.issuer q.symbol.name = some a := hfa
    obtain ⟨_, hbe, _, _⟩ := asset_add_ok hb
    have hpka := find_account_pk hfa1
    have hrow : s2.find_account st.issuer q.symbol.name = some ⟨b⟩ := by
      unfold State.find_account
      rw [hacc]
      apply find_modify_self account.primary_key _ _ _ a ⟨b⟩ hfa
      rw [hbe]; exact hpka
    refine ⟨⟨⟨b⟩, hrow, Or.inr ⟨a, hfa1, hb⟩⟩, ?_⟩
    rw [hrow, hfa1]
    intro hh
    have hab : b = a.balance := by
      have := Option.some.inj hh
      rw [← this]
    have h1 : b.amount = wrap64 (a.balance.amount + q.amount) := by rw [hbe]
    rw [hab] at h1
    exact wrap64_add_ne _ _ h5 hv.2 h1.symm



/-- C9 (issue is one transaction). Let the own checks of `issue(to, quantity, memo)` pass
(valid symbol, memo length, token registered, authority of the issuer, valid positive
quantity, matching symbol, cap) and let `to` differ from the issuer. If the supply update
and the credit of the issuer go through, leaving the database `s2`, and the follow-on
`transfer(issuer, to, quantity, memo)` aborts with `e`, then:

* the two writes of lines 50-54 were made: in `s2` the `stats` row holds the new supply,
  which differs from the old one, and the issuer holds a credited row, which differs from
  what the issuer had (on a well-formed state: supply and issuer balance are up by exactly
  `quantity.amount`);
* the run of `issue` aborts with `e` and at that moment the database still holds the new
  supply, so it is not the database the call started from;
* the transaction of the host undoes the writes: the committed state, which is the state
  after the call, is the state before the call, with the old `stats` row and the old row of
  the issuer, and the caller sees the abort `e`.

In particular, when `to` is not an existing account, `issue` aborts and the state is
unchanged; if the supply update and the credit went through, the run stops with `e.11` on
the database `s2` that holds both writes. -/
theorem issue_one_transaction (cfg : Config) (env : Env) (to_ : Nat) (q : asset)
    (memo : List Nat) (s : State) (st : currency_stats)
    (h1 : q.symbol.is_valid = true) (h2 : memo.length ≤ 256)
    (hf : s.find_stats q.symbol.name q.symbol.name = some st)
    (h3 : env.has_auth st.issuer = true) (h4 : q.is_valid = true) (h5 : 0 < q.amount)
    (h6 : q.symbol = st.supply.symbol)
    (h7 : q.amount ≤ wrap64 (st.max_supply.amount - st.supply.amount))
    (hne : to_ ≠ st.issuer) :
    (∀ supply s2 e, st.supply.add q = .ok supply →
      add_balance st.issuer q st.issuer
        { s with stats :=
            (Table.modify currency_stats.primary_key s.stats q.symbol.name q.symbol.name
              { st with supply := supply }) } = .ok s2 →
      transfer { env with has_auth := fun a => a == st.issuer } st.issuer to_ q memo s2
        = .error e →
      (s2.find_stats q.symbol.name q.symbol.name = some { st with supply := supply } ∧
        supply.amount = wrap64 (st.supply.amount + q.amount) ∧
        supply.amount ≠ st.supply.amount ∧
        (∃ row, s2.find_account st.issuer q.symbol.name = some row ∧
          ((s.find_account st.issuer q.symbol.name = none ∧ row = ⟨q⟩) ∨
            ∃ a, s.find_account st.issuer q.symbol.name = some a ∧
              a.balance.add q = .ok row.balance)) ∧
        s2.find_account st.issuer q.symbol.name ≠ s.find_account st.issuer q.symbol.name ∧
        (s.WF → supply.amount = st.supply.amount + q.amount ∧
          balance_of s2 st.issuer q.symbol.name =
            balance_of s st.issuer q.symbol.name + q.amount)) ∧
      ((issue_run env to_ q memo s).abort = some e ∧
        (issue_run env to_ q memo s).db.find_stats q.symbol.name q.symbol.name =
          some { st with supply := supply } ∧
        (issue_run env to_ q memo s).db ≠ s) ∧
      ((issue_run env to_ q memo s).commit s = s ∧
        issue env to_ q memo s = .error e ∧
        step cfg env (.issue to_ q memo) s = s ∧
        (step cfg env (.issue to_ q memo) s).find_stats q.symbol.name q.symbol.name =
          some st ∧
        (step cfg env (.issue to_ q memo) s).find_account st.issuer q.symbol.name =
          s.find_account st.issuer q.symbol.name)) ∧
    (env.is_account to_ = false →
      (∃ e, issue env to_ q memo s = .error e) ∧ step cfg env (.issue to_ q memo) s = s ∧
      (∀ supply s2, st.supply.add q = .ok supply →
        add_balance st.issuer q st.issuer
          { s with stats :=
              (Table.modify currency_stats.primary_key s.stats q.symbol.name q.symbol.name
                { st with supply := supply }) } = .ok s2 →
        issue_run env to_ q memo s = ⟨s2, some .e_11⟩ ∧ s2 ≠ s ∧
        issue env to_ q memo s = .error .e_11)) := by
  have hrun := @issue_run_eq env to_ _ _ _ _ h1 h2 hf h3 h4 h5 h6 h7
  -- the run of issue is the run of the follow-on transfer on the written database
  have hrun2 : ∀ supply s2, st.supply.add q = .ok supply →
      add_balance st.issuer q st.issuer
        { s with stats :=
            (Table.modify currency_stats.primary_key s.stats q.symbol.name q.symbol.name
              { st with supply := supply }) } = .ok s2 →
      issue_run env to_ q memo s =
        transfer_run { env with has_auth := fun a => a == st.issuer } st.issuer to_ q memo
          s2 := by
    intro supply s2 hsup hadd
    rw [hrun, hsup]
    dsimp only
    unfold Run.stmt
    rw [hadd]
    unfold Run.andThen
    dsimp only
    rw [if_pos hne]
  have hdiff : ∀ supply s2, st.supply.add q = .ok supply →
      add_balance st.issuer q st.issuer
        { s with stats :=
            (Table.modify currency_stats.primary_key s.stats q.symbol.name q.symbol.name
              { st with supply := supply }) } = .ok s2 →
      ∀ t : State, t.stats = s2.stats → t ≠ s := by
    intro supply s2 hsup hadd t ht hts
    obtain ⟨hw1, _, hw3, _⟩ := issue_writes hf h4 h5 hsup hadd
    rw [← find_stats_congr ht, hts, hf] at hw1
    have := Option.some.inj hw1
    apply hw3
    rw [this]
  have hgen : ∀ supply s2 e, st.supply.add q = .ok supply →
      add_balance st.issuer q st.issuer
        { s with stats :=
            (Table.modify currency_stats.primary_key s.stats q.symbol.name q.symbol.name
              { st with supply := supply }) } = .ok s2 →
      transfer { env with has_auth := fun a => a == st.issuer } st.issuer to_ q memo s2
        = .error e →
      issue env to_ q memo s = .error e := by
    intro supply s2 e hsup hadd htr
    rw [← issue_run_result, hrun2 supply s2 hsup hadd, transfer_run_result]
    exact htr
  have htr11 : ∀ s2, env.is_account to_ = false →
      transfer_run { env with has_auth := fun a => a == st.issuer } st.issuer to_ q memo s2
        = ⟨s2, some .e_11⟩ := by
    intro s2 hacc
    unfold transfer_run
    dsimp only
    rw [if_neg (fun hh => hne hh.symm), if_neg (by simp), if_pos (by simp [hacc])]
  refine ⟨?_, ?_⟩
  · intro supply s2 e hsup hadd htr
    have hissue := hgen supply s2 e hsup hadd htr
    have hstep : step cfg env (.issue to_ q memo) s = s :=
      step_of_error (a := .issue to_ q memo) hissue
    obtain ⟨hw1, hw2, hw3, hw4, hw5⟩ := issue_writes hf h4 h5 hsup hadd
    have hres := issue_run_result env to_ q memo s
    have habort : (issue_run env to_ q memo s).abort = some e := by
      rw [hissue] at hres
      unfold Run.result at hres
      rcases hab : (issue_run env to_ q memo s).abort with _ | e1
      · rw [hab] at hres; cases hres
      · rw [hab] at hres
        simp only [Except.error.injEq] at hres
        rw [hres]
    have hdbstats : (issue_run env to_ q memo s).db.stats = s2.stats := by
      rw [hrun2 supply s2 hsup hadd]
      exact transfer_run_stats _ _ _ _ _ _
    refine ⟨⟨hw1, hw2, hw3, hw4, hw5, ?_⟩, ⟨habort, ?_, ?_⟩, ?_, hissue, hstep, ?_, ?_⟩
    · intro hwf
      obtain ⟨_, _, _, _, hiss, _⟩ := issue_mint_effect hwf hf h4 hsup hadd
      obtain ⟨hsr, _⟩ := wf_stats_in_range hwf hf
      obtain ⟨_, hse, _⟩ := asset_add_exact hsup hsr (is_valid_in_range h4)
      refine ⟨by rw [hse], ?_⟩
      conv_lhs => unfold balance_of
      rw [hiss]
    · rw [find_stats_congr hdbstats]; exact hw1
    · exact hdiff supply s2 hsup hadd _ hdbstats
    · unfold Run.commit
      rw [habort]
    · rw [hstep]; exact hf
    · rw [hstep]
  · intro hacc
    have hfail : ∃ e, issue env to_ q memo s = .error e := by
      rcases hsup : st.supply.add q with e | supply
      · refine ⟨e, ?_⟩
        rw [← issue_run_result, hrun, hsup]
        rfl
      · rcases hadd : add_balance st.issuer q st.issuer
          { s with stats :=
              (Table.modify currency_stats.primary_key s.stats q.symbol.name q.symbol.name
                { st with supply := supply }) } with e | s2
        · refine ⟨e, ?_⟩
          rw [← issue_run_result, hrun, hsup]
          dsimp only
          unfold Run.stmt
          rw [hadd]
          rfl
        · refine ⟨.e_11, ?_⟩
          rw [← issue_run_result, hrun2 supply s2 hsup hadd, htr11 s2 hacc]
          rfl
    refine ⟨hfail, step_of_fail (a := .issue to_ q memo) hfail, ?_⟩
    intro supply s2 hsup hadd
    have hr : issue_run env to_ q memo s = ⟨s2, some .e_11⟩ := by
      rw [hrun2 supply s2 hsup hadd, htr11 s2 hacc]
    refine ⟨hr, hdiff supply s2 hsup hadd s2 rfl, ?_⟩
    rw [← issue_run_result, hr]
    rfl

theorem issue_one_transaction_witness :
    issue_run ⟨fun _ => true, fun a => a != 12⟩ 12 (RB 5000000) [] demo_created =
      ⟨⟨[(16978, ⟨RB 5000000, RB 10000000000, 10⟩)], [(10, ⟨RB 5000000⟩)]⟩, some .e_11⟩ ∧
    demo_created = ⟨[(16978, ⟨RB 0, RB 10000000000, 10⟩)], []⟩ ∧
    (issue_run ⟨fun _ => true, fun a => a != 12⟩ 12 (RB 5000000) [] demo_created).commit
      demo_created = demo_created ∧
    issue ⟨fun _ => true, fun a => a != 12⟩ 12 (RB 5000000) [] demo_created = .error .e_11 ∧
    step demo_cfg ⟨fun _ => true, fun a => a != 12⟩ (.issue 12 (RB 5000000) []) demo_created
      = demo_created :=
  ⟨(((issue_one_transaction demo_cfg ⟨fun _ => true, fun a => a != 12⟩ 12 (RB 5000000) []
      demo_created ⟨RB 0, RB 10000000000, 10⟩ (by decide) (by decide) (by decide) (by decide)
      (by decide) (by decide) (by decide) (by decide) (by decide)).2 (by decide)).2.2
        (RB 5000000) ⟨[(16978, ⟨RB 5000000, RB 10000000000, 10⟩)], [(10, ⟨RB 5000000⟩)]⟩
          (by decide) (by decide)).1,
    by decide, by decide, by decide, by decide⟩


end Rankblock
